import Mathlib

/-!
# ElVoidDB storage layer (`src/Storage.cpp`)

A shallow embedding of the row codec, the table file and the file manager of
`Storage.cpp`, and theorems about them.

Conventions of the embedding.

* A `std::string` is a list of bytes; a row is a list of such strings.
* A `uint16_t` is a natural number below `65536`; every conversion to
  `uint16_t` is written `% 65536`.  A `size_t` is a natural number below
  `2 ^ 64`.
* `reinterpret_cast` of a `uint16_t` to two bytes uses the byte order of the
  machine, which is a parameter (`Endian`) of the codec.
* A read through a raw pointer is a lookup in the list of bytes that starts at
  that pointer; a read outside that list has no defined result and is `none`.
* `PAGE_SIZE` is declared outside `Storage.cpp` and is the parameter `PS`.
* The files and the process-wide buffer pool form the world `Sys`.  An operation
  takes the world and returns its result together with the world after it, also
  when it throws: what it did before the `throw` stays done.
* `Page` and `BufferPool` are used by `Storage.cpp` and defined outside it; their
  operations are modelled from the specification and marked as such.
-/

namespace ElVoidDB

/-! ## Bytes and 16-bit fields -/

/-- One `char` of a `std::string` or of a page. -/
abbrev Byte := Fin 256

/-- A `std::vector<std::string>`. -/
abbrev Row := List (List Byte)

/-- Byte order of the machine the code runs on. -/
inductive Endian where
  | little
  | big
deriving DecidableEq, Repr

/-- The byte holding `n % 256`. -/
def byteOf (n : Nat) : Byte := ⟨n % 256, Nat.mod_lt n (by decide)⟩

/-- Object representation of the `uint16_t` value `v` (`v < 65536`), as
`reinterpret_cast<const char*>(&v)` exposes it. -/
def u16Bytes (e : Endian) (v : Nat) : List Byte :=
  match e with
  | .little => [byteOf v, byteOf (v / 256)]
  | .big => [byteOf (v / 256), byteOf v]

/-- The `uint16_t` whose object representation is the two bytes `b0 b1`. -/
def u16Value (e : Endian) (b0 b1 : Byte) : Nat :=
  match e with
  | .little => b0.val + 256 * b1.val
  | .big => 256 * b0.val + b1.val

/-- The read `*reinterpret_cast<const uint16_t*>(data + off)`; `none` when one of
the two bytes lies outside the buffer. -/
def loadU16 (e : Endian) (data : List Byte) (off : Nat) : Option Nat :=
  match data[off]?, data[off + 1]? with
  | some b0, some b1 => some (u16Value e b0 b1)
  | _, _ => none

/-- The copy `std::string(data + off, n)`; `none` when it would read outside the
buffer. -/
def loadBytes (data : List Byte) (off n : Nat) : Option (List Byte) :=
  if off + n ≤ data.length then some ((data.drop off).take n) else none

/-! ## Row codec (`TableFile::serializeRow`, `TableFile::deserializeRow`) -/

/-- `TableFile::serializeRow`. -/
def serializeRow (e : Endian) (row : Row) : List Byte :=
  let colCnt := row.length % 65536
  let out := u16Bytes e colCnt
  row.foldl (fun out col =>
    let len := col.length % 65536
    out ++ u16Bytes e len ++ col) out

/-- The loop `while (colCnt--)` of `TableFile::deserializeRow`: `colCnt` columns
are still to be read, `ptr` is the offset of the cursor from `data`, `lim` the
offset of `end`. -/
def deserializeLoop (e : Endian) (data : List Byte) (lim : Nat) :
    Nat → Nat → Row → Option Row
  | 0, _, out => some out
  | colCnt + 1, ptr, out =>
    if ptr + 2 > lim then some []
    else
      match loadU16 e data ptr with
      | none => none
      | some slen =>
        if ptr + 2 + slen > lim then some []
        else
          match loadBytes data (ptr + 2) slen with
          | none => none
          | some col => deserializeLoop e data lim colCnt (ptr + 2 + slen) (out ++ [col])

/-- `TableFile::deserializeRow(data, len)`.  `data` is the memory that starts at
the pointer; the parameter `len` is a `uint16_t`, so the argument is reduced
modulo `65536`.  The result is `none` when the function reads outside `data`. -/
def deserializeRow (e : Endian) (data : List Byte) (len : Nat) : Option Row :=
  let lim := len % 65536
  if 2 > lim then some []
  else
    match loadU16 e data 0 with
    | none => none
    | some colCnt => deserializeLoop e data lim colCnt 2 []

/-! ## Pages

`Page` and `PAGE_SIZE` are declared in a header that is not part of
`Storage.cpp`.  `PAGE_SIZE` is a parameter `PS` of every definition below; the
operations of `Page` follow section 3 and section 4.1 of the specification.
The specification does not fix the encoding of the page header: where a
property must not depend on it, the operations of `Page` are a parameter
(`PageOps`, further down). -/

/-- The raw bytes of a `Page` (`Page::raw()`), `PAGE_SIZE` of them. -/
abbrev Page := List Byte

/-- The copy `memcpy(buf + off, src, src.size())`. -/
def overwrite (buf : List Byte) (off : Nat) (src : List Byte) : List Byte :=
  buf.take off ++ src ++ buf.drop (off + src.length)

/-- A zero-filled page of `PS` bytes. -/
def Page.zero (PS : Nat) : Page := List.replicate PS 0

/-- Modelled from the spec: the record count in the header of a slotted page
(the layout of `Page` is not among the sources; the header is taken to be two
16-bit fields, record count then free-space boundary, followed by the slot
directory of 16-bit offset/length pairs). -/
def Page.recordCount (e : Endian) (pg : Page) : Nat := (loadU16 e pg 0).getD 0

/-- Modelled from the spec: the free-space boundary in the header of a slotted
page, the offset at which the packed record bytes start (the layout of `Page`
is not among the sources). -/
def Page.freeEnd (e : Endian) (pg : Page) : Nat := (loadU16 e pg 2).getD 0

/-- Modelled from the spec: the end of the slot directory, which grows forward
from the header (the layout of `Page` is not among the sources). -/
def Page.slotEnd (e : Endian) (pg : Page) : Nat := 4 + 4 * Page.recordCount e pg

/-- Modelled from the spec: a freshly constructed `Page` (its constructor is not
among the sources): zero-filled, no record, free-space boundary at the page
end. -/
def Page.fresh (PS : Nat) (e : Endian) : Page :=
  overwrite (Page.zero PS) 0 (u16Bytes e 0 ++ u16Bytes e (PS % 65536))

/-- Modelled from the spec: `Page::insertRecord` (not among the sources).
"Appends a slot + record if space allows; returns a full-sentinel otherwise,
leaving the page unmodified"; it "fails when that gap is smaller than (one slot
entry + record length)".  `none` is the full sentinel; otherwise the slot index
and the page after the insertion. -/
def Page.insertRecord (e : Endian) (pg : Page) (rec : List Byte) : Option (Nat × Page) :=
  let cnt := Page.recordCount e pg
  let free := Page.freeEnd e pg
  if free < Page.slotEnd e pg + (4 + rec.length) then none
  else
    let off := free - rec.length
    let pg1 := overwrite pg off rec
    let pg2 := overwrite pg1 (4 + 4 * cnt) (u16Bytes e off ++ u16Bytes e rec.length)
    let pg3 := overwrite pg2 0 (u16Bytes e (cnt + 1) ++ u16Bytes e off)
    some (cnt, pg3)

/-- Modelled from the spec: the slot directory entry `i` of a page, offset and
length of record `i` (the layout of `Page` is not among the sources). -/
def Page.slot (e : Endian) (pg : Page) (i : Nat) : Nat × Nat :=
  ((loadU16 e pg (4 + 4 * i)).getD 0, (loadU16 e pg (4 + 4 * i + 2)).getD 0)

/-- Modelled from the spec: `Page::forEachRecord` (not among the sources), as the
list of the arguments `(pointer, length)` it passes to `visit`, "for every live
record in ascending slot order"; the pointer is given as an offset into the
page. -/
def Page.forEachRecord (e : Endian) (pg : Page) : List (Nat × Nat) :=
  (List.range (Page.recordCount e pg)).map (Page.slot e pg)

/-! ## The world: file system and buffer pool

`BufferPool.hpp` is not among the sources; `gBufPool` follows section 4.2 of
the specification. -/

/-- How an operation can fail. -/
inductive Failure where
  /-- The exception `throw StorageError(msg)`. -/
  | storageError (msg : String)
  /-- The resource-exhaustion condition of the buffer pool. -/
  | poolExhausted
  /-- An `unpin` that has no matching `get`. -/
  | pinViolation
  /-- A read or write outside a buffer: undefined behaviour. -/
  | outOfBounds
deriving DecidableEq, Repr

/-- Modelled from the spec: a frame of the buffer pool (`BufferPool.hpp` is not
among the sources), "one cached Page plus identity (file identity, page number),
a nonnegative pin count, a dirty flag, and recency metadata"; the recency of a
frame is its position in the list of frames of the pool. -/
structure Frame where
  file : String
  pageNo : Nat
  page : Page
  pin : Nat
  dirty : Bool
deriving DecidableEq, Repr

/-- Calls recorded in the ghost trace of the world. -/
inductive Event where
  | get (file : String) (pageNo : Nat)
  | unpin (file : String) (pageNo : Nat)
  | markDirty (file : String) (pageNo : Nat)
  | readPage (file : String) (pageNo : Nat)
  | writePage (file : String) (pageNo : Nat) (pg : Page)
deriving DecidableEq, Repr

/-- The state outside the objects of `Storage.cpp`: the files by path, and the
process-wide buffer pool `gBufPool` (frames from most to least recently used,
and its fixed capacity).  `trace` is a ghost field: the calls made so far, in
order; no operation reads it. -/
structure Sys where
  files : String → Option (List Byte)
  frames : List Frame
  capacity : Nat
  trace : List Event

/-- Whether frame `f` caches page `n` of `file`. -/
def Frame.hasKey (f : Frame) (file : String) (n : Nat) : Bool :=
  decide (f.file = file ∧ f.pageNo = n)

/-- The frame of the pool for page `n` of `file`, if resident. -/
def lookupFrame (fs : List Frame) (file : String) (n : Nat) : Option Frame :=
  fs.find? (fun f => f.hasKey file n)

/-- The frames without the one for page `n` of `file`. -/
def dropFrame (fs : List Frame) (file : String) (n : Nat) : List Frame :=
  fs.filter (fun f => !f.hasKey file n)

/-- The frames with `g` applied to the frame for page `n` of `file`. -/
def modifyFrame (fs : List Frame) (file : String) (n : Nat) (g : Frame → Frame) :
    List Frame :=
  fs.map (fun f => if f.hasKey file n then g f else f)

/-- Byte `i` of a file's contents, zero past its end. -/
def byteAt (content : List Byte) (i : Nat) : Byte := content.getD i 0

/-- Modelled from the spec: the bytes a frame is loaded with for page `n` on a miss
of `BufferPool::get` (not among the sources), "from the backing store if the
page already exists there, else zero-initializes": the bytes of the backing
store at that page, zero where the store has none. -/
def diskPage (PS : Nat) (content : List Byte) (n : Nat) : Page :=
  (List.range PS).map (fun i => byteAt content (n * PS + i))

/-- Modelled from the spec: the contents of a file after the write-back of page `n`
by the buffer pool (not among the sources); the file is extended with zero
bytes up to the page when it is shorter. -/
def storePage (PS : Nat) (content : List Byte) (n : Nat) (pg : Page) : List Byte :=
  (List.range (max content.length (n * PS + PS))).map (fun i =>
    if n * PS ≤ i ∧ i < n * PS + PS then byteAt pg (i - n * PS) else byteAt content i)

/-- Modelled from the spec: the write-back of frame `f` to its backing store by the
buffer pool (not among the sources). -/
def writeBack (PS : Nat) (files : String → Option (List Byte)) (f : Frame) :
    String → Option (List Byte) :=
  fun p => if p = f.file then some (storePage PS ((files p).getD []) f.pageNo f.page)
    else files p

/-- Modelled from the spec: the eviction victim of `BufferPool::get` (not among the
sources), "among pin-count-0 frames by a recency policy (e.g.
least-recently-used)": the least recently used frame with pin count zero. -/
def victim (fs : List Frame) : Option Frame :=
  fs.reverse.find? (fun f => decide (f.pin = 0))

/-- The world after a call is recorded in the ghost trace. -/
def Sys.log (s : Sys) (ev : Event) : Sys := { s with trace := s.trace ++ [ev] }

/-- Modelled from the spec: the load of `BufferPool::get` (not among the sources)
on a miss: a new frame for page `n` of `file`, loaded from the backing store,
pinned once, as the most recently used frame. -/
def loadFrame (PS : Nat) (s : Sys) (file : String) (n : Nat) : Except Failure Page × Sys :=
  let pg := diskPage PS ((s.files file).getD []) n
  let frame : Frame := { file := file, pageNo := n, page := pg, pin := 1, dirty := false }
  (.ok pg, { s with frames := frame :: s.frames })

/-- Modelled from the spec: `BufferPool::get` (not among the sources).  "On hit,
increments pin count and returns the frame.  On miss: if at capacity, selects an
eviction victim among pin-count-0 frames by a recency policy; if the victim is
dirty, writes its bytes back to its backing store before reuse; if no unpinned
frame exists, fails with a resource-exhaustion condition.  Loads bytes from the
backing store if the page already exists there, else zero-initializes.
Increments pin count on success."  The result is the page of the frame. -/
def BufferPool.get (PS : Nat) (s : Sys) (file : String) (n : Nat) :
    Except Failure Page × Sys :=
  let s := s.log (.get file n)
  match lookupFrame s.frames file n with
  | some f =>
    (.ok f.page, { s with frames := { f with pin := f.pin + 1 } :: dropFrame s.frames file n })
  | none =>
    if s.frames.length < s.capacity then loadFrame PS s file n
    else
      match victim s.frames with
      | none => (.error .poolExhausted, s)
      | some v =>
        let files := if v.dirty then writeBack PS s.files v else s.files
        loadFrame PS { s with files := files, frames := dropFrame s.frames v.file v.pageNo }
          file n

/-- Modelled from the spec: `BufferPool::unpin` (not among the sources).
"Decrements pin count; decrementing below zero is a usage-contract violation,
not a silent no-op." -/
def BufferPool.unpin (s : Sys) (file : String) (n : Nat) : Except Failure Unit × Sys :=
  let s := s.log (.unpin file n)
  match lookupFrame s.frames file n with
  | none => (.error .pinViolation, s)
  | some f =>
    if f.pin = 0 then (.error .pinViolation, s)
    else
      let frames := modifyFrame s.frames file n (fun g => { g with pin := g.pin - 1 })
      (.ok (), { s with frames := frames })

/-- Modelled from the spec: `BufferPool::markDirty` (not among the sources).
"Sets the dirty flag; performs no I/O itself." -/
def BufferPool.markDirty (s : Sys) (file : String) (n : Nat) : Sys :=
  let s := s.log (.markDirty file n)
  { s with frames := modifyFrame s.frames file n (fun g => { g with dirty := true }) }

/-- The store `memcpy(frame.raw(), pg.raw(), PAGE_SIZE)` through the reference
that `get` returned for page `n` of `file`. -/
def storeFrame (s : Sys) (file : String) (n : Nat) (pg : Page) : Sys :=
  { s with frames := modifyFrame s.frames file n (fun g => { g with page := pg }) }

/-! ## `BlockFile` -/

/-- A `BlockFile`: its `path_`; the stream `file_` is open on that path. -/
structure BlockFile where
  path_ : String
deriving DecidableEq, Repr

/-- `BlockFile::readPage(n, pg)`; the result is the new contents of `pg`. -/
def BlockFile.readPage (PS : Nat) (bf : BlockFile) (s : Sys) (n : Nat) :
    Except Failure Page × Sys :=
  let s := s.log (.readPage bf.path_ n)
  match BufferPool.get PS s bf.path_ n with
  | (.error err, s1) => (.error err, s1)
  | (.ok frame, s1) =>
    match BufferPool.unpin s1 bf.path_ n with
    | (.error err, s2) => (.error err, s2)
    | (.ok _, s2) => (.ok frame, s2)

/-- `BlockFile::writePage(n, pg)`. -/
def BlockFile.writePage (PS : Nat) (bf : BlockFile) (s : Sys) (n : Nat) (pg : Page) :
    Except Failure Unit × Sys :=
  let s := s.log (.writePage bf.path_ n pg)
  match BufferPool.get PS s bf.path_ n with
  | (.error err, s1) => (.error err, s1)
  | (.ok _, s1) =>
    let s2 := storeFrame s1 bf.path_ n pg
    let s3 := BufferPool.markDirty s2 bf.path_ n
    BufferPool.unpin s3 bf.path_ n

/-- The number of values of `size_t`. -/
def sizeMod : Nat := 2 ^ 64

/-- `BlockFile::pageCount()`: the length of the file, as a `size_t`, divided by
`PAGE_SIZE`. -/
def BlockFile.pageCount (PS : Nat) (bf : BlockFile) (s : Sys) : Nat :=
  (((s.files bf.path_).getD []).length % sizeMod) / PS

/-- The constructor `BlockFile::BlockFile(p, create)`.  With `create` the open
mode has `trunc`: the file exists and is empty afterwards.  Without it the open
fails when the file does not exist. -/
def BlockFile.ctor (PS : Nat) (e : Endian) (s : Sys) (p : String) (create : Bool) :
    Except Failure BlockFile × Sys :=
  let bf : BlockFile := { path_ := p }
  if create then
    let s1 := { s with files := fun q => if q = p then some [] else s.files q }
    let meta := Page.fresh PS e
    match bf.writePage PS s1 0 meta with
    | (.error err, s2) => (.error err, s2)
    | (.ok _, s2) => (.ok bf, s2)
  else
    match s.files p with
    | none => (.error (.storageError ("cannot open " ++ p)), s)
    | some _ => (.ok bf, s)

/-! ## `TableFile` -/

/-- The text `"cols:"`. -/
def colsTag : List Byte := [99, 111, 108, 115, 58]

/-- The character `','`. -/
def comma : Byte := 44

/-- The loop of the constructor of `TableFile` that appends the column names to
`hdr`, a comma after each but the last. -/
def headerLoop : List (List Byte) → List Byte → List Byte
  | [], hdr => hdr
  | c :: rest, hdr =>
    let hdr := hdr ++ c
    let hdr := if rest ≠ [] then hdr ++ [comma] else hdr
    headerLoop rest hdr

/-- A `TableFile`: its block file `bf_`. -/
structure TableFile where
  bf_ : BlockFile
deriving DecidableEq, Repr

/-- The constructor `TableFile::TableFile(t, create, cols)`.  The `memcpy` of the
header into the page is out of bounds when the header is longer than a page. -/
def TableFile.ctor (PS : Nat) (e : Endian) (s : Sys) (t : String) (create : Bool)
    (cols : List (List Byte)) : Except Failure TableFile × Sys :=
  match BlockFile.ctor PS e s (t ++ ".tbl") create with
  | (.error err, s1) => (.error err, s1)
  | (.ok bf, s1) =>
    if create then
      let meta := Page.fresh PS e
      let hdr := headerLoop cols colsTag
      if hdr.length > PS then (.error .outOfBounds, s1)
      else
        let meta := overwrite meta 0 hdr
        match bf.writePage PS s1 0 meta with
        | (.error err, s2) => (.error err, s2)
        | (.ok _, s2) => (.ok { bf_ := bf }, s2)
    else (.ok { bf_ := bf }, s1)

/-- `TableFile::appendRow(row)`. -/
def TableFile.appendRow (PS : Nat) (e : Endian) (tf : TableFile) (s : Sys) (row : Row) :
    Except Failure Unit × Sys :=
  let bytes := serializeRow e row
  let last := (tf.bf_.pageCount PS s + sizeMod - 1) % sizeMod
  if last = 0 then
    match (Page.fresh PS e).insertRecord e bytes with
    | none => (.error (.storageError "row too large"), s)
    | some (_, fresh) => tf.bf_.writePage PS s 1 fresh
  else
    match tf.bf_.readPage PS s last with
    | (.error err, s1) => (.error err, s1)
    | (.ok pg, s1) =>
      match pg.insertRecord e bytes with
      | none =>
        match (Page.fresh PS e).insertRecord e bytes with
        | none => (.error (.storageError "row too large"), s1)
        | some (_, fresh) => tf.bf_.writePage PS s1 ((last + 1) % sizeMod) fresh
      | some (_, pg1) => tf.bf_.writePage PS s1 last pg1

/-- The body of `forEachRecord` in `TableFile::loadAllRows`: the rows pushed for
the records `recs` of page `pg`, `none` when a decode reads outside the page. -/
def decodeRecords (e : Endian) (pg : Page) : List (Nat × Nat) → Option (List Row)
  | [] => some []
  | (off, len) :: recs =>
    match deserializeRow e (pg.drop off) len with
    | none => none
    | some row =>
      match decodeRecords e pg recs with
      | none => none
      | some rows => some (row :: rows)

/-- The loop of `TableFile::loadAllRows` from page `p` on, with `dest` the rows
pushed so far.  The result holds `dest` as the call leaves it.  `fuel` bounds
the number of iterations; `none` when it does not suffice. -/
def loadLoop (PS : Nat) (e : Endian) (tf : TableFile) :
    Nat → Sys → Nat → List Row → Option (Except Failure Unit × List Row × Sys)
  | 0, s, p, dest =>
    if p < tf.bf_.pageCount PS s then none else some (.ok (), dest, s)
  | fuel + 1, s, p, dest =>
    if p < tf.bf_.pageCount PS s then
      match tf.bf_.readPage PS s p with
      | (.error err, s1) => some (.error err, dest, s1)
      | (.ok pg, s1) =>
        match decodeRecords e pg (pg.forEachRecord e) with
        | none => some (.error .outOfBounds, dest, s1)
        | some rows => loadLoop PS e tf fuel s1 ((p + 1) % sizeMod) (dest ++ rows)
    else some (.ok (), dest, s)

/-- A bound on the page numbers `loadAllRows` can come to scan: the pages of the
file and the pages of the file that the pool holds. -/
def scanBound (PS : Nat) (tf : TableFile) (s : Sys) : Nat :=
  (s.frames.filter (fun f => decide (f.file = tf.bf_.path_))).foldl
    (fun b f => max b (f.pageNo + 1)) (tf.bf_.pageCount PS s)

/-- `TableFile::loadAllRows(dest)`. -/
def TableFile.loadAllRows (PS : Nat) (e : Endian) (tf : TableFile) (s : Sys)
    (dest : List Row) : Option (Except Failure Unit × List Row × Sys) :=
  loadLoop PS e tf (scanBound PS tf s) s 1 dest

/-- Position of the first occurrence of `pat` in `text` (`std::string::find`),
`none` for `npos`. -/
def findSub (pat : List Byte) : List Byte → Option Nat
  | [] => if pat = [] then some 0 else none
  | c :: cs =>
    if pat.isPrefixOf (c :: cs) then some 0
    else (findSub pat cs).map (fun i => i + 1)

/-- The loop `while (std::getline(ss, token, ',')) cols.push_back(token)` with the
stream inside a token: `cur` is the part of the token read so far. -/
def getlineLoop (cur : List Byte) : List Byte → List (List Byte)
  | [] => [cur]
  | c :: cs =>
    if c = comma then
      cur :: (match cs with
        | [] => []
        | _ :: _ => getlineLoop [] cs)
    else getlineLoop (cur ++ [c]) cs

/-- The tokens `std::getline(ss, token, ',')` extracts from `text` until it
fails: none from the empty text. -/
def getlineAll (text : List Byte) : List (List Byte) :=
  match text with
  | [] => []
  | _ :: _ => getlineLoop [] text

/-- `TableFile::columnList()`. -/
def TableFile.columnList (PS : Nat) (tf : TableFile) (s : Sys) :
    Except Failure (List (List Byte)) × Sys :=
  match tf.bf_.readPage PS s 0 with
  | (.error err, s1) => (.error err, s1)
  | (.ok meta, s1) =>
    let header := meta
    match findSub colsTag header with
    | none => (.ok [], s1)
    | some pos =>
      let list := header.drop (pos + 5)
      let list := list.takeWhile (fun c => c ≠ 0)
      (.ok (getlineAll list), s1)

/-! ## `FileManager` -/

/-- A `FileManager`.  `heap` holds the `TableFile` objects made by
`std::make_unique`, the address of an object being its index; `open_` maps a
table name to the address of its `TableFile`. -/
structure FileManager where
  heap : List TableFile
  open_ : String → Option Nat

/-- The assignment `open_[n] = std::make_unique<TableFile>(...)` for a constructed
object `tf`. -/
def FileManager.register (fm : FileManager) (n : String) (tf : TableFile) : FileManager :=
  { heap := fm.heap ++ [tf]
    open_ := fun m => if m = n then some fm.heap.length else fm.open_ m }

/-- `fs::exists(path)`. -/
def Sys.fileExists (s : Sys) (path : String) : Bool := (s.files path).isSome

/-- `FileManager::createTable(n, cols)`. -/
def FileManager.createTable (PS : Nat) (e : Endian) (fm : FileManager) (s : Sys)
    (n : String) (cols : List (List Byte)) : Except Failure Unit × FileManager × Sys :=
  if s.fileExists (n ++ ".tbl") then (.error (.storageError "exists"), fm, s)
  else
    match TableFile.ctor PS e s n true cols with
    | (.error err, s1) => (.error err, fm, s1)
    | (.ok tf, s1) => (.ok (), fm.register n tf, s1)

/-- `FileManager::openTable(n)`; the result is the address of the `TableFile`,
`none` for `nullptr`. -/
def FileManager.openTable (PS : Nat) (e : Endian) (fm : FileManager) (s : Sys)
    (n : String) : Except Failure (Option Nat) × FileManager × Sys :=
  match fm.open_ n with
  | some addr => (.ok (some addr), fm, s)
  | none =>
    if !s.fileExists (n ++ ".tbl") then (.ok none, fm, s)
    else
      match TableFile.ctor PS e s n false [] with
      | (.error err, s1) => (.error err, fm, s1)
      | (.ok tf, s1) =>
        let fm1 := fm.register n tf
        (.ok (fm1.open_ n), fm1, s1)

/-! ## Definitions used to state the properties -/

/-- The encoding of the columns `cols` as the wire format describes it: for each
column its 16-bit length and then its bytes. -/
def encodeCols (e : Endian) : Row → List Byte
  | [] => []
  | col :: cols => u16Bytes e (col.length % 65536) ++ col ++ encodeCols e cols

/-- Following the specification ("any field whose declared length would read past
the buffer"): whether, among the `cnt` columns declared from offset `ptr` on, a
length field or the bytes a length field declares extend past offset `lim`. -/
def overrunFrom (e : Endian) (data : List Byte) (lim : Nat) : Nat → Nat → Bool
  | 0, _ => false
  | cnt + 1, ptr =>
    let slen := (loadU16 e data ptr).getD 0
    decide (lim < ptr + 2) || decide (lim < ptr + 2 + slen) ||
      overrunFrom e data lim cnt (ptr + 2 + slen)

/-- Following the specification: whether the column count or a declared field of
the row encoded at `data` extends past offset `lim`. -/
def fieldOverrun (e : Endian) (data : List Byte) (lim : Nat) : Bool :=
  decide (lim < 2) || overrunFrom e data lim ((loadU16 e data 0).getD 0) 2

/-- The key of a frame: the file and the page number it caches. -/
def Frame.key (f : Frame) : String × Nat := (f.file, f.pageNo)

/-- The current version of page `n` of `file` for the files `files` and the frames
`frames`: the page of its frame when the pool holds one, else what a frame
would be loaded with. -/
def pageOf (PS : Nat) (files : String → Option (List Byte)) (frames : List Frame)
    (file : String) (n : Nat) : Page :=
  match lookupFrame frames file n with
  | some f => f.page
  | none => diskPage PS ((files file).getD []) n

/-- The current version of page `n` of `file` in the world `s`. -/
def Sys.current (PS : Nat) (s : Sys) (file : String) (n : Nat) : Page :=
  pageOf PS s.files s.frames file n

/-- The invariant of the frames of the pool: at most one frame per page, each of
`PAGE_SIZE` bytes, and a frame that is not dirty equals its page of the backing
store. -/
structure PoolOk (PS : Nat) (files : String → Option (List Byte)) (frames : List Frame) :
    Prop where
  nodup : (frames.map Frame.key).Nodup
  size : ∀ f ∈ frames, f.page.length = PS
  clean : ∀ f ∈ frames, f.dirty = false →
    f.page = diskPage PS ((files f.file).getD []) f.pageNo

/-- The state of the world between two calls of the storage layer: the frames of
the pool satisfy their invariant, no frame is pinned, and the pool has at least
one frame. -/
structure Sys.Ready (PS : Nat) (s : Sys) : Prop where
  ok : PoolOk PS s.files s.frames
  idle : ∀ f ∈ s.frames, f.pin = 0
  room : 0 < s.capacity

/-- The pages passed to `BlockFile::writePage` in a trace, in order. -/
def writesOf : List Event → List (String × Nat × Page)
  | [] => []
  | .writePage file n pg :: evs => (file, n, pg) :: writesOf evs
  | _ :: evs => writesOf evs

/-- The comma-joined column names, as the specification describes the header. -/
def joinCols : List (List Byte) → List Byte
  | [] => []
  | [c] => c
  | c :: c1 :: rest => c ++ comma :: joinCols (c1 :: rest)

/-- The world after the calls `appendRow(row)` for the rows of `rows` in order,
whether they succeed or fail. -/
def appendAll (PS : Nat) (e : Endian) (tf : TableFile) (s : Sys) (rows : List Row) : Sys :=
  rows.foldl (fun s row => (tf.appendRow PS e s row).2) s

/-- The world at the start of a process in an empty directory: no file, and an
empty pool of `cap` frames. -/
def Sys.boot (cap : Nat) : Sys :=
  { files := fun _ => none, frames := [], capacity := cap, trace := [] }

/-- The world with an empty pool of `cap` frames in which every path names a file
with the contents `content`. -/
def Sys.withFile (cap : Nat) (content : List Byte) : Sys :=
  { files := fun _ => some content, frames := [], capacity := cap, trace := [] }

/-- A page of 16 bytes that holds one record of six bytes, the encoding of the
row of the one column `[1, 2]`. -/
def examplePage : Page := [1, 0, 10, 0, 10, 0, 6, 0, 0, 0, 1, 0, 2, 0, 1, 2]

/-- A `FileManager` with no table open. -/
def FileManager.empty : FileManager := { heap := [], open_ := fun _ => none }

/-- The state of the world in which the table of file `path` was created through
the pool and nothing of it has reached the backing store: the file is empty, the
pool has at least two frames and holds frames of pages `0` and `2 ^ 64 - 1` of
that file only, and the current version of page `2 ^ 64 - 1` is zero-filled. -/
structure Sys.Unflushed (PS : Nat) (s : Sys) (path : String) : Prop where
  ready : s.Ready PS
  empty : s.files path = some []
  keys : ∀ g ∈ s.frames, g.file = path ∧ (g.pageNo = 0 ∨ g.pageNo = sizeMod - 1)
  room : 2 ≤ s.capacity
  top : s.current PS path (sizeMod - 1) = Page.zero PS

/-- The columns of a row in the wire format of the specification: for each column
in order its length as a 2-byte field and then its raw bytes. -/
def wireCols (e : Endian) : Row → List Byte
  | [] => []
  | col :: cols => u16Bytes e col.length ++ col ++ wireCols e cols

/-- A row in the wire format of the specification: the column count as a 2-byte
field, then the columns. -/
def wireRow (e : Endian) (row : Row) : List Byte :=
  u16Bytes e row.length ++ wireCols e row

/-- The length of a row in the wire format: two bytes, and for each column two
bytes and its length. -/
def wireLength (row : Row) : Nat := 2 + (row.map (fun col => 2 + col.length)).sum

/-- The pin count of page `n` of `file` in the pool: that of its frame, zero when
the pool holds no frame of the page. -/
def pinCount (frames : List Frame) (file : String) (n : Nat) : Nat :=
  match lookupFrame frames file n with
  | some f => f.pin
  | none => 0

/-- The pages asked of `BlockFile::readPage` in a trace, in order. -/
def readsOf : List Event → List (String × Nat)
  | [] => []
  | .readPage file n :: evs => (file, n) :: readsOf evs
  | _ :: evs => readsOf evs

/-- The calls of the buffer pool in a trace, in order. -/
def poolCallsOf : List Event → List Event
  | [] => []
  | .readPage _ _ :: evs => poolCallsOf evs
  | .writePage _ _ _ :: evs => poolCallsOf evs
  | ev :: evs => ev :: poolCallsOf evs

/-- A world whose pool of one frame holds page 0 of `"t.tbl"`, a page of two
bytes, pinned once by a caller; no file exists. -/
def Sys.pinned : Sys :=
  { files := fun _ => none, frames := [Frame.mk "t.tbl" 0 [1, 2] 1 false], capacity := 1,
    trace := [] }

/-- The length in bytes of the file `path`, zero when there is none. -/
def Sys.fileLength (s : Sys) (path : String) : Nat := ((s.files path).getD []).length

/-- Whether every record that `forEachRecord` visits on page `pg` lies inside the
page. -/
def Page.slotsInside (e : Endian) (pg : Page) : Bool :=
  (pg.forEachRecord e).all (fun r => decide (r.1 + r.2 ≤ pg.length))

/-- The results of `deserializeRow` on the records of page `pg`, in ascending slot
order. -/
def Page.decoded (e : Endian) (pg : Page) : List (Option Row) :=
  (pg.forEachRecord e).map (fun r => deserializeRow e (pg.drop r.1) r.2)

/-- The results of `deserializeRow` on the records of the `count` pages of `file`
from page `first` on, in ascending page order and, within a page, ascending
slot order; the pages are the current versions in the world `s`. -/
def scanRows (PS : Nat) (e : Endian) (s : Sys) (file : String) : Nat → Nat → List (Option Row)
  | _, 0 => []
  | first, count + 1 =>
    (s.current PS file first).decoded e ++ scanRows PS e s file (first + 1) count

/-- The `count` pages of `file` from page `first` on, in ascending order. -/
def pagesFrom (file : String) (first count : Nat) : List (String × Nat) :=
  (List.range' first count).map (fun p => (file, p))

/-- A page of 16 bytes that holds one record of three bytes, which declares one
column and ends inside the length field of that column. -/
def corruptPage : Page := [1, 0, 13, 0, 13, 0, 3, 0, 0, 0, 0, 0, 0, 1, 0, 7]

/-- The contents of a table file of three pages of 16 bytes: a zero-filled page 0,
`examplePage` and `corruptPage`. -/
def exampleTable : List Byte := Page.zero 16 ++ examplePage ++ corruptPage

/-- A bound on the page count that the file of `tf` can reach when the pool writes
pages back: the page count of the file, and the pages of the file that the pool
holds modified. -/
def extentBound (PS : Nat) (tf : TableFile) (s : Sys) : Nat :=
  (s.frames.filter (fun f => decide (f.file = tf.bf_.path_) && f.dirty)).foldl
    (fun b f => max b (f.pageNo + 1)) (tf.bf_.pageCount PS s)

/-- The world after `appendRow` of the row of the one column `[1, 2]` on a table
file of two pages of 16 bytes whose page 1 is full, with a pool of one frame:
the row went to a new page 2, which is in the pool only. -/
def Sys.afterSpill : Sys :=
  (TableFile.appendRow 16 .little ⟨⟨"t.tbl"⟩⟩ (Sys.withFile 1 (Page.zero 16 ++ examplePage))
    [[1, 2]]).2

/-- The world after the constructor of the table `t` with the columns `a` and `b`
at the start of a process, with pages of 16 bytes and a pool of eight frames,
and one `appendRow` of the row of the one column `[1, 2]`. -/
def Sys.afterAppend : Sys :=
  (TableFile.appendRow 16 .little ⟨⟨"t.tbl"⟩⟩
    (TableFile.ctor 16 .little (Sys.boot 8) "t" true [[97], [98]]).2 [[1, 2]]).2

/-- The header page of 16 bytes of a table with the columns `a` and `b`: the text
`"cols:a,b"` and zero bytes. -/
def exampleHeader : Page := [99, 111, 108, 115, 58, 97, 44, 98, 0, 0, 0, 0, 0, 0, 0, 0]

/-- The operations of `Page` that `BlockFile` and `TableFile` call and that are not
among the sources, as a parameter: the default-constructed page (`Page pg;`) and
`Page::insertRecord`. -/
structure PageOps where
  fresh : Page
  insertRecord : Page → List Byte → Option (Nat × Page)

/-- The operations of `Page` as they are modelled from the specification above. -/
def PageOps.modelled (PS : Nat) (e : Endian) : PageOps :=
  { fresh := Page.fresh PS e, insertRecord := Page.insertRecord e }

/-- Modelled from the spec: `Page::insertRecord` (not among the sources) for a
second layout of the page header, under which the default-constructed page is
zero-filled, as section 4.3 has it ("materializes a zero-filled page 0"): the
second header field holds the number of bytes of the packed records, so that the
free-space boundary is `PAGE_SIZE` less that number. -/
def Page.insertRecordZ (PS : Nat) (e : Endian) (pg : Page) (rec : List Byte) :
    Option (Nat × Page) :=
  let cnt := Page.recordCount e pg
  let used := (loadU16 e pg 2).getD 0
  if PS < used + (4 + 4 * cnt) + (4 + rec.length) then none
  else
    let off := PS - used - rec.length
    let pg1 := overwrite pg off rec
    let pg2 := overwrite pg1 (4 + 4 * cnt) (u16Bytes e off ++ u16Bytes e rec.length)
    let pg3 := overwrite pg2 0 (u16Bytes e (cnt + 1) ++ u16Bytes e (used + rec.length))
    some (cnt, pg3)

/-- The operations of `Page` for the layout under which the default-constructed
page is zero-filled. -/
def PageOps.zeroFilled (PS : Nat) (e : Endian) : PageOps :=
  { fresh := Page.zero PS, insertRecord := Page.insertRecordZ PS e }

/-- The constructor `BlockFile::BlockFile(p, create)`, with the operations of
`Page` as a parameter. -/
def BlockFile.ctorWith (ops : PageOps) (PS : Nat) (s : Sys) (p : String) (create : Bool) :
    Except Failure BlockFile × Sys :=
  let bf : BlockFile := { path_ := p }
  if create then
    let s1 := { s with files := fun q => if q = p then some [] else s.files q }
    let meta := ops.fresh
    match bf.writePage PS s1 0 meta with
    | (.error err, s2) => (.error err, s2)
    | (.ok _, s2) => (.ok bf, s2)
  else
    match s.files p with
    | none => (.error (.storageError ("cannot open " ++ p)), s)
    | some _ => (.ok bf, s)

/-- The constructor `TableFile::TableFile(t, create, cols)`, with the operations of
`Page` as a parameter. -/
def TableFile.ctorWith (ops : PageOps) (PS : Nat) (s : Sys) (t : String) (create : Bool)
    (cols : List (List Byte)) : Except Failure TableFile × Sys :=
  match BlockFile.ctorWith ops PS s (t ++ ".tbl") create with
  | (.error err, s1) => (.error err, s1)
  | (.ok bf, s1) =>
    if create then
      let meta := ops.fresh
      let hdr := headerLoop cols colsTag
      if hdr.length > PS then (.error .outOfBounds, s1)
      else
        let meta := overwrite meta 0 hdr
        match bf.writePage PS s1 0 meta with
        | (.error err, s2) => (.error err, s2)
        | (.ok _, s2) => (.ok { bf_ := bf }, s2)
    else (.ok { bf_ := bf }, s1)

/-- `TableFile::appendRow(row)`, with the operations of `Page` as a parameter. -/
def TableFile.appendRowWith (ops : PageOps) (PS : Nat) (e : Endian) (tf : TableFile)
    (s : Sys) (row : Row) : Except Failure Unit × Sys :=
  let bytes := serializeRow e row
  let last := (tf.bf_.pageCount PS s + sizeMod - 1) % sizeMod
  if last = 0 then
    match ops.insertRecord ops.fresh bytes with
    | none => (.error (.storageError "row too large"), s)
    | some (_, fresh) => tf.bf_.writePage PS s 1 fresh
  else
    match tf.bf_.readPage PS s last with
    | (.error err, s1) => (.error err, s1)
    | (.ok pg, s1) =>
      match ops.insertRecord pg bytes with
      | none =>
        match ops.insertRecord ops.fresh bytes with
        | none => (.error (.storageError "row too large"), s1)
        | some (_, fresh) => tf.bf_.writePage PS s1 ((last + 1) % sizeMod) fresh
      | some (_, pg1) => tf.bf_.writePage PS s1 last pg1

/-- The column names that `columnList` parses out of the bytes of page 0. -/
def headerCols (page : Page) : List (List Byte) :=
  match findSub colsTag page with
  | none => []
  | some pos => getlineAll ((page.drop (pos + 5)).takeWhile (fun c => c ≠ 0))

/-- The state of the world in which nothing of the table of file `path` has reached
the backing store: the file is empty, and the pool has at least two frames and
holds frames of pages `0` and `2 ^ 64 - 1` of that file only. -/
structure Sys.Cached (PS : Nat) (s : Sys) (path : String) : Prop where
  ready : s.Ready PS
  empty : s.files path = some []
  keys : ∀ g ∈ s.frames, g.file = path ∧ (g.pageNo = 0 ∨ g.pageNo = sizeMod - 1)
  room : 2 ≤ s.capacity

/-- A row of one column of 2100 bytes `x`; its encoding has 2104 bytes. -/
def bigRow : Row := [List.replicate 2100 120]

/-! ## The row codec: lemmas -/

theorem u16Bytes_length (e : Endian) (v : Nat) : (u16Bytes e v).length = 2 := by
  cases e <;> rfl

theorem u16Value_lt (e : Endian) (b0 b1 : Byte) : u16Value e b0 b1 < 65536 := by
  cases e <;> simp only [u16Value] <;> omega

theorem loadU16_cons_cons (e : Endian) (b0 b1 : Byte) (rest : List Byte) :
    loadU16 e (b0 :: b1 :: rest) 0 = some (u16Value e b0 b1) := by
  simp [loadU16]

theorem loadU16_drop (e : Endian) (data : List Byte) (off : Nat) :
    loadU16 e data off = loadU16 e (data.drop off) 0 := by
  simp [loadU16, List.getElem?_drop]

theorem loadU16_u16Bytes (e : Endian) (v : Nat) (hv : v < 65536) (rest : List Byte) :
    loadU16 e (u16Bytes e v ++ rest) 0 = some v := by
  cases e <;> simp [u16Bytes, loadU16, u16Value, byteOf] <;> omega

theorem loadU16_append (e : Endian) (pre rest : List Byte) (v : Nat) (hv : v < 65536) :
    loadU16 e (pre ++ (u16Bytes e v ++ rest)) pre.length = some v := by
  rw [loadU16_drop, List.drop_left]
  exact loadU16_u16Bytes e v hv rest

theorem loadU16_isSome (e : Endian) (data : List Byte) (off : Nat)
    (h : off + 2 ≤ data.length) : ∃ v, loadU16 e data off = some v := by
  have h0 : off < data.length := by omega
  have h1 : off + 1 < data.length := by omega
  simp [loadU16, List.getElem?_eq_getElem h0, List.getElem?_eq_getElem h1]

theorem loadU16_take (e : Endian) (data : List Byte) (off n : Nat) (h : off + 2 ≤ n) :
    loadU16 e (data.take n) off = loadU16 e data off := by
  have h0 : off < n := by omega
  have h1 : off + 1 < n := by omega
  simp [loadU16, List.getElem?_take, h0, h1]

theorem loadBytes_take (data : List Byte) (off m n : Nat) (h : off + m ≤ n)
    (hn : n ≤ data.length) : loadBytes (data.take n) off m = loadBytes data off m := by
  have h1 : off + m ≤ data.length := by omega
  have h2 : off + m ≤ (data.take n).length := by simp; omega
  simp only [loadBytes, h1, h2, if_true]
  congr 1
  rw [List.drop_take, List.take_take]
  congr 1
  omega

theorem loadBytes_append (pre col rest : List Byte) :
    loadBytes (pre ++ (col ++ rest)) pre.length col.length = some col := by
  simp [loadBytes]

theorem encodeCols_cons_length (e : Endian) (col : List Byte) (cols : Row) :
    (encodeCols e (col :: cols)).length = 2 + col.length + (encodeCols e cols).length := by
  simp [encodeCols, u16Bytes_length]
  omega

theorem serializeRow_foldl (e : Endian) (row : Row) (out : List Byte) :
    row.foldl (fun out col => out ++ u16Bytes e (col.length % 65536) ++ col) out
      = out ++ encodeCols e row := by
  induction row generalizing out with
  | nil => simp [encodeCols]
  | cons col cols ih =>
    rw [List.foldl_cons, ih]
    simp [encodeCols, List.append_assoc]

theorem serializeRow_eq (e : Endian) (row : Row) :
    serializeRow e row = u16Bytes e (row.length % 65536) ++ encodeCols e row := by
  simp only [serializeRow]
  exact serializeRow_foldl e row _

theorem serializeRow_length (e : Endian) (row : Row) :
    (serializeRow e row).length = 2 + (encodeCols e row).length := by
  simp [serializeRow_eq, u16Bytes_length]

/-- The loop on a buffer that holds the encoding of `cols` at the cursor, all of
it below the limit: the columns are appended to `out`. -/
theorem deserializeLoop_encoded (e : Endian) (lim : Nat) (cols : Row) :
    ∀ (pre post : List Byte) (out : Row), (∀ c ∈ cols, c.length < 65536) →
      pre.length + (encodeCols e cols).length ≤ lim →
      deserializeLoop e (pre ++ (encodeCols e cols ++ post)) lim cols.length pre.length out
        = some (out ++ cols) := by
  induction cols with
  | nil => intro pre post out _ _; simp [deserializeLoop]
  | cons c cs ih =>
    intro pre post out hb hl
    have hc : c.length < 65536 := hb c (List.mem_cons_self _ _)
    have hcs : ∀ x ∈ cs, x.length < 65536 := fun x hx => hb x (List.mem_cons_of_mem _ hx)
    rw [encodeCols_cons_length] at hl
    have hdata : pre ++ (encodeCols e (c :: cs) ++ post)
        = pre ++ (u16Bytes e c.length ++ (c ++ (encodeCols e cs ++ post))) := by
      simp [encodeCols, Nat.mod_eq_of_lt hc, List.append_assoc]
    have hdata2 : pre ++ (encodeCols e (c :: cs) ++ post)
        = (pre ++ u16Bytes e c.length) ++ (c ++ (encodeCols e cs ++ post)) := by
      rw [hdata]; simp [List.append_assoc]
    have hdata3 : pre ++ (encodeCols e (c :: cs) ++ post)
        = (pre ++ u16Bytes e c.length ++ c) ++ (encodeCols e cs ++ post) := by
      rw [hdata]; simp [List.append_assoc]
    have hload : loadU16 e (pre ++ (encodeCols e (c :: cs) ++ post)) pre.length
        = some c.length := by
      rw [hdata]; exact loadU16_append e pre _ c.length hc
    have hbytes : loadBytes (pre ++ (encodeCols e (c :: cs) ++ post)) (pre.length + 2)
        c.length = some c := by
      rw [hdata2]
      have := loadBytes_append (pre ++ u16Bytes e c.length) c (encodeCols e cs ++ post)
      simpa [u16Bytes_length] using this
    have hlen3 : (pre ++ u16Bytes e c.length ++ c).length = pre.length + 2 + c.length := by
      simp [u16Bytes_length]
      omega
    have hrec := ih (pre ++ u16Bytes e c.length ++ c) post (out ++ [c]) hcs
      (by rw [hlen3]; omega)
    rw [hlen3, ← hdata3] at hrec
    simp only [List.length_cons, deserializeLoop, hload, hbytes]
    rw [if_neg (by omega), if_neg (by omega), hrec]
    simp

/-- The loop on a buffer that holds the encoding of `cols` at the cursor, when the
limit cuts that encoding short: the empty row. -/
theorem deserializeLoop_short (e : Endian) (lim : Nat) (cols : Row) :
    ∀ (pre post : List Byte) (out : Row), (∀ c ∈ cols, c.length < 65536) →
      pre.length ≤ lim → lim < pre.length + (encodeCols e cols).length →
      deserializeLoop e (pre ++ (encodeCols e cols ++ post)) lim cols.length pre.length out
        = some [] := by
  induction cols with
  | nil => intro pre post out _ h1 h2; simp [encodeCols] at h2; omega
  | cons c cs ih =>
    intro pre post out hb hl1 hl2
    have hc : c.length < 65536 := hb c (List.mem_cons_self _ _)
    have hcs : ∀ x ∈ cs, x.length < 65536 := fun x hx => hb x (List.mem_cons_of_mem _ hx)
    rw [encodeCols_cons_length] at hl2
    have hdata : pre ++ (encodeCols e (c :: cs) ++ post)
        = pre ++ (u16Bytes e c.length ++ (c ++ (encodeCols e cs ++ post))) := by
      simp [encodeCols, Nat.mod_eq_of_lt hc, List.append_assoc]
    have hdata2 : pre ++ (encodeCols e (c :: cs) ++ post)
        = (pre ++ u16Bytes e c.length) ++ (c ++ (encodeCols e cs ++ post)) := by
      rw [hdata]; simp [List.append_assoc]
    have hdata3 : pre ++ (encodeCols e (c :: cs) ++ post)
        = (pre ++ u16Bytes e c.length ++ c) ++ (encodeCols e cs ++ post) := by
      rw [hdata]; simp [List.append_assoc]
    have hload : loadU16 e (pre ++ (encodeCols e (c :: cs) ++ post)) pre.length
        = some c.length := by
      rw [hdata]; exact loadU16_append e pre _ c.length hc
    have hbytes : loadBytes (pre ++ (encodeCols e (c :: cs) ++ post)) (pre.length + 2)
        c.length = some c := by
      rw [hdata2]
      have := loadBytes_append (pre ++ u16Bytes e c.length) c (encodeCols e cs ++ post)
      simpa [u16Bytes_length] using this
    have hlen3 : (pre ++ u16Bytes e c.length ++ c).length = pre.length + 2 + c.length := by
      simp [u16Bytes_length]
      omega
    simp only [List.length_cons, deserializeLoop, hload, hbytes]
    by_cases h1 : pre.length + 2 > lim
    · rw [if_pos h1]
    · rw [if_neg h1]
      by_cases h2 : pre.length + 2 + c.length > lim
      · rw [if_pos h2]
      · rw [if_neg h2]
        have hrec := ih (pre ++ u16Bytes e c.length ++ c) post (out ++ [c]) hcs
          (by rw [hlen3]; omega) (by rw [hlen3]; omega)
        rw [hlen3, ← hdata3] at hrec
        exact hrec

/-- The loop reads nothing at or past the limit: on the buffer cut at the limit
it gives the same result. -/
theorem deserializeLoop_take (e : Endian) (data : List Byte) (lim : Nat)
    (h : lim ≤ data.length) : ∀ (cnt ptr : Nat) (out : Row),
      deserializeLoop e (data.take lim) lim cnt ptr out
        = deserializeLoop e data lim cnt ptr out := by
  intro cnt
  induction cnt with
  | zero => intro ptr out; simp [deserializeLoop]
  | succ n ih =>
    intro ptr out
    simp only [deserializeLoop]
    by_cases h1 : ptr + 2 > lim
    · simp [h1]
    · rw [if_neg h1, if_neg h1, loadU16_take e data ptr lim (by omega)]
      cases hl : loadU16 e data ptr with
      | none => rfl
      | some slen =>
        simp only []
        by_cases h2 : ptr + 2 + slen > lim
        · simp [h2]
        · rw [if_neg h2, if_neg h2, loadBytes_take data (ptr + 2) slen lim (by omega) h]
          cases loadBytes data (ptr + 2) slen with
          | none => rfl
          | some col => exact ih _ _

/-- The loop never reads outside a buffer that reaches the limit. -/
theorem deserializeLoop_isSome (e : Endian) (data : List Byte) (lim : Nat)
    (h : lim ≤ data.length) : ∀ (cnt ptr : Nat) (out : Row),
      ∃ r, deserializeLoop e data lim cnt ptr out = some r := by
  intro cnt
  induction cnt with
  | zero => intro ptr out; exact ⟨out, by simp [deserializeLoop]⟩
  | succ n ih =>
    intro ptr out
    simp only [deserializeLoop]
    by_cases h1 : ptr + 2 > lim
    · exact ⟨[], by simp [h1]⟩
    · rw [if_neg h1]
      obtain ⟨slen, hs⟩ := loadU16_isSome e data ptr (by omega)
      rw [hs]
      simp only []
      by_cases h2 : ptr + 2 + slen > lim
      · exact ⟨[], by simp [h2]⟩
      · rw [if_neg h2]
        have hb : loadBytes data (ptr + 2) slen
            = some ((data.drop (ptr + 2)).take slen) := by
          simp only [loadBytes]; rw [if_pos (by omega)]
        rw [hb]
        exact ih _ _

/-- The loop gives the empty row when a declared field extends past the limit. -/
theorem deserializeLoop_overrun (e : Endian) (data : List Byte) (lim : Nat)
    (h : lim ≤ data.length) : ∀ (cnt ptr : Nat) (out : Row),
      overrunFrom e data lim cnt ptr = true →
      deserializeLoop e data lim cnt ptr out = some [] := by
  intro cnt
  induction cnt with
  | zero => intro ptr out ho; simp [overrunFrom] at ho
  | succ n ih =>
    intro ptr out ho
    simp only [deserializeLoop]
    by_cases h1 : ptr + 2 > lim
    · simp [h1]
    · rw [if_neg h1]
      obtain ⟨slen, hs⟩ := loadU16_isSome e data ptr (by omega)
      rw [hs]
      simp only []
      by_cases h2 : ptr + 2 + slen > lim
      · simp [h2]
      · rw [if_neg h2]
        have hb : loadBytes data (ptr + 2) slen
            = some ((data.drop (ptr + 2)).take slen) := by
          simp only [loadBytes]; rw [if_pos (by omega)]
        rw [hb]
        simp only [overrunFrom, hs, Option.getD_some, Bool.or_eq_true, decide_eq_true_eq] at ho
        rcases ho with (ho | ho) | ho
        · omega
        · omega
        · exact ih _ _ ho

/-- Decoding a buffer that starts with the encoding of `row`, when the limit
covers that encoding: the row. -/
theorem deserializeRow_encoded (e : Endian) (row : Row) (post : List Byte) (len : Nat)
    (hcnt : row.length < 65536) (hcols : ∀ c ∈ row, c.length < 65536)
    (hlen : (serializeRow e row).length ≤ len % 65536) :
    deserializeRow e (serializeRow e row ++ post) len = some row := by
  rw [serializeRow_length] at hlen
  have hdata : serializeRow e row ++ post
      = u16Bytes e row.length ++ (encodeCols e row ++ post) := by
    rw [serializeRow_eq, Nat.mod_eq_of_lt hcnt, List.append_assoc]
  have hloop := deserializeLoop_encoded e (len % 65536) row (u16Bytes e row.length) post []
    hcols (by rw [u16Bytes_length]; omega)
  rw [u16Bytes_length] at hloop
  simp only [deserializeRow]
  rw [if_neg (by omega), hdata, loadU16_u16Bytes e row.length hcnt]
  simpa using hloop

/-- Decoding a buffer that starts with the encoding of `row`, when the limit cuts
that encoding short: the empty row. -/
theorem deserializeRow_short (e : Endian) (row : Row) (post : List Byte) (len : Nat)
    (hcnt : row.length < 65536) (hcols : ∀ c ∈ row, c.length < 65536)
    (hlen : len % 65536 < (serializeRow e row).length) :
    deserializeRow e (serializeRow e row ++ post) len = some [] := by
  rw [serializeRow_length] at hlen
  have hdata : serializeRow e row ++ post
      = u16Bytes e row.length ++ (encodeCols e row ++ post) := by
    rw [serializeRow_eq, Nat.mod_eq_of_lt hcnt, List.append_assoc]
  simp only [deserializeRow]
  by_cases h2 : 2 > len % 65536
  · rw [if_pos h2]
  · rw [if_neg h2, hdata, loadU16_u16Bytes e row.length hcnt]
    have hloop := deserializeLoop_short e (len % 65536) row (u16Bytes e row.length) post []
      hcols (by rw [u16Bytes_length]; omega) (by rw [u16Bytes_length]; omega)
    rw [u16Bytes_length] at hloop
    exact hloop

/-- Decoding reads nothing at or past the limit. -/
theorem deserializeRow_take (e : Endian) (data : List Byte) (len : Nat)
    (h : len % 65536 ≤ data.length) :
    deserializeRow e (data.take (len % 65536)) len = deserializeRow e data len := by
  simp only [deserializeRow]
  by_cases h2 : 2 > len % 65536
  · rw [if_pos h2, if_pos h2]
  · rw [if_neg h2, if_neg h2, loadU16_take e data 0 _ (by omega)]
    cases loadU16 e data 0 with
    | none => rfl
    | some cnt => exact deserializeLoop_take e data _ h cnt 2 []

/-- Decoding never reads outside a buffer that reaches the limit. -/
theorem deserializeRow_isSome (e : Endian) (data : List Byte) (len : Nat)
    (h : len % 65536 ≤ data.length) : ∃ r, deserializeRow e data len = some r := by
  simp only [deserializeRow]
  by_cases h2 : 2 > len % 65536
  · exact ⟨[], by rw [if_pos h2]⟩
  · rw [if_neg h2]
    obtain ⟨cnt, hc⟩ := loadU16_isSome e data 0 (by omega)
    rw [hc]
    exact deserializeLoop_isSome e data _ h cnt 2 []

/-- Decoding gives the empty row when a declared field extends past the limit. -/
theorem deserializeRow_overrun (e : Endian) (data : List Byte) (len : Nat)
    (h : len % 65536 ≤ data.length) (ho : fieldOverrun e data (len % 65536) = true) :
    deserializeRow e data len = some [] := by
  simp only [deserializeRow]
  by_cases h2 : 2 > len % 65536
  · rw [if_pos h2]
  · rw [if_neg h2]
    obtain ⟨cnt, hc⟩ := loadU16_isSome e data 0 (by omega)
    rw [hc]
    simp only [fieldOverrun, hc, Option.getD_some, Bool.or_eq_true, decide_eq_true_eq] at ho
    rcases ho with ho | ho
    · omega
    · exact deserializeLoop_overrun e data _ h cnt 2 [] ho

/-! ## The row codec: properties -/

/-- C1, as amended: for every row whose column count and column lengths fit in
16 bits and whose encoding is shorter than 65536 bytes, so that its length is a
value of the `uint16_t` parameter `len`, `deserializeRow` applied to
`serializeRow row` with `len` the length of that encoding returns exactly
`row`. -/
theorem deserializeRow_serializeRow (e : Endian) (row : Row)
    (hcnt : row.length < 65536) (hcols : ∀ c ∈ row, c.length < 65536)
    (hlen : (serializeRow e row).length < 65536) :
    deserializeRow e (serializeRow e row) (serializeRow e row).length = some row := by
  have h := deserializeRow_encoded e row [] (serializeRow e row).length hcnt hcols
    (by rw [Nat.mod_eq_of_lt hlen])
  simpa using h

/-- Witness of C1: a row of two columns is recovered from its nine bytes. -/
theorem deserializeRow_serializeRow_witness :
    deserializeRow .little (serializeRow .little [[120], [121, 121]])
      (serializeRow .little [[120], [121, 121]]).length = some [[120], [121, 121]] :=
  deserializeRow_serializeRow .little [[120], [121, 121]] (by decide) (by decide) (by decide)

/-- A row of one column of `n` zero bytes with `65532 ≤ n < 65536`: its encoding
has `n + 4` bytes, which as a `uint16_t` is `n - 65532`, less than four, and the
decode returns the empty row. -/
theorem deserializeRow_one_long_column (e : Endian) (n : Nat) (h1 : n < 65536)
    (h2 : 65532 ≤ n) :
    (serializeRow e [List.replicate n 0]).length = n + 4 ∧
    deserializeRow e (serializeRow e [List.replicate n 0])
      (serializeRow e [List.replicate n 0]).length = some [] := by
  have hb : ∀ c ∈ ([List.replicate n (0 : Byte)] : Row), c.length < 65536 := by
    intro c hc
    rw [List.mem_singleton] at hc
    subst hc
    simpa using h1
  have hl : (serializeRow e [List.replicate n 0]).length = n + 4 := by
    rw [serializeRow_length]
    simp [encodeCols, u16Bytes_length]
    omega
  refine ⟨hl, ?_⟩
  have h := deserializeRow_short e [List.replicate n 0] [] (n + 4) (by simp) hb
    (by rw [hl]; omega)
  rw [hl]
  simpa using h

/-- C1 as stated fails: the row of one column of 65535 zero bytes is within the
16-bit field bounds, its encoding has 65539 bytes, the `uint16_t` parameter `len`
receives 3, and the decode returns the empty row, not the row. -/
theorem deserializeRow_serializeRow_long_row :
    ([List.replicate 65535 (0 : Byte)] : Row).length < 65536 ∧
    (∀ c ∈ ([List.replicate 65535 (0 : Byte)] : Row), c.length < 65536) ∧
    (serializeRow .little [List.replicate 65535 0]).length = 65535 + 4 ∧
    deserializeRow .little (serializeRow .little [List.replicate 65535 0])
      (serializeRow .little [List.replicate 65535 0]).length = some [] ∧
    deserializeRow .little (serializeRow .little [List.replicate 65535 0])
      (serializeRow .little [List.replicate 65535 0]).length
        ≠ some [List.replicate 65535 0] := by
  have h := deserializeRow_one_long_column .little 65535 (by decide) (by decide)
  refine ⟨Nat.lt_of_sub_eq_succ rfl, ?_, h.1, h.2, ?_⟩
  · intro c hc
    rw [List.mem_singleton] at hc
    rw [hc, List.length_replicate]
    decide
  · rw [h.2]
    intro hne
    exact List.cons_ne_nil _ _ (Option.some.inj hne).symm

/-- C2: for every row within the 16-bit field bounds and every `k` below the
length of its encoding, `deserializeRow` on the first `k` bytes of the encoding
with `len = k` returns the empty row. -/
theorem deserializeRow_truncated (e : Endian) (row : Row) (k : Nat)
    (hcnt : row.length < 65536) (hcols : ∀ c ∈ row, c.length < 65536)
    (hk : k < (serializeRow e row).length) :
    deserializeRow e ((serializeRow e row).take k) k = some [] := by
  have hlim : k % 65536 ≤ k := Nat.mod_le _ _
  have h1 : k % 65536 ≤ ((serializeRow e row).take k).length := by
    rw [List.length_take]; omega
  have h2 : k % 65536 ≤ (serializeRow e row).length := by omega
  rw [← deserializeRow_take e _ k h1, List.take_take, Nat.min_eq_left hlim,
    deserializeRow_take e _ k h2]
  have h := deserializeRow_short e row [] k hcnt hcols (by omega)
  simpa using h

/-- Witness of C2: the encoding of a row of two columns, cut after five of its
nine bytes. -/
theorem deserializeRow_truncated_witness :
    deserializeRow .little ((serializeRow .little [[120], [121, 121]]).take 5) 5 = some [] :=
  deserializeRow_truncated .little [[120], [121, 121]] 5 (by decide) (by decide) (by decide)

/-- C3: for every buffer and every `len` not larger than its size,
`deserializeRow` returns a row (it is a total function and reads nothing outside
the buffer); it returns the same row on the buffer cut to its first `len` bytes
(as a `uint16_t`), in which a read at an index not below `len` has no result, so
every byte it reads lies below `len`; and when a declared field extends past
`len` the row is empty. -/
theorem deserializeRow_safe (e : Endian) (data : List Byte) (len : Nat)
    (hlen : len ≤ data.length) :
    ∃ r, deserializeRow e data len = some r ∧
      deserializeRow e (data.take (len % 65536)) len = some r ∧
      (fieldOverrun e data (len % 65536) = true → r = []) := by
  have h : len % 65536 ≤ data.length := Nat.le_trans (Nat.mod_le _ _) hlen
  obtain ⟨r, hr⟩ := deserializeRow_isSome e data len h
  refine ⟨r, hr, ?_, ?_⟩
  · rw [deserializeRow_take e data len h, hr]
  · intro ho
    have := deserializeRow_overrun e data len h ho
    rw [hr] at this
    exact Option.some.inj this

/-- Witness of C3: a buffer of six bytes that declares one column of four bytes,
read with `len = 5`. -/
theorem deserializeRow_safe_witness :
    ∃ r, deserializeRow .little [1, 0, 4, 0, 7, 7] 5 = some r ∧
      deserializeRow .little (([1, 0, 4, 0, 7, 7] : List Byte).take (5 % 65536)) 5 = some r ∧
      (fieldOverrun .little [1, 0, 4, 0, 7, 7] (5 % 65536) = true → r = []) :=
  deserializeRow_safe .little [1, 0, 4, 0, 7, 7] 5 (by decide)

/-! ## Backing store and frames: lemmas -/

theorem diskPage_length (PS : Nat) (content : List Byte) (n : Nat) :
    (diskPage PS content n).length = PS := by
  simp [diskPage]

theorem byteAt_storePage (PS : Nat) (content : List Byte) (n : Nat) (pg : Page) (i : Nat) :
    byteAt (storePage PS content n pg) i
      = if n * PS ≤ i ∧ i < n * PS + PS then byteAt pg (i - n * PS) else byteAt content i := by
  by_cases hi : i < max content.length (n * PS + PS)
  · simp [byteAt, storePage, List.getD_eq_getElem?_getD, List.getElem?_map,
      List.getElem?_range hi]
  · have h1 : content.length ≤ i := by omega
    have h2 : ¬ (n * PS ≤ i ∧ i < n * PS + PS) := by omega
    rw [if_neg h2]
    simp only [byteAt, List.getD_eq_getElem?_getD]
    rw [List.getElem?_eq_none (by simp [storePage]; omega), List.getElem?_eq_none h1]

theorem diskPage_storePage_same (PS : Nat) (content : List Byte) (n : Nat) (pg : Page)
    (h : pg.length = PS) : diskPage PS (storePage PS content n pg) n = pg := by
  apply List.ext_getElem
  · rw [diskPage_length, h]
  · intro i h1 h2
    rw [diskPage_length] at h1
    simp only [diskPage, List.getElem_map, List.getElem_range, byteAt_storePage]
    rw [if_pos (by omega)]
    simp [byteAt, List.getD_eq_getElem?_getD, List.getElem?_eq_getElem h2]

theorem diskPage_storePage_other (PS : Nat) (content : List Byte) (n m : Nat) (pg : Page)
    (h : m ≠ n) : diskPage PS (storePage PS content n pg) m = diskPage PS content m := by
  simp only [diskPage]
  apply List.map_congr_left
  intro i hi
  rw [List.mem_range] at hi
  rw [byteAt_storePage, if_neg]
  intro hc
  rcases Nat.lt_or_gt_of_ne h with hlt | hgt
  · have : (m + 1) * PS ≤ n * PS := Nat.mul_le_mul_right PS hlt
    rw [Nat.add_mul, Nat.one_mul] at this
    omega
  · have : (n + 1) * PS ≤ m * PS := Nat.mul_le_mul_right PS hgt
    rw [Nat.add_mul, Nat.one_mul] at this
    omega
theorem Frame.hasKey_eq_true (f : Frame) (file : String) (n : Nat) :
    f.hasKey file n = true ↔ f.file = file ∧ f.pageNo = n := by
  simp [Frame.hasKey]

theorem Frame.hasKey_eq_false (f : Frame) (file : String) (n : Nat) :
    f.hasKey file n = false ↔ ¬ (f.file = file ∧ f.pageNo = n) := by
  simp [Frame.hasKey]

theorem lookupFrame_cons (f : Frame) (fs : List Frame) (file : String) (n : Nat) :
    lookupFrame (f :: fs) file n
      = if f.file = file ∧ f.pageNo = n then some f else lookupFrame fs file n := by
  by_cases h : f.file = file ∧ f.pageNo = n
  · simp [lookupFrame, List.find?_cons, Frame.hasKey, h]
  · simp only [lookupFrame, List.find?_cons, if_neg h]
    rw [(Frame.hasKey_eq_false f file n).2 h]

theorem lookupFrame_some (fs : List Frame) (file : String) (n : Nat) (f : Frame)
    (h : lookupFrame fs file n = some f) : f ∈ fs ∧ f.file = file ∧ f.pageNo = n := by
  refine ⟨List.mem_of_find?_eq_some h, ?_⟩
  have := List.find?_some h
  exact (Frame.hasKey_eq_true f file n).1 this

theorem lookupFrame_none (fs : List Frame) (file : String) (n : Nat)
    (h : lookupFrame fs file n = none) : ∀ f ∈ fs, ¬ (f.file = file ∧ f.pageNo = n) := by
  intro f hf hk
  have := (List.find?_eq_none.1 h) f hf
  exact this ((Frame.hasKey_eq_true f file n).2 hk)

theorem lookupFrame_eq_none_of (fs : List Frame) (file : String) (n : Nat)
    (h : ∀ f ∈ fs, ¬ (f.file = file ∧ f.pageNo = n)) : lookupFrame fs file n = none := by
  apply List.find?_eq_none.2
  intro f hf hk
  exact h f hf ((Frame.hasKey_eq_true f file n).1 hk)

theorem lookupFrame_of_mem (fs : List Frame) (f : Frame)
    (hnd : (fs.map Frame.key).Nodup) (hf : f ∈ fs) :
    lookupFrame fs f.file f.pageNo = some f := by
  induction fs with
  | nil => cases hf
  | cons g gs ih =>
    rw [List.map_cons, List.nodup_cons] at hnd
    rw [lookupFrame_cons]
    rcases List.mem_cons.1 hf with rfl | hmem
    · simp
    · have hne : ¬ (g.file = f.file ∧ g.pageNo = f.pageNo) := by
        intro hk
        apply hnd.1
        have : Frame.key g = Frame.key f := by simp [Frame.key, hk.1, hk.2]
        rw [this]
        exact List.mem_map_of_mem _ hmem
      rw [if_neg hne]
      exact ih hnd.2 hmem

theorem mem_dropFrame (fs : List Frame) (file : String) (n : Nat) (g : Frame) :
    g ∈ dropFrame fs file n ↔ g ∈ fs ∧ ¬ (g.file = file ∧ g.pageNo = n) := by
  simp only [dropFrame, List.mem_filter, Bool.not_eq_true', Frame.hasKey_eq_false]

theorem lookupFrame_dropFrame_same (fs : List Frame) (file : String) (n : Nat) :
    lookupFrame (dropFrame fs file n) file n = none := by
  apply lookupFrame_eq_none_of
  intro f hf
  exact ((mem_dropFrame fs file n f).1 hf).2

theorem lookupFrame_dropFrame_other (fs : List Frame) (file file' : String) (n m : Nat)
    (h : ¬ (file' = file ∧ m = n)) :
    lookupFrame (dropFrame fs file n) file' m = lookupFrame fs file' m := by
  induction fs with
  | nil => rfl
  | cons g gs ih =>
    by_cases hg : g.file = file ∧ g.pageNo = n
    · have hd : dropFrame (g :: gs) file n = dropFrame gs file n := by
        simp [dropFrame, List.filter_cons, Frame.hasKey, hg]
      have hne : ¬ (g.file = file' ∧ g.pageNo = m) := by
        intro hk; apply h; exact ⟨hk.1 ▸ hg.1, hk.2 ▸ hg.2⟩
      rw [hd, lookupFrame_cons, if_neg hne, ih]
    · have hd : dropFrame (g :: gs) file n = g :: dropFrame gs file n := by
        simp [dropFrame, List.filter_cons, Frame.hasKey, hg]
      rw [hd, lookupFrame_cons, lookupFrame_cons, ih]

theorem nodup_dropFrame (fs : List Frame) (file : String) (n : Nat)
    (h : (fs.map Frame.key).Nodup) : ((dropFrame fs file n).map Frame.key).Nodup := by
  apply List.Nodup.sublist _ h
  exact List.Sublist.map _ (List.filter_sublist _)

theorem modifyFrame_head (f : Frame) (rest : List Frame) (file : String) (n : Nat)
    (g : Frame → Frame) (hf : f.file = file ∧ f.pageNo = n)
    (hrest : ∀ x ∈ rest, ¬ (x.file = file ∧ x.pageNo = n)) :
    modifyFrame (f :: rest) file n g = g f :: rest := by
  simp only [modifyFrame, List.map_cons]
  rw [if_pos ((Frame.hasKey_eq_true f file n).2 hf)]
  congr 1
  conv => rhs; rw [← List.map_id rest]
  apply List.map_congr_left
  intro x hx
  rw [if_neg]
  · rfl
  · intro hk
    exact hrest x hx ((Frame.hasKey_eq_true x file n).1 hk)

theorem victim_of_idle (fs : List Frame) (h : ∀ f ∈ fs, f.pin = 0) (hne : fs ≠ []) :
    ∃ v, victim fs = some v ∧ v ∈ fs := by
  cases hv : victim fs with
  | none =>
    exfalso
    have hall := List.find?_eq_none.1 hv
    obtain ⟨x, hx⟩ := List.exists_mem_of_ne_nil fs hne
    have := hall x (List.mem_reverse.2 hx)
    simp [h x hx] at this
  | some v =>
    exact ⟨v, rfl, List.mem_reverse.1 (List.mem_of_find?_eq_some hv)⟩

theorem diskPage_writeBack (PS : Nat) (files : String → Option (List Byte)) (v : Frame)
    (file : String) (m : Nat) (h : ¬ (v.file = file ∧ v.pageNo = m)) :
    diskPage PS ((writeBack PS files v file).getD []) m
      = diskPage PS ((files file).getD []) m := by
  simp only [writeBack]
  by_cases hf : file = v.file
  · rw [if_pos hf]
    simp only [Option.getD_some]
    apply diskPage_storePage_other
    intro hm
    exact h ⟨hf.symm, hm.symm⟩
  · rw [if_neg hf]

theorem diskPage_writeBack_same (PS : Nat) (files : String → Option (List Byte)) (v : Frame)
    (h : v.page.length = PS) :
    diskPage PS ((writeBack PS files v v.file).getD []) v.pageNo = v.page := by
  simp only [writeBack, if_true, Option.getD_some]
  exact diskPage_storePage_same PS _ _ _ h
theorem pageOf_cons (PS : Nat) (files : String → Option (List Byte)) (f : Frame)
    (rest : List Frame) (file : String) (n : Nat) :
    pageOf PS files (f :: rest) file n
      = if f.file = file ∧ f.pageNo = n then f.page else pageOf PS files rest file n := by
  simp only [pageOf, lookupFrame_cons]
  by_cases h : f.file = file ∧ f.pageNo = n
  · rw [if_pos h, if_pos h]
  · rw [if_neg h, if_neg h]

theorem pageOf_of_mem (PS : Nat) (files : String → Option (List Byte)) (fs : List Frame)
    (f : Frame) (hnd : (fs.map Frame.key).Nodup) (hf : f ∈ fs) :
    pageOf PS files fs f.file f.pageNo = f.page := by
  simp only [pageOf, lookupFrame_of_mem fs f hnd hf]

theorem pageOf_dropFrame_other (PS : Nat) (files : String → Option (List Byte))
    (fs : List Frame) (file file' : String) (n m : Nat) (h : ¬ (file' = file ∧ m = n)) :
    pageOf PS files (dropFrame fs file n) file' m = pageOf PS files fs file' m := by
  simp only [pageOf, lookupFrame_dropFrame_other fs file file' n m h]

theorem PoolOk.rest_ne (PS : Nat) (files : String → Option (List Byte)) (f : Frame)
    (rest : List Frame) (h : PoolOk PS files (f :: rest)) :
    ∀ x ∈ rest, ¬ (x.file = f.file ∧ x.pageNo = f.pageNo) := by
  intro x hx hk
  have hnd := h.nodup
  rw [List.map_cons, List.nodup_cons] at hnd
  apply hnd.1
  have : Frame.key f = Frame.key x := by simp [Frame.key, hk.1, hk.2]
  rw [this]
  exact List.mem_map_of_mem _ hx

/-- The invariant of the frames does not depend on the pin count of the head. -/
theorem PoolOk.set_pin (PS : Nat) (files : String → Option (List Byte)) (f : Frame)
    (rest : List Frame) (p : Nat) (h : PoolOk PS files (f :: rest)) :
    PoolOk PS files ({ f with pin := p } :: rest) := by
  refine ⟨?_, ?_, ?_⟩
  · simpa [Frame.key] using h.nodup
  · intro g hg
    rcases List.mem_cons.1 hg with rfl | hmem
    · exact h.size f (List.mem_cons_self _ _)
    · exact h.size g (List.mem_cons_of_mem _ hmem)
  · intro g hg hd
    rcases List.mem_cons.1 hg with rfl | hmem
    · exact h.clean f (List.mem_cons_self _ _) hd
    · exact h.clean g (List.mem_cons_of_mem _ hmem) hd

/-- The invariant of the frames after the head frame is overwritten and marked
dirty. -/
theorem PoolOk.set_page (PS : Nat) (files : String → Option (List Byte)) (f : Frame)
    (rest : List Frame) (pg : Page) (hpg : pg.length = PS)
    (h : PoolOk PS files (f :: rest)) :
    PoolOk PS files ({ f with page := pg, dirty := true } :: rest) := by
  refine ⟨?_, ?_, ?_⟩
  · simpa [Frame.key] using h.nodup
  · intro g hg
    rcases List.mem_cons.1 hg with rfl | hmem
    · exact hpg
    · exact h.size g (List.mem_cons_of_mem _ hmem)
  · intro g hg hd
    rcases List.mem_cons.1 hg with rfl | hmem
    · simp at hd
    · exact h.clean g (List.mem_cons_of_mem _ hmem) hd

theorem Sys.log_frames (s : Sys) (ev : Event) : (s.log ev).frames = s.frames := rfl

theorem Sys.log_files (s : Sys) (ev : Event) : (s.log ev).files = s.files := rfl

theorem Sys.log_capacity (s : Sys) (ev : Event) : (s.log ev).capacity = s.capacity := rfl

theorem Sys.log_trace (s : Sys) (ev : Event) : (s.log ev).trace = s.trace ++ [ev] := rfl

/-- What `BufferPool::get` does between two calls of the storage layer: it
succeeds, returns the current version of the page, leaves its frame pinned once
at the head of the pool, and changes the current version of no page. -/
theorem BufferPool.get_spec (PS : Nat) (s : Sys) (file : String) (n : Nat)
    (h : s.Ready PS) :
    ∃ (f : Frame) (rest : List Frame) (files : String → Option (List Byte)),
      BufferPool.get PS s file n = (.ok f.page,
        { files := files, frames := f :: rest, capacity := s.capacity,
          trace := s.trace ++ [.get file n] }) ∧
      f.file = file ∧ f.pageNo = n ∧ f.pin = 1 ∧ f.page = s.current PS file n ∧
      PoolOk PS files (f :: rest) ∧ (∀ g ∈ rest, g ∈ s.frames) ∧
      (∀ file' m, pageOf PS files (f :: rest) file' m = s.current PS file' m) ∧
      ((lookupFrame s.frames file n ≠ none ∨ s.frames.length < s.capacity) →
        files = s.files ∧ (f :: rest).length ≤ s.frames.length + 1) := by
  cases hl : lookupFrame s.frames file n with
  | some f0 =>
    obtain ⟨hmem, hfile, hno⟩ := lookupFrame_some _ _ _ _ hl
    have hpin : f0.pin = 0 := h.idle f0 hmem
    refine ⟨{ f0 with pin := f0.pin + 1 }, dropFrame s.frames file n, s.files, ?_, hfile, hno,
      by simp [hpin], by simp [Sys.current, pageOf, hl], ?_, ?_, ?_, ?_⟩
    · simp only [BufferPool.get, Sys.log_frames, hl]
      rfl
    · refine ⟨?_, ?_, ?_⟩
      · rw [List.map_cons, List.nodup_cons]
        refine ⟨?_, nodup_dropFrame _ _ _ h.ok.nodup⟩
        intro hin
        obtain ⟨x, hx, hxk⟩ := List.mem_map.1 hin
        have := ((mem_dropFrame _ _ _ _).1 hx).2
        simp only [Frame.key, Prod.mk.injEq] at hxk
        exact this ⟨hxk.1.trans hfile, hxk.2.trans hno⟩
      · intro g hg
        rcases List.mem_cons.1 hg with rfl | hm
        · exact h.ok.size f0 hmem
        · exact h.ok.size g ((mem_dropFrame _ _ _ _).1 hm).1
      · intro g hg hd
        rcases List.mem_cons.1 hg with rfl | hm
        · exact h.ok.clean f0 hmem hd
        · exact h.ok.clean g ((mem_dropFrame _ _ _ _).1 hm).1 hd
    · intro g hg
      exact ((mem_dropFrame _ _ _ _).1 hg).1
    · intro file' m
      rw [pageOf_cons]
      by_cases hk : file' = file ∧ m = n
      · obtain ⟨rfl, rfl⟩ := hk
        rw [if_pos ⟨hfile, hno⟩]
        simp [Sys.current, pageOf, hl]
      · rw [if_neg (by intro hc; exact hk ⟨hc.1.symm.trans hfile, hc.2.symm.trans hno⟩)]
        exact pageOf_dropFrame_other PS s.files s.frames file file' n m hk
    · intro _
      refine ⟨rfl, ?_⟩
      simp only [List.length_cons, dropFrame]
      have := List.length_filter_le (fun f => !f.hasKey file n) s.frames
      omega
  | none =>
    have hnone := lookupFrame_none _ _ _ hl
    by_cases hcap : s.frames.length < s.capacity
    · refine ⟨Frame.mk file n (diskPage PS ((s.files file).getD []) n) 1 false,
        s.frames, s.files, ?_, rfl, rfl, rfl,
        by simp [Sys.current, pageOf, hl], ?_, fun _ hg => hg, ?_, ?_⟩
      · simp only [BufferPool.get, Sys.log_frames, hl, Sys.log_capacity, if_pos hcap]
        rfl
      · refine ⟨?_, ?_, ?_⟩
        · rw [List.map_cons, List.nodup_cons]
          refine ⟨?_, h.ok.nodup⟩
          intro hin
          obtain ⟨x, hx, hxk⟩ := List.mem_map.1 hin
          simp only [Frame.key, Prod.mk.injEq] at hxk
          exact hnone x hx hxk
        · intro g hg
          rcases List.mem_cons.1 hg with rfl | hm
          · exact diskPage_length _ _ _
          · exact h.ok.size g hm
        · intro g hg hd
          rcases List.mem_cons.1 hg with rfl | hm
          · rfl
          · exact h.ok.clean g hm hd
      · intro file' m
        rw [pageOf_cons]
        by_cases hk : file = file' ∧ n = m
        · obtain ⟨rfl, rfl⟩ := hk
          simp [Sys.current, pageOf, hl]
        · rw [if_neg hk]
          rfl
      · intro _
        exact ⟨rfl, by simp⟩
    · have hne : s.frames ≠ [] := by
        intro he
        have := h.room
        rw [he] at hcap
        simp at hcap
        omega
      obtain ⟨v, hv, hvmem⟩ := victim_of_idle s.frames h.idle hne
      have hvk : ¬ (v.file = file ∧ v.pageNo = n) := hnone v hvmem
      have hfiles : ∀ file' m, ¬ (v.file = file' ∧ v.pageNo = m) →
          diskPage PS (((if v.dirty then writeBack PS s.files v else s.files) file').getD []) m
            = diskPage PS ((s.files file').getD []) m := by
        intro file' m hk
        by_cases hd : v.dirty = true
        · rw [if_pos hd]; exact diskPage_writeBack PS s.files v file' m hk
        · rw [if_neg hd]
      have hvpage : diskPage PS
          (((if v.dirty then writeBack PS s.files v else s.files) v.file).getD []) v.pageNo
            = v.page := by
        by_cases hd : v.dirty = true
        · rw [if_pos hd]; exact diskPage_writeBack_same PS s.files v (h.ok.size v hvmem)
        · rw [if_neg hd]
          exact (h.ok.clean v hvmem (by simpa using hd)).symm
      refine ⟨Frame.mk file n (diskPage PS
          (((if v.dirty then writeBack PS s.files v else s.files) file).getD []) n) 1 false,
        dropFrame s.frames v.file v.pageNo,
        if v.dirty then writeBack PS s.files v else s.files, ?_, rfl, rfl, rfl, ?_, ?_, ?_, ?_, ?_⟩
      · simp only [BufferPool.get, Sys.log_frames, hl, Sys.log_capacity, if_neg hcap, hv]
        rfl
      · simp only [Sys.current, pageOf, hl]
        exact hfiles file n hvk
      · refine ⟨?_, ?_, ?_⟩
        · rw [List.map_cons, List.nodup_cons]
          refine ⟨?_, nodup_dropFrame _ _ _ h.ok.nodup⟩
          intro hin
          obtain ⟨x, hx, hxk⟩ := List.mem_map.1 hin
          simp only [Frame.key, Prod.mk.injEq] at hxk
          exact hnone x ((mem_dropFrame _ _ _ _).1 hx).1 hxk
        · intro g hg
          rcases List.mem_cons.1 hg with rfl | hm
          · exact diskPage_length _ _ _
          · exact h.ok.size g ((mem_dropFrame _ _ _ _).1 hm).1
        · intro g hg hd
          rcases List.mem_cons.1 hg with rfl | hm
          · rfl
          · obtain ⟨hgm, hgk⟩ := (mem_dropFrame _ _ _ _).1 hm
            rw [hfiles g.file g.pageNo (by intro hc; exact hgk ⟨hc.1.symm, hc.2.symm⟩)]
            exact h.ok.clean g hgm hd
      · intro g hg
        exact ((mem_dropFrame _ _ _ _).1 hg).1
      · intro file' m
        rw [pageOf_cons]
        by_cases hk : file = file' ∧ n = m
        · obtain ⟨rfl, rfl⟩ := hk
          rw [if_pos ⟨rfl, rfl⟩]
          simp only [Sys.current, pageOf, hl]
          exact hfiles file n hvk
        · rw [if_neg hk]
          by_cases hkv : file' = v.file ∧ m = v.pageNo
          · obtain ⟨rfl, rfl⟩ := hkv
            simp only [pageOf, lookupFrame_dropFrame_same, Sys.current,
              lookupFrame_of_mem s.frames v h.ok.nodup hvmem]
            exact hvpage
          · rw [pageOf_dropFrame_other PS _ s.frames v.file file' v.pageNo m hkv]
            simp only [Sys.current, pageOf]
            cases hl2 : lookupFrame s.frames file' m with
            | some g => rfl
            | none =>
              exact hfiles file' m (by intro hc; exact hkv ⟨hc.1.symm, hc.2.symm⟩)
      · intro hor
        rcases hor with hor | hor
        · exact absurd rfl hor
        · exact absurd hor hcap
theorem pageOf_set_pin (PS : Nat) (files : String → Option (List Byte)) (f : Frame)
    (rest : List Frame) (p : Nat) (file : String) (n : Nat) :
    pageOf PS files ({ f with pin := p } :: rest) file n
      = pageOf PS files (f :: rest) file n := by
  rw [pageOf_cons, pageOf_cons]

theorem BufferPool.unpin_head (files : String → Option (List Byte)) (f : Frame)
    (rest : List Frame) (cap : Nat) (tr : List Event) (file : String) (n : Nat)
    (hfile : f.file = file) (hno : f.pageNo = n) (hpin : f.pin = 1)
    (hrest : ∀ x ∈ rest, ¬ (x.file = file ∧ x.pageNo = n)) :
    BufferPool.unpin (Sys.mk files (f :: rest) cap tr) file n
      = (.ok (), Sys.mk files ({ f with pin := 0 } :: rest) cap (tr ++ [.unpin file n])) := by
  simp only [BufferPool.unpin, Sys.log_frames, lookupFrame_cons, if_pos (And.intro hfile hno),
    hpin]
  rw [if_neg (by decide), modifyFrame_head f rest file n _ ⟨hfile, hno⟩ hrest]
  simp [Sys.log, hpin]

theorem Sys.Ready.log (PS : Nat) (s : Sys) (ev : Event) (h : s.Ready PS) :
    (s.log ev).Ready PS :=
  ⟨h.ok, h.idle, h.room⟩

/-- What `BlockFile::readPage` does between two calls of the storage layer: it
returns the current version of the page and changes the current version of no
page. -/
theorem BlockFile.readPage_spec (PS : Nat) (bf : BlockFile) (s : Sys) (n : Nat)
    (h : s.Ready PS) :
    ∃ s1, bf.readPage PS s n = (.ok (s.current PS bf.path_ n), s1) ∧ s1.Ready PS ∧
      (∀ file m, s1.current PS file m = s.current PS file m) ∧
      s1.trace = s.trace ++ [.readPage bf.path_ n, .get bf.path_ n, .unpin bf.path_ n] ∧
      s1.capacity = s.capacity ∧
      (∀ g ∈ s1.frames, (g.file = bf.path_ ∧ g.pageNo = n) ∨ g ∈ s.frames) ∧
      ((lookupFrame s.frames bf.path_ n ≠ none ∨ s.frames.length < s.capacity) →
        s1.files = s.files ∧ s1.frames.length ≤ s.frames.length + 1) := by
  obtain ⟨f, rest, files, hget, hfile, hno, hpin, hpage, hok, hrest, hcur, hsame⟩ :=
    BufferPool.get_spec PS (s.log (.readPage bf.path_ n)) bf.path_ n (h.log PS s _)
  have hne : ∀ x ∈ rest, ¬ (x.file = bf.path_ ∧ x.pageNo = n) := by
    intro x hx
    have := PoolOk.rest_ne PS files f rest hok x hx
    rwa [hfile, hno] at this
  refine ⟨Sys.mk files ({ f with pin := 0 } :: rest) s.capacity
    (s.trace ++ [.readPage bf.path_ n, .get bf.path_ n, .unpin bf.path_ n]), ?_, ?_, ?_, ?_, ?_,
    ?_, ?_⟩
  rotate_left
  · refine ⟨PoolOk.set_pin PS files f rest 0 hok, ?_, h.room⟩
    intro g hg
    rcases List.mem_cons.1 hg with rfl | hm
    · rfl
    · exact h.idle g (hrest g hm)
  · intro file m
    simp only [Sys.current]
    rw [pageOf_set_pin]
    exact hcur file m
  · rfl
  · rfl
  · intro g hg
    rcases List.mem_cons.1 hg with rfl | hm
    · exact Or.inl ⟨hfile, hno⟩
    · exact Or.inr (hrest g hm)
  · intro hor
    have := hsame hor
    exact ⟨this.1, by simpa using this.2⟩
  · simp only [BlockFile.readPage, hget]
    have hu := BufferPool.unpin_head files f rest s.capacity
      (s.trace ++ [.readPage bf.path_ n] ++ [.get bf.path_ n]) bf.path_ n hfile hno hpin hne
    simp only [Sys.log_capacity, Sys.log_trace]
    rw [hu, hpage]
    simp [Sys.current, Sys.log_files, Sys.log_frames]

/-- What `BlockFile::writePage` does between two calls of the storage layer: the
page becomes the current version of page `n`, and the current version of no
other page changes. -/
theorem BlockFile.writePage_spec (PS : Nat) (bf : BlockFile) (s : Sys) (n : Nat) (pg : Page)
    (h : s.Ready PS) (hpg : pg.length = PS) :
    ∃ s1, bf.writePage PS s n pg = (.ok (), s1) ∧ s1.Ready PS ∧
      s1.current PS bf.path_ n = pg ∧
      (∀ file m, ¬ (file = bf.path_ ∧ m = n) → s1.current PS file m = s.current PS file m) ∧
      s1.trace = s.trace ++ [.writePage bf.path_ n pg, .get bf.path_ n, .markDirty bf.path_ n,
        .unpin bf.path_ n] ∧
      s1.capacity = s.capacity ∧
      (∀ g ∈ s1.frames, (g.file = bf.path_ ∧ g.pageNo = n) ∨ g ∈ s.frames) ∧
      ((lookupFrame s.frames bf.path_ n ≠ none ∨ s.frames.length < s.capacity) →
        s1.files = s.files ∧ s1.frames.length ≤ s.frames.length + 1) ∧
      lookupFrame s1.frames bf.path_ n ≠ none := by
  obtain ⟨f, rest, files, hget, hfile, hno, hpin, hpage, hok, hrest, hcur, hsame⟩ :=
    BufferPool.get_spec PS (s.log (.writePage bf.path_ n pg)) bf.path_ n (h.log PS s _)
  have hne : ∀ x ∈ rest, ¬ (x.file = bf.path_ ∧ x.pageNo = n) := by
    intro x hx
    have := PoolOk.rest_ne PS files f rest hok x hx
    rwa [hfile, hno] at this
  refine ⟨Sys.mk files ({ f with page := pg, dirty := true, pin := 0 } :: rest) s.capacity
    (s.trace ++ [.writePage bf.path_ n pg, .get bf.path_ n, .markDirty bf.path_ n,
      .unpin bf.path_ n]), ?_, ?_, ?_, ?_, ?_, ?_, ?_, ?_, ?_⟩
  rotate_left
  · refine ⟨PoolOk.set_pin PS files _ rest 0 (PoolOk.set_page PS files f rest pg hpg hok), ?_,
      h.room⟩
    intro g hg
    rcases List.mem_cons.1 hg with rfl | hm
    · rfl
    · exact h.idle g (hrest g hm)
  · simp only [Sys.current]
    rw [pageOf_cons, if_pos ⟨hfile, hno⟩]
  · intro file m hk
    simp only [Sys.current]
    rw [pageOf_cons, if_neg (by intro hc; exact hk ⟨hc.1.symm.trans hfile, hc.2.symm.trans hno⟩)]
    have := hcur file m
    rw [pageOf_cons, if_neg (by intro hc; exact hk ⟨hc.1.symm.trans hfile, hc.2.symm.trans hno⟩)]
      at this
    exact this
  · rfl
  · rfl
  · intro g hg
    rcases List.mem_cons.1 hg with rfl | hm
    · exact Or.inl ⟨hfile, hno⟩
    · exact Or.inr (hrest g hm)
  · intro hor
    have := hsame hor
    exact ⟨this.1, by simpa using this.2⟩
  · simp only [lookupFrame_cons]
    rw [if_pos ⟨hfile, hno⟩]
    exact Option.some_ne_none _
  · simp only [BlockFile.writePage, hget, storeFrame, BufferPool.markDirty, Sys.log_frames,
      Sys.log_files, Sys.log_capacity, Sys.log_trace]
    rw [modifyFrame_head f rest bf.path_ n _ ⟨hfile, hno⟩ hne,
      modifyFrame_head { f with page := pg } rest bf.path_ n _ ⟨hfile, hno⟩ hne]
    have hu := BufferPool.unpin_head files { f with page := pg, dirty := true } rest s.capacity
      (s.trace ++ [.writePage bf.path_ n pg] ++ [.get bf.path_ n] ++ [.markDirty bf.path_ n])
      bf.path_ n hfile hno hpin hne
    rw [hu]
    simp

/-! ## Pages: lemmas -/

theorem sizeMod_eq : sizeMod = 18446744073709551616 := by
  norm_num [sizeMod]

theorem Page.fresh_eq (PS : Nat) (e : Endian) :
    Page.fresh PS e
      = u16Bytes e 0 ++ (u16Bytes e (PS % 65536) ++ List.replicate (PS - 4) 0) := by
  simp [Page.fresh, overwrite, Page.zero, u16Bytes_length, List.drop_replicate]

theorem Page.recordCount_fresh (PS : Nat) (e : Endian) :
    Page.recordCount e (Page.fresh PS e) = 0 := by
  rw [Page.fresh_eq, Page.recordCount, loadU16_u16Bytes e 0 (by decide)]
  rfl

theorem Page.freeEnd_fresh (PS : Nat) (e : Endian) :
    Page.freeEnd e (Page.fresh PS e) = PS % 65536 := by
  have h := loadU16_append e (u16Bytes e 0) (List.replicate (PS - 4) 0) (PS % 65536)
    (Nat.mod_lt _ (by decide))
  rw [u16Bytes_length] at h
  rw [Page.fresh_eq, Page.freeEnd, h]
  rfl

theorem Page.fresh_length (PS : Nat) (e : Endian) (h : 4 ≤ PS) :
    (Page.fresh PS e).length = PS := by
  rw [Page.fresh_eq]
  simp [u16Bytes_length]
  omega

/-- A record that does not fit in a page without records does not fit in a page
whose free-space boundary is not larger. -/
theorem Page.insertRecord_none_of_le (e : Endian) (fr pg : Page) (rec : List Byte)
    (h : Page.insertRecord e fr rec = none) (hcnt : Page.recordCount e fr = 0)
    (hle : Page.freeEnd e pg ≤ Page.freeEnd e fr) : Page.insertRecord e pg rec = none := by
  simp only [Page.insertRecord, Page.slotEnd, hcnt] at h
  simp only [Page.insertRecord, Page.slotEnd]
  by_cases hc : Page.freeEnd e fr < 4 + 4 * 0 + (4 + rec.length)
  · rw [if_pos (by omega)]
  · rw [if_neg hc] at h
    cases h

theorem overwrite_mid (pre mid post src : List Byte) (off : Nat) (hoff : off = pre.length)
    (hlen : src.length = mid.length) :
    overwrite (pre ++ (mid ++ post)) off src = pre ++ (src ++ post) := by
  subst hoff
  simp only [overwrite, List.take_left, List.append_assoc]
  rw [List.drop_append, hlen, List.drop_left]

theorem overwrite_length (buf src : List Byte) (off : Nat) (h : off + src.length ≤ buf.length) :
    (overwrite buf off src).length = buf.length := by
  simp only [overwrite, List.length_append, List.length_take, List.length_drop]
  omega

/-- The page that results from inserting a record in a fresh page. -/
theorem Page.insertRecord_fresh (PS : Nat) (e : Endian) (rec : List Byte) (i : Nat)
    (pg : Page) (hPS : PS < 65536)
    (h : (Page.fresh PS e).insertRecord e rec = some (i, pg)) :
    8 + rec.length ≤ PS ∧ i = 0 ∧
      pg = u16Bytes e 1 ++ (u16Bytes e (PS - rec.length) ++
        (u16Bytes e (PS - rec.length) ++ (u16Bytes e rec.length ++
          (List.replicate (PS - 8 - rec.length) 0 ++ rec)))) := by
  simp only [Page.insertRecord, Page.slotEnd, Page.recordCount_fresh, Page.freeEnd_fresh,
    Nat.mod_eq_of_lt hPS] at h
  by_cases hc : PS < 4 + 4 * 0 + (4 + rec.length)
  · rw [if_pos hc] at h
    cases h
  · rw [if_neg hc] at h
    have hfit : 8 + rec.length ≤ PS := by omega
    simp only [Option.some.injEq, Prod.mk.injEq] at h
    refine ⟨hfit, h.1.symm, ?_⟩
    rw [← h.2, Page.fresh_eq, Nat.mod_eq_of_lt hPS]
    have hz : List.replicate (PS - 4) (0 : Byte)
        = List.replicate 4 0 ++ (List.replicate (PS - 8 - rec.length) 0
          ++ List.replicate rec.length 0) := by
      rw [← List.replicate_add, ← List.replicate_add]
      congr 1
      omega
    rw [hz]
    have h1 : overwrite (u16Bytes e 0 ++ (u16Bytes e PS ++ (List.replicate 4 0 ++
        (List.replicate (PS - 8 - rec.length) 0 ++ List.replicate rec.length 0))))
          (PS - rec.length) rec
        = u16Bytes e 0 ++ (u16Bytes e PS ++ (List.replicate 4 0 ++
          (List.replicate (PS - 8 - rec.length) 0 ++ rec))) := by
      have := overwrite_mid (u16Bytes e 0 ++ (u16Bytes e PS ++ (List.replicate 4 0 ++
        List.replicate (PS - 8 - rec.length) 0))) (List.replicate rec.length 0) [] rec
        (PS - rec.length) (by simp [u16Bytes_length]; omega) (by simp)
      simpa [List.append_assoc] using this
    have h2 : overwrite (u16Bytes e 0 ++ (u16Bytes e PS ++ (List.replicate 4 0 ++
          (List.replicate (PS - 8 - rec.length) 0 ++ rec)))) (4 + 4 * 0)
          (u16Bytes e (PS - rec.length) ++ u16Bytes e rec.length)
        = u16Bytes e 0 ++ (u16Bytes e PS ++ ((u16Bytes e (PS - rec.length)
          ++ u16Bytes e rec.length) ++ (List.replicate (PS - 8 - rec.length) 0 ++ rec))) := by
      have := overwrite_mid (u16Bytes e 0 ++ u16Bytes e PS) (List.replicate 4 0)
        (List.replicate (PS - 8 - rec.length) 0 ++ rec)
        (u16Bytes e (PS - rec.length) ++ u16Bytes e rec.length) (4 + 4 * 0)
        (by simp [u16Bytes_length]) (by simp [u16Bytes_length])
      simpa [List.append_assoc] using this
    have h3 : overwrite (u16Bytes e 0 ++ (u16Bytes e PS ++ ((u16Bytes e (PS - rec.length)
          ++ u16Bytes e rec.length) ++ (List.replicate (PS - 8 - rec.length) 0 ++ rec)))) 0
          (u16Bytes e (0 + 1) ++ u16Bytes e (PS - rec.length))
        = (u16Bytes e (0 + 1) ++ u16Bytes e (PS - rec.length)) ++ ((u16Bytes e (PS - rec.length)
          ++ u16Bytes e rec.length) ++ (List.replicate (PS - 8 - rec.length) 0 ++ rec)) := by
      have := overwrite_mid [] (u16Bytes e 0 ++ u16Bytes e PS)
        ((u16Bytes e (PS - rec.length) ++ u16Bytes e rec.length)
          ++ (List.replicate (PS - 8 - rec.length) 0 ++ rec))
        (u16Bytes e (0 + 1) ++ u16Bytes e (PS - rec.length)) 0 rfl
        (by simp [u16Bytes_length])
      simpa [List.append_assoc] using this
    rw [h1, h2, h3]
    simp [List.append_assoc]
/-- After the insertion of a record in a fresh page the page has its size, the
record is its only record, and the bytes of the record end the page. -/
theorem Page.insertRecord_fresh_records (PS : Nat) (e : Endian) (rec : List Byte) (i : Nat)
    (pg : Page) (hPS : PS < 65536)
    (h : (Page.fresh PS e).insertRecord e rec = some (i, pg)) :
    pg.length = PS ∧ pg.forEachRecord e = [(PS - rec.length, rec.length)] ∧
      pg.drop (PS - rec.length) = rec := by
  obtain ⟨hfit, _, hpg⟩ := Page.insertRecord_fresh PS e rec i pg hPS h
  have hoff : PS - rec.length < 65536 := by omega
  have hlen : rec.length < 65536 := by omega
  have hcnt : Page.recordCount e pg = 1 := by
    rw [hpg, Page.recordCount, loadU16_u16Bytes e 1 (by decide)]
    rfl
  have hs0 : loadU16 e pg (4 + 4 * 0) = some (PS - rec.length) := by
    have := loadU16_append e (u16Bytes e 1 ++ u16Bytes e (PS - rec.length))
      (u16Bytes e rec.length ++ (List.replicate (PS - 8 - rec.length) 0 ++ rec))
      (PS - rec.length) hoff
    rw [hpg]
    simpa [u16Bytes_length, List.append_assoc] using this
  have hs1 : loadU16 e pg (4 + 4 * 0 + 2) = some rec.length := by
    have := loadU16_append e
      (u16Bytes e 1 ++ (u16Bytes e (PS - rec.length) ++ u16Bytes e (PS - rec.length)))
      (List.replicate (PS - 8 - rec.length) 0 ++ rec) rec.length hlen
    rw [hpg]
    simpa [u16Bytes_length, List.append_assoc] using this
  refine ⟨?_, ?_, ?_⟩
  · rw [hpg]
    simp [u16Bytes_length]
    omega
  · simp only [Page.forEachRecord, hcnt]
    simp only [List.range_succ, List.range_zero, List.nil_append, List.map_cons, List.map_nil,
      Page.slot, hs0, hs1, Option.getD_some]
  · have hpre : (u16Bytes e 1 ++ (u16Bytes e (PS - rec.length) ++
        (u16Bytes e (PS - rec.length) ++ (u16Bytes e rec.length ++
          List.replicate (PS - 8 - rec.length) 0)))).length = PS - rec.length := by
      simp [u16Bytes_length]
      omega
    have hsplit : pg = (u16Bytes e 1 ++ (u16Bytes e (PS - rec.length) ++
        (u16Bytes e (PS - rec.length) ++ (u16Bytes e rec.length ++
          List.replicate (PS - 8 - rec.length) 0)))) ++ rec := by
      rw [hpg]
      simp [List.append_assoc]
    rw [hsplit]
    generalize u16Bytes e 1 ++ (u16Bytes e (PS - rec.length) ++
        (u16Bytes e (PS - rec.length) ++ (u16Bytes e rec.length ++
          List.replicate (PS - 8 - rec.length) 0))) = pre at hpre
    rw [← hpre, List.drop_left]

theorem writesOf_append (a b : List Event) : writesOf (a ++ b) = writesOf a ++ writesOf b := by
  induction a with
  | nil => rfl
  | cons ev evs ih => cases ev <;> simp [writesOf, ih]

theorem BlockFile.pageCount_lt (PS : Nat) (bf : BlockFile) (s : Sys) :
    bf.pageCount PS s < sizeMod := by
  simp only [BlockFile.pageCount]
  exact Nat.lt_of_le_of_lt (Nat.div_le_self _ _) (Nat.mod_lt _ (by rw [sizeMod_eq]; decide))

/-! ## `TableFile::appendRow`: properties -/

/-- C5: between two calls of the storage layer, for every row whose encoding cannot
be inserted into a fresh page, `appendRow` fails with
`StorageError("row too large")`, makes no call of `writePage`, and leaves the
current version of every page of every file as it was.  When only page 0 exists
(`last == 0`) nothing is asked of the table; otherwise the page `last` that is
read has its free-space boundary inside the page (the invariant of a slotted
page). -/
theorem TableFile.appendRow_too_large (PS : Nat) (e : Endian) (tf : TableFile) (s : Sys)
    (row : Row) (h : s.Ready PS) (hPS : PS < 65536)
    (hlast : (tf.bf_.pageCount PS s + sizeMod - 1) % sizeMod ≠ 0 →
      Page.freeEnd e
        (s.current PS tf.bf_.path_ ((tf.bf_.pageCount PS s + sizeMod - 1) % sizeMod)) ≤ PS)
    (hrow : (Page.fresh PS e).insertRecord e (serializeRow e row) = none) :
    ∃ s1, tf.appendRow PS e s row = (.error (.storageError "row too large"), s1) ∧
      writesOf s1.trace = writesOf s.trace ∧
      (∀ file m, s1.current PS file m = s.current PS file m) ∧ s1.Ready PS := by
  by_cases h0 : (tf.bf_.pageCount PS s + sizeMod - 1) % sizeMod = 0
  · refine ⟨s, ?_, rfl, fun _ _ => rfl, h⟩
    simp only [TableFile.appendRow, h0, if_true, hrow]
  · obtain ⟨s1, hread, hready, hcur, htrace, _, _, _⟩ :=
      BlockFile.readPage_spec PS tf.bf_ s ((tf.bf_.pageCount PS s + sizeMod - 1) % sizeMod) h
    have hfull : Page.insertRecord e
        (s.current PS tf.bf_.path_ ((tf.bf_.pageCount PS s + sizeMod - 1) % sizeMod))
        (serializeRow e row) = none := by
      apply Page.insertRecord_none_of_le e _ _ _ hrow (Page.recordCount_fresh PS e)
      rw [Page.freeEnd_fresh, Nat.mod_eq_of_lt hPS]
      exact hlast h0
    refine ⟨s1, ?_, ?_, hcur, hready⟩
    · simp only [TableFile.appendRow, if_neg h0, hread, hfull, hrow]
    · rw [htrace, writesOf_append]
      simp [writesOf]

/-- C6: between two calls of the storage layer, when the table has at least two
pages, `insertRecord` on the last page returns the full sentinel and the row
fits in a fresh page, `appendRow` succeeds and calls `writePage` exactly once,
for page `last + 1` with the fresh page that holds the encoded row as its only
record; that page becomes the current version of page `last + 1` and the current
version of every other page, page `last` included, is as before. -/
theorem TableFile.appendRow_spill (PS : Nat) (e : Endian) (tf : TableFile) (s : Sys)
    (row : Row) (i : Nat) (fresh : Page) (h : s.Ready PS) (hPS : PS < 65536)
    (hcnt : 2 ≤ tf.bf_.pageCount PS s)
    (hfull : Page.insertRecord e (s.current PS tf.bf_.path_ (tf.bf_.pageCount PS s - 1))
      (serializeRow e row) = none)
    (hfit : (Page.fresh PS e).insertRecord e (serializeRow e row) = some (i, fresh)) :
    ∃ s1, tf.appendRow PS e s row = (.ok (), s1) ∧
      writesOf s1.trace = writesOf s.trace ++ [(tf.bf_.path_, tf.bf_.pageCount PS s, fresh)] ∧
      s1.current PS tf.bf_.path_ (tf.bf_.pageCount PS s) = fresh ∧
      fresh.forEachRecord e
        = [(PS - (serializeRow e row).length, (serializeRow e row).length)] ∧
      fresh.drop (PS - (serializeRow e row).length) = serializeRow e row ∧
      s1.current PS tf.bf_.path_ (tf.bf_.pageCount PS s - 1)
        = s.current PS tf.bf_.path_ (tf.bf_.pageCount PS s - 1) ∧
      (∀ file m, ¬ (file = tf.bf_.path_ ∧ m = tf.bf_.pageCount PS s) →
        s1.current PS file m = s.current PS file m) ∧
      s1.Ready PS := by
  have hlt := BlockFile.pageCount_lt PS tf.bf_ s
  rw [sizeMod_eq] at hlt
  have hlastv : (tf.bf_.pageCount PS s + sizeMod - 1) % sizeMod = tf.bf_.pageCount PS s - 1 := by
    rw [sizeMod_eq]; omega
  have hnext : (tf.bf_.pageCount PS s - 1 + 1) % sizeMod = tf.bf_.pageCount PS s := by
    rw [sizeMod_eq]; omega
  have h0 : tf.bf_.pageCount PS s - 1 ≠ 0 := by omega
  obtain ⟨hlen, hrecs, hdrop⟩ :=
    Page.insertRecord_fresh_records PS e (serializeRow e row) i fresh hPS hfit
  obtain ⟨s1, hread, hready, hcur, htrace, _, _, _⟩ :=
    BlockFile.readPage_spec PS tf.bf_ s (tf.bf_.pageCount PS s - 1) h
  obtain ⟨s2, hwrite, hready2, hnew, hold, htrace2, _, _, _, _⟩ :=
    BlockFile.writePage_spec PS tf.bf_ s1 (tf.bf_.pageCount PS s) fresh hready hlen
  have hothers : ∀ file m, ¬ (file = tf.bf_.path_ ∧ m = tf.bf_.pageCount PS s) →
      s2.current PS file m = s.current PS file m := by
    intro file m hk
    rw [hold file m hk, hcur]
  refine ⟨s2, ?_, ?_, hnew, hrecs, hdrop, ?_, hothers, hready2⟩
  · simp only [TableFile.appendRow, hlastv, if_neg h0, hread, hfull, hfit, hnext]
    exact hwrite
  · rw [htrace2, htrace, writesOf_append, writesOf_append]
    simp [writesOf]
  · apply hothers
    intro hk
    omega

theorem Sys.withFile_ready (PS cap : Nat) (content : List Byte) (h : 0 < cap) :
    (Sys.withFile cap content).Ready PS := by
  refine ⟨⟨?_, ?_, ?_⟩, ?_, h⟩
  · simp [Sys.withFile]
  · intro f hf; simp [Sys.withFile] at hf
  · intro f hf; simp [Sys.withFile] at hf
  · intro f hf; simp [Sys.withFile] at hf

theorem Sys.boot_ready (PS cap : Nat) (h : 0 < cap) : (Sys.boot cap).Ready PS := by
  refine ⟨⟨?_, ?_, ?_⟩, ?_, h⟩
  · simp [Sys.boot]
  · intro f hf; simp [Sys.boot] at hf
  · intro f hf; simp [Sys.boot] at hf
  · intro f hf; simp [Sys.boot] at hf

/-- Witness of C5: pages of 16 bytes and a row whose encoding has 13 bytes, on a
table that has its header page only (`last == 0`) and on a table of two pages
whose last page is fresh. -/
theorem TableFile.appendRow_too_large_witness :
    BlockFile.pageCount 16 ⟨"t.tbl"⟩ (Sys.withFile 4 exampleHeader) = 1 ∧
    (∃ s1, TableFile.appendRow 16 .little ⟨⟨"t.tbl"⟩⟩
        (Sys.withFile 4 exampleHeader) [[1, 2, 3, 4, 5, 6, 7, 8, 9]]
          = (.error (.storageError "row too large"), s1) ∧
      writesOf s1.trace = writesOf (Sys.withFile 4 exampleHeader).trace ∧
      (∀ file m, s1.current 16 file m = (Sys.withFile 4 exampleHeader).current 16 file m) ∧
      s1.Ready 16) ∧
    ∃ s1, TableFile.appendRow 16 .little ⟨⟨"t.tbl"⟩⟩
        (Sys.withFile 4 (Page.zero 16 ++ Page.fresh 16 .little)) [[1, 2, 3, 4, 5, 6, 7, 8, 9]]
          = (.error (.storageError "row too large"), s1) ∧
      writesOf s1.trace
        = writesOf (Sys.withFile 4 (Page.zero 16 ++ Page.fresh 16 .little)).trace ∧
      (∀ file m, s1.current 16 file m
        = (Sys.withFile 4 (Page.zero 16 ++ Page.fresh 16 .little)).current 16 file m) ∧
      s1.Ready 16 :=
  ⟨by decide,
    TableFile.appendRow_too_large 16 .little ⟨⟨"t.tbl"⟩⟩ (Sys.withFile 4 exampleHeader)
      [[1, 2, 3, 4, 5, 6, 7, 8, 9]] (Sys.withFile_ready 16 4 _ (by decide)) (by decide)
      (fun hne => absurd (by decide) hne) (by decide),
    TableFile.appendRow_too_large 16 .little ⟨⟨"t.tbl"⟩⟩
      (Sys.withFile 4 (Page.zero 16 ++ Page.fresh 16 .little)) [[1, 2, 3, 4, 5, 6, 7, 8, 9]]
      (Sys.withFile_ready 16 4 _ (by decide)) (by decide) (fun _ => by decide) (by decide)⟩

/-- Witness of C6: pages of 16 bytes, a table of two pages whose last page holds
a record of six bytes, and a row whose encoding has six bytes. -/
theorem TableFile.appendRow_spill_witness :
    ∃ s1, TableFile.appendRow 16 .little ⟨⟨"t.tbl"⟩⟩
        (Sys.withFile 4 (Page.zero 16 ++ examplePage)) [[1, 2]] = (.ok (), s1) ∧
      writesOf s1.trace = writesOf (Sys.withFile 4 (Page.zero 16 ++ examplePage)).trace ++
        [("t.tbl", BlockFile.pageCount 16 ⟨"t.tbl"⟩
          (Sys.withFile 4 (Page.zero 16 ++ examplePage)), examplePage)] ∧
      s1.current 16 "t.tbl" (BlockFile.pageCount 16 ⟨"t.tbl"⟩
        (Sys.withFile 4 (Page.zero 16 ++ examplePage))) = examplePage ∧
      Page.forEachRecord .little examplePage
        = [(16 - (serializeRow .little [[1, 2]]).length,
            (serializeRow .little [[1, 2]]).length)] ∧
      examplePage.drop (16 - (serializeRow .little [[1, 2]]).length)
        = serializeRow .little [[1, 2]] ∧
      s1.current 16 "t.tbl" (BlockFile.pageCount 16 ⟨"t.tbl"⟩
          (Sys.withFile 4 (Page.zero 16 ++ examplePage)) - 1)
        = (Sys.withFile 4 (Page.zero 16 ++ examplePage)).current 16 "t.tbl"
            (BlockFile.pageCount 16 ⟨"t.tbl"⟩
              (Sys.withFile 4 (Page.zero 16 ++ examplePage)) - 1) ∧
      (∀ file m, ¬ (file = "t.tbl" ∧ m = BlockFile.pageCount 16 ⟨"t.tbl"⟩
          (Sys.withFile 4 (Page.zero 16 ++ examplePage))) →
        s1.current 16 file m
          = (Sys.withFile 4 (Page.zero 16 ++ examplePage)).current 16 file m) ∧
      s1.Ready 16 :=
  TableFile.appendRow_spill 16 .little ⟨⟨"t.tbl"⟩⟩
    (Sys.withFile 4 (Page.zero 16 ++ examplePage)) [[1, 2]] 0 examplePage
    (Sys.withFile_ready 16 4 _ (by decide)) (by decide) (by decide) (by decide) (by decide)

/-! ## `FileManager`: properties -/

/-- C9: when the backing store `<name>.tbl` exists, `createTable(name, cols)` fails
with `StorageError("exists")` and leaves the `FileManager` (its registry and its
objects) and the world (every file, the pool) as they were. -/
theorem FileManager.createTable_existing (PS : Nat) (e : Endian) (fm : FileManager)
    (s : Sys) (n : String) (cols : List (List Byte))
    (h : s.fileExists (n ++ ".tbl") = true) :
    fm.createTable PS e s n cols = (.error (.storageError "exists"), fm, s) := by
  simp only [FileManager.createTable, h, if_true]

/-- Witness of C9: a world in which the file exists. -/
theorem FileManager.createTable_existing_witness :
    FileManager.createTable 16 .little FileManager.empty (Sys.withFile 4 (Page.zero 16)) "t"
        [[97]]
      = (.error (.storageError "exists"), FileManager.empty, Sys.withFile 4 (Page.zero 16)) :=
  FileManager.createTable_existing 16 .little FileManager.empty (Sys.withFile 4 (Page.zero 16))
    "t" [[97]] rfl

/-- What a successful `openTable` leaves: the name is registered with the address
it returned. -/
theorem FileManager.openTable_registered (PS : Nat) (e : Endian) (fm : FileManager)
    (s : Sys) (n : String) (a : Nat) (fm1 : FileManager) (s1 : Sys)
    (h : fm.openTable PS e s n = (.ok (some a), fm1, s1)) : fm1.open_ n = some a := by
  simp only [FileManager.openTable] at h
  cases ho : fm.open_ n with
  | some addr =>
    simp only [ho, Prod.mk.injEq, Except.ok.injEq, Option.some.injEq] at h
    rw [← h.2.1, ho, h.1]
  | none =>
    simp only [ho] at h
    by_cases hex : s.fileExists (n ++ ".tbl") = true
    · simp only [hex, Bool.not_true, Bool.false_eq_true, if_false] at h
      cases hc : TableFile.ctor PS e s n false [] with
      | mk r s2 =>
        cases r with
        | error err => simp [hc] at h
        | ok tf =>
          simp only [hc, Prod.mk.injEq, Except.ok.injEq] at h
          rw [← h.2.1]
          exact h.1
    · simp [hex] at h

/-- An `openTable` of a registered name returns the registered address and changes
nothing. -/
theorem FileManager.openTable_of_registered (PS : Nat) (e : Endian) (fm : FileManager)
    (s : Sys) (n : String) (a : Nat) (h : fm.open_ n = some a) :
    fm.openTable PS e s n = (.ok (some a), fm, s) := by
  simp only [FileManager.openTable, h]

/-- What a successful `createTable` leaves: the name is registered with the address
of a `TableFile` object made by this call, whose file is `<name>.tbl`. -/
theorem FileManager.createTable_registered (PS : Nat) (e : Endian) (fm : FileManager)
    (s : Sys) (n : String) (cols : List (List Byte)) (fm1 : FileManager) (s1 : Sys)
    (h : fm.createTable PS e s n cols = (.ok (), fm1, s1)) :
    fm1.open_ n = some fm.heap.length ∧ fm1.heap = fm.heap ++ [⟨⟨n ++ ".tbl"⟩⟩] := by
  simp only [FileManager.createTable] at h
  by_cases hex : s.fileExists (n ++ ".tbl") = true
  · simp [hex] at h
  · simp only [hex, Bool.false_eq_true, if_false] at h
    cases hc : TableFile.ctor PS e s n true cols with
    | mk r s2 =>
      cases r with
      | error err => simp [hc] at h
      | ok tf =>
        simp only [hc, Prod.mk.injEq, Except.ok.injEq, true_and] at h
        have htf : tf = ⟨⟨n ++ ".tbl"⟩⟩ := by
          simp only [TableFile.ctor] at hc
          cases hb : BlockFile.ctor PS e s (n ++ ".tbl") true with
          | mk rb sb =>
            have hbf : ∀ bf, rb = .ok bf → bf = ⟨n ++ ".tbl"⟩ := by
              intro bf hrb
              simp only [BlockFile.ctor, if_true] at hb
              split at hb
              · simp only [Prod.mk.injEq] at hb
                rw [hrb] at hb
                cases hb.1
              · simp only [Prod.mk.injEq] at hb
                rw [hrb] at hb
                exact (Except.ok.inj hb.1).symm
            cases rb with
            | error err => simp [hb] at hc
            | ok bf =>
              have := hbf bf rfl
              subst this
              simp only [hb, if_true] at hc
              split at hc
              · simp at hc
              · split at hc
                · simp at hc
                · simp only [Prod.mk.injEq, Except.ok.injEq] at hc
                  exact hc.1.symm
        rw [← h.1, htf]
        simp [FileManager.register]
/-! ## The header of page 0: lemmas -/

theorem headerLoop_eq (cols : List (List Byte)) (hdr : List Byte) :
    headerLoop cols hdr = hdr ++ joinCols cols := by
  induction cols generalizing hdr with
  | nil => simp [headerLoop, joinCols]
  | cons c rest ih =>
    cases rest with
    | nil => simp [headerLoop, joinCols]
    | cons c1 rest1 =>
      have hstep : headerLoop (c :: c1 :: rest1) hdr
          = headerLoop (c1 :: rest1) (hdr ++ c ++ [comma]) := by
        rw [headerLoop]
        simp
      rw [hstep, ih]
      simp [joinCols, List.append_assoc]

theorem getlineLoop_cons_ne (cur : List Byte) (b : Byte) (cs : List Byte) (hb : b ≠ comma) :
    getlineLoop cur (b :: cs) = getlineLoop (cur ++ [b]) cs := by
  simp only [getlineLoop, if_neg hb]

theorem getlineLoop_cons_comma (cur cs : List Byte) (hcs : cs ≠ []) :
    getlineLoop cur (comma :: cs) = cur :: getlineLoop [] cs := by
  cases cs with
  | nil => exact absurd rfl hcs
  | cons b bs => simp only [getlineLoop, if_true]

theorem getlineLoop_append (c : List Byte) (hc : comma ∉ c) (cur tail : List Byte) :
    getlineLoop cur (c ++ tail) = getlineLoop (cur ++ c) tail := by
  induction c generalizing cur with
  | nil => simp
  | cons b bs ih =>
    have hb : b ≠ comma := fun hb => hc (hb ▸ List.mem_cons_self _ _)
    have hbs : comma ∉ bs := fun hm => hc (List.mem_cons_of_mem _ hm)
    rw [List.cons_append, getlineLoop_cons_ne cur b _ hb, ih hbs]
    simp [List.append_assoc]

theorem joinCols_ne_nil (c : List Byte) (rest : List (List Byte)) (hc : c ≠ []) :
    joinCols (c :: rest) ≠ [] := by
  cases rest with
  | nil => simpa [joinCols] using hc
  | cons c1 rest1 =>
    simp only [joinCols]
    intro h
    have := congrArg List.length h
    simp at this

theorem getlineLoop_joinCols (cols : List (List Byte))
    (h : ∀ c ∈ cols, c ≠ [] ∧ comma ∉ c) (hne : cols ≠ []) :
    getlineLoop [] (joinCols cols) = cols := by
  induction cols with
  | nil => exact absurd rfl hne
  | cons c rest ih =>
    have hc := h c (List.mem_cons_self _ _)
    cases rest with
    | nil =>
      have := getlineLoop_append c hc.2 [] []
      simp only [List.append_nil, List.nil_append] at this
      simp only [joinCols, this, getlineLoop]
    | cons c1 rest1 =>
      have hrest : ∀ x ∈ c1 :: rest1, x ≠ [] ∧ comma ∉ x :=
        fun x hx => h x (List.mem_cons_of_mem _ hx)
      have hj := joinCols_ne_nil c1 rest1 (hrest c1 (List.mem_cons_self _ _)).1
      have hrec := ih hrest (List.cons_ne_nil _ _)
      simp only [joinCols]
      rw [getlineLoop_append c hc.2 [] _, List.nil_append, getlineLoop_cons_comma _ _ hj, hrec]

theorem getlineAll_joinCols (cols : List (List Byte))
    (h : ∀ c ∈ cols, c ≠ [] ∧ comma ∉ c) : getlineAll (joinCols cols) = cols := by
  cases cols with
  | nil => rfl
  | cons c rest =>
    have hj := joinCols_ne_nil c rest (h c (List.mem_cons_self _ _)).1
    have hl := getlineLoop_joinCols (c :: rest) h (List.cons_ne_nil _ _)
    cases hjc : joinCols (c :: rest) with
    | nil => exact absurd hjc hj
    | cons b bs =>
      simp only [getlineAll]
      rw [← hjc, hl]

theorem mem_joinCols (cols : List (List Byte)) (b : Byte) (hb : b ∈ joinCols cols) :
    b = comma ∨ ∃ c ∈ cols, b ∈ c := by
  induction cols with
  | nil => simp [joinCols] at hb
  | cons c rest ih =>
    cases rest with
    | nil =>
      simp only [joinCols] at hb
      exact Or.inr ⟨c, List.mem_cons_self _ _, hb⟩
    | cons c1 rest1 =>
      simp only [joinCols, List.mem_append, List.mem_cons] at hb
      rcases hb with hb | hb | hb
      · exact Or.inr ⟨c, List.mem_cons_self _ _, hb⟩
      · exact Or.inl hb
      · rcases ih hb with h1 | ⟨x, hx, hbx⟩
        · exact Or.inl h1
        · exact Or.inr ⟨x, List.mem_cons_of_mem _ hx, hbx⟩

theorem takeWhile_append_zeros (text : List Byte) (k : Nat) (h : (0 : Byte) ∉ text) :
    (text ++ List.replicate k 0).takeWhile (fun c => c ≠ 0) = text := by
  induction text with
  | nil =>
    cases k with
    | zero => rfl
    | succ k => simp [List.replicate_succ, List.takeWhile_cons]
  | cons b bs ih =>
    have hb : b ≠ 0 := fun hb => h (hb ▸ List.mem_cons_self _ _)
    have hbs : (0 : Byte) ∉ bs := fun hm => h (List.mem_cons_of_mem _ hm)
    have := ih hbs
    simp only [List.cons_append, List.takeWhile_cons, ne_eq, hb, not_false_eq_true,
      decide_True, if_true]
    simpa using this

theorem Page.fresh_drop (PS : Nat) (e : Endian) (k : Nat) :
    (Page.fresh PS e).drop (4 + k) = List.replicate (PS - 4 - k) 0 := by
  have h4 : (u16Bytes e 0 ++ u16Bytes e (PS % 65536)).length = 4 := by simp [u16Bytes_length]
  rw [Page.fresh_eq, ← List.append_assoc, ← h4, ← List.drop_drop, List.drop_left,
    List.drop_replicate]

theorem findSub_colsTag (rest : List Byte) : findSub colsTag (colsTag ++ rest) = some 0 := by
  simp [colsTag, findSub, List.isPrefixOf]

/-- The page written to page 0 by the constructor: the header text and then zero
bytes. -/
theorem header_page (PS : Nat) (e : Endian) (cols : List (List Byte)) :
    overwrite (Page.fresh PS e) 0 (headerLoop cols colsTag)
      = colsTag ++ (joinCols cols ++ List.replicate (PS - 5 - (joinCols cols).length) 0) := by
  have hl : (headerLoop cols colsTag).length = 4 + (1 + (joinCols cols).length) := by
    rw [headerLoop_eq]
    simp [colsTag]
    omega
  simp only [overwrite, List.take_zero, List.nil_append, Nat.zero_add]
  rw [hl, Page.fresh_drop, headerLoop_eq, List.append_assoc]
  congr 3
  omega

/-- Parsing the page written by the constructor, as `columnList` does, gives back
the column names. -/
theorem parse_header_page (PS : Nat) (e : Endian) (cols : List (List Byte))
    (h : ∀ c ∈ cols, c ≠ [] ∧ comma ∉ c ∧ (0 : Byte) ∉ c) :
    findSub colsTag (overwrite (Page.fresh PS e) 0 (headerLoop cols colsTag)) = some 0 ∧
    getlineAll (((overwrite (Page.fresh PS e) 0 (headerLoop cols colsTag)).drop (0 + 5)).takeWhile
      (fun c => c ≠ 0)) = cols := by
  rw [header_page]
  refine ⟨findSub_colsTag _, ?_⟩
  have h5 : colsTag.length = 0 + 5 := rfl
  rw [← h5, List.drop_left]
  have hz : (0 : Byte) ∉ joinCols cols := by
    intro hm
    rcases mem_joinCols cols 0 hm with hc | ⟨c, hc, hbc⟩
    · exact absurd hc (by decide)
    · exact (h c hc).2.2 hbc
  rw [takeWhile_append_zeros _ _ hz]
  exact getlineAll_joinCols cols (fun c hc => ⟨(h c hc).1, (h c hc).2.1⟩)
/-! ## Write then read, in any world -/

theorem modifyFrame_cons_key (f : Frame) (rest : List Frame) (file : String) (n : Nat)
    (g : Frame → Frame) (hf : f.file = file ∧ f.pageNo = n) :
    modifyFrame (f :: rest) file n g = g f :: modifyFrame rest file n g := by
  simp only [modifyFrame, List.map_cons]
  rw [if_pos ((Frame.hasKey_eq_true f file n).2 hf)]

/-- A `get` that succeeds leaves the frame of the page at the head of the pool,
pinned. -/
theorem BufferPool.get_ok_head (PS : Nat) (s : Sys) (file : String) (n : Nat) (pg : Page)
    (s1 : Sys) (h : BufferPool.get PS s file n = (.ok pg, s1)) :
    ∃ f rest, s1.frames = f :: rest ∧ f.file = file ∧ f.pageNo = n ∧ f.page = pg ∧
      f.pin ≠ 0 := by
  simp only [BufferPool.get, Sys.log_frames, Sys.log_capacity] at h
  cases hl : lookupFrame s.frames file n with
  | some f0 =>
    obtain ⟨_, hfile, hno⟩ := lookupFrame_some _ _ _ _ hl
    simp only [hl, Prod.mk.injEq, Except.ok.injEq] at h
    refine ⟨{ f0 with pin := f0.pin + 1 }, dropFrame s.frames file n, ?_, hfile, hno, h.1,
      Nat.succ_ne_zero _⟩
    rw [← h.2]
  | none =>
    simp only [hl] at h
    by_cases hcap : s.frames.length < s.capacity
    · simp only [if_pos hcap, loadFrame, Prod.mk.injEq, Except.ok.injEq] at h
      exact ⟨_, _, by rw [← h.2], rfl, rfl, h.1, Nat.succ_ne_zero 0⟩
    · simp only [if_neg hcap] at h
      cases hv : victim s.frames with
      | none => simp [hv] at h
      | some v =>
        simp only [hv, loadFrame, Prod.mk.injEq, Except.ok.injEq] at h
        exact ⟨_, _, by rw [← h.2], rfl, rfl, h.1, Nat.succ_ne_zero 0⟩

/-- A `writePage` that succeeds leaves the page in the frame at the head of the
pool. -/
theorem BlockFile.writePage_ok_head (PS : Nat) (bf : BlockFile) (s : Sys) (n : Nat)
    (pg : Page) (s1 : Sys) (h : bf.writePage PS s n pg = (.ok (), s1)) :
    ∃ f rest, s1.frames = f :: rest ∧ f.file = bf.path_ ∧ f.pageNo = n ∧ f.page = pg := by
  simp only [BlockFile.writePage] at h
  cases hg : BufferPool.get PS (s.log (.writePage bf.path_ n pg)) bf.path_ n with
  | mk r sg =>
    cases r with
    | error err => simp [hg] at h
    | ok frame =>
      obtain ⟨f, rest, hfr, hfile, hno, _, hpin⟩ := BufferPool.get_ok_head PS _ _ _ _ _ hg
      simp only [hg, storeFrame, BufferPool.markDirty, BufferPool.unpin, Sys.log_frames, hfr] at h
      rw [modifyFrame_cons_key f rest bf.path_ n _ ⟨hfile, hno⟩,
        modifyFrame_cons_key { f with page := pg } _ bf.path_ n _ ⟨hfile, hno⟩, lookupFrame_cons,
        if_pos ⟨hfile, hno⟩] at h
      simp only [if_neg hpin, Prod.mk.injEq, true_and] at h
      rw [modifyFrame_cons_key { f with page := pg, dirty := true } _ bf.path_ n _
        ⟨hfile, hno⟩] at h
      rw [← h]
      exact ⟨_, _, rfl, hfile, hno, rfl⟩

/-- A `readPage` of the page whose frame is at the head of the pool succeeds with
the page of that frame. -/
theorem BlockFile.readPage_head (PS : Nat) (bf : BlockFile) (s : Sys) (n : Nat) (f : Frame)
    (rest : List Frame) (hfr : s.frames = f :: rest) (hfile : f.file = bf.path_)
    (hno : f.pageNo = n) : ∃ s1, bf.readPage PS s n = (.ok f.page, s1) := by
  have hl : lookupFrame s.frames bf.path_ n = some f := by
    rw [hfr, lookupFrame_cons, if_pos ⟨hfile, hno⟩]
  simp only [BlockFile.readPage, BufferPool.get, Sys.log_frames, hl, BufferPool.unpin,
    lookupFrame_cons]
  rw [if_pos ⟨hfile, hno⟩]
  simp only [if_neg (Nat.succ_ne_zero f.pin)]
  exact ⟨_, rfl⟩

/-! ## `TableFile::columnList`: properties -/

/-- C7: for every list of column names that are non-empty and contain neither a
comma nor a zero byte, and whose header `"cols:"` + comma-joined names fits in
one page, `columnList()` on the table that the constructor made with that list
(in any world in which the constructor succeeds) returns exactly that list. -/
theorem TableFile.columnList_ctor (PS : Nat) (e : Endian) (s : Sys) (t : String)
    (cols : List (List Byte)) (tf : TableFile) (s1 : Sys)
    (hcols : ∀ c ∈ cols, c ≠ [] ∧ comma ∉ c ∧ (0 : Byte) ∉ c)
    (hfit : (colsTag ++ joinCols cols).length ≤ PS)
    (hc : TableFile.ctor PS e s t true cols = (.ok tf, s1)) :
    ∃ s2, tf.columnList PS s1 = (.ok cols, s2) := by
  rw [← headerLoop_eq] at hfit
  simp only [TableFile.ctor] at hc
  cases hb : BlockFile.ctor PS e s (t ++ ".tbl") true with
  | mk rb sb =>
    cases rb with
    | error err => simp [hb] at hc
    | ok bf =>
      simp only [hb, if_true, if_neg (Nat.not_lt.2 hfit)] at hc
      cases hw : bf.writePage PS sb 0
          (overwrite (Page.fresh PS e) 0 (headerLoop cols colsTag)) with
      | mk rw sw =>
        cases rw with
        | error err => simp [hw] at hc
        | ok u =>
          simp only [hw, Prod.mk.injEq, Except.ok.injEq] at hc
          obtain ⟨f, rest, hfr, hfile, hno, hpage⟩ :=
            BlockFile.writePage_ok_head PS bf sb 0 _ sw hw
          rw [← hc.1, ← hc.2]
          obtain ⟨s2, hread⟩ := BlockFile.readPage_head PS bf sw 0 f rest hfr hfile hno
          obtain ⟨hfind, hparse⟩ := parse_header_page PS e cols hcols
          refine ⟨s2, ?_⟩
          simp only [TableFile.columnList, hread, hpage, hfind, hparse]

theorem Sys.Ready.truncate (PS : Nat) (s : Sys) (p : String) (h : s.Ready PS)
    (habs : s.files p = none) :
    Sys.Ready PS { s with files := fun q => if q = p then some [] else s.files q } := by
  have hfiles : ∀ q, ((if q = p then some [] else s.files q).getD [])
      = (s.files q).getD [] := by
    intro q
    by_cases hq : q = p
    · rw [if_pos hq, hq, habs]; rfl
    · rw [if_neg hq]
  refine ⟨⟨h.ok.nodup, h.ok.size, ?_⟩, h.idle, h.room⟩
  intro f hf hd
  simp only [hfiles]
  exact h.ok.clean f hf hd

/-- The constructor of `TableFile` in create mode, between two calls of the storage
layer, for a table whose file does not exist and whose header fits in a page:
it succeeds, the header page is the current version of page 0, and when the
pool has a free frame the file is left empty. -/
theorem TableFile.ctor_create_spec (PS : Nat) (e : Endian) (s : Sys) (t : String)
    (cols : List (List Byte)) (h : s.Ready PS) (hPS : 4 ≤ PS)
    (habs : s.files (t ++ ".tbl") = none)
    (hfit : (headerLoop cols colsTag).length ≤ PS) :
    ∃ s1, TableFile.ctor PS e s t true cols = (.ok ⟨⟨t ++ ".tbl"⟩⟩, s1) ∧ s1.Ready PS ∧
      s1.current PS (t ++ ".tbl") 0
        = overwrite (Page.fresh PS e) 0 (headerLoop cols colsTag) ∧
      (∀ file m, ¬ (file = t ++ ".tbl" ∧ m = 0) → s1.current PS file m = s.current PS file m) ∧
      s1.capacity = s.capacity ∧
      (∀ g ∈ s1.frames, (g.file = t ++ ".tbl" ∧ g.pageNo = 0) ∨ g ∈ s.frames) ∧
      (s.frames.length < s.capacity → s1.files (t ++ ".tbl") = some []) := by
  obtain ⟨s1, hw1, hr1, hc1, ho1, _, hcap1, hk1, hf1, hres1⟩ :=
    BlockFile.writePage_spec PS ⟨t ++ ".tbl"⟩ _ 0 (Page.fresh PS e)
      (h.truncate PS s (t ++ ".tbl") habs) (Page.fresh_length PS e hPS)
  have hml : (overwrite (Page.fresh PS e) 0 (headerLoop cols colsTag)).length = PS := by
    rw [overwrite_length _ _ _ (by rw [Page.fresh_length PS e hPS]; omega),
      Page.fresh_length PS e hPS]
  obtain ⟨s2, hw2, hr2, hc2, ho2, _, hcap2, hk2, hf2, _⟩ :=
    BlockFile.writePage_spec PS ⟨t ++ ".tbl"⟩ s1 0 _ hr1 hml
  have hcur0 : ∀ file m, Sys.current PS
      { s with files := fun q => if q = t ++ ".tbl" then some [] else s.files q } file m
        = s.current PS file m := by
    intro file m
    simp only [Sys.current, pageOf]
    cases lookupFrame s.frames file m with
    | some f => rfl
    | none =>
      simp only []
      by_cases hq : file = t ++ ".tbl"
      · rw [if_pos hq, hq, habs]; rfl
      · rw [if_neg hq]
  refine ⟨s2, ?_, hr2, hc2, ?_, ?_, ?_, ?_⟩
  · simp only [TableFile.ctor, BlockFile.ctor, if_true, hw1, if_neg (Nat.not_lt.2 hfit), hw2]
  · intro file m hk
    rw [ho2 file m hk, ho1 file m hk, hcur0]
  · rw [hcap2, hcap1]
  · intro g hg
    rcases hk2 g hg with hkey | hmem
    · exact Or.inl hkey
    · exact hk1 g hmem
  · intro hroom
    have h1 := hf1 (Or.inr hroom)
    have h2 := hf2 (Or.inl hres1)
    rw [h2.1, h1.1]
    simp
/-- Witness of C7: the table `t` with the columns `a` and `b`, made at the start of
a process with pages of 4096 bytes. -/
theorem TableFile.columnList_ctor_witness :
    ∃ s1 s2, TableFile.ctor 4096 .little (Sys.boot 8) "t" true [[97], [98]]
        = (.ok ⟨⟨"t" ++ ".tbl"⟩⟩, s1) ∧
      TableFile.columnList 4096 ⟨⟨"t" ++ ".tbl"⟩⟩ s1 = (.ok [[97], [98]], s2) := by
  obtain ⟨s1, hc, _⟩ := TableFile.ctor_create_spec 4096 .little (Sys.boot 8) "t" [[97], [98]]
    (Sys.boot_ready _ _ (by decide)) (by decide) rfl (by decide)
  obtain ⟨s2, h2⟩ := TableFile.columnList_ctor 4096 .little (Sys.boot 8) "t" [[97], [98]] _ s1
    (by decide) (by decide) hc
  exact ⟨s1, s2, hc, h2⟩

/-- `createTable` succeeds between two calls of the storage layer when the file of
the table does not exist and the header fits in a page. -/
theorem FileManager.createTable_ok (PS : Nat) (e : Endian) (fm : FileManager) (s : Sys)
    (n : String) (cols : List (List Byte)) (h : s.Ready PS) (hPS : 4 ≤ PS)
    (habs : s.files (n ++ ".tbl") = none)
    (hfit : (headerLoop cols colsTag).length ≤ PS) :
    ∃ s1, fm.createTable PS e s n cols = (.ok (), fm.register n ⟨⟨n ++ ".tbl"⟩⟩, s1) ∧
      TableFile.ctor PS e s n true cols = (.ok ⟨⟨n ++ ".tbl"⟩⟩, s1) := by
  obtain ⟨s1, hc, _⟩ := TableFile.ctor_create_spec PS e s n cols h hPS habs hfit
  refine ⟨s1, ?_, hc⟩
  simp only [FileManager.createTable, Sys.fileExists, habs, Option.isSome_none,
    Bool.false_eq_true, if_false, hc]

/-- C10: a call `openTable(name)` after a call `openTable(name)` that returned a
`TableFile` returns the same address and changes neither the registry nor the
world; and a call `openTable(name)` after a successful `createTable(name, cols)`
returns the address of the `TableFile` object for `<name>.tbl` that `createTable`
made and registered, again changing nothing.  In both cases the second call may
come in any world. -/
theorem FileManager.openTable_same_instance (PS : Nat) (e : Endian) (fm : FileManager)
    (s : Sys) (n : String) :
    (∀ a fm1 s1, fm.openTable PS e s n = (.ok (some a), fm1, s1) →
      ∀ s2, fm1.openTable PS e s2 n = (.ok (some a), fm1, s2)) ∧
    (∀ cols fm1 s1, fm.createTable PS e s n cols = (.ok (), fm1, s1) →
      fm1.heap[fm.heap.length]? = some ⟨⟨n ++ ".tbl"⟩⟩ ∧
      ∀ s2, fm1.openTable PS e s2 n = (.ok (some fm.heap.length), fm1, s2)) := by
  refine ⟨?_, ?_⟩
  · intro a fm1 s1 h s2
    exact FileManager.openTable_of_registered PS e fm1 s2 n a
      (FileManager.openTable_registered PS e fm s n a fm1 s1 h)
  · intro cols fm1 s1 h
    obtain ⟨hreg, hheap⟩ := FileManager.createTable_registered PS e fm s n cols fm1 s1 h
    refine ⟨?_, fun s2 => FileManager.openTable_of_registered PS e fm1 s2 n _ hreg⟩
    rw [hheap]
    simp

/-- Witness of C10: a first `openTable` of a table whose file exists, and a
`createTable` at the start of a process, both followed by `openTable`. -/
theorem FileManager.openTable_same_instance_witness :
    (∃ fm1 s1, FileManager.openTable 16 .little FileManager.empty
        (Sys.withFile 4 (Page.zero 16)) "t" = (.ok (some 0), fm1, s1) ∧
      FileManager.openTable 16 .little fm1 s1 "t" = (.ok (some 0), fm1, s1)) ∧
    (∃ fm2 s2, FileManager.createTable 4096 .little FileManager.empty (Sys.boot 8) "t"
        [[97], [98]] = (.ok (), fm2, s2) ∧
      fm2.heap[0]? = some ⟨⟨"t" ++ ".tbl"⟩⟩ ∧
      FileManager.openTable 4096 .little fm2 s2 "t" = (.ok (some 0), fm2, s2)) := by
  have hopen : FileManager.openTable 16 .little FileManager.empty
      (Sys.withFile 4 (Page.zero 16)) "t"
      = (.ok (some 0), FileManager.empty.register "t" ⟨⟨"t" ++ ".tbl"⟩⟩,
          Sys.withFile 4 (Page.zero 16)) := by
    simp [FileManager.openTable, FileManager.empty, Sys.fileExists, Sys.withFile,
      TableFile.ctor, BlockFile.ctor, FileManager.register]
  obtain ⟨s2, hcreate, _⟩ := FileManager.createTable_ok 4096 .little FileManager.empty
    (Sys.boot 8) "t" [[97], [98]] (Sys.boot_ready _ _ (by decide)) (by decide) rfl (by decide)
  refine ⟨⟨_, _, hopen, ?_⟩, ⟨_, _, hcreate, ?_, ?_⟩⟩
  · exact (FileManager.openTable_same_instance 16 .little FileManager.empty
      (Sys.withFile 4 (Page.zero 16)) "t").1 _ _ _ hopen _
  · exact ((FileManager.openTable_same_instance 4096 .little FileManager.empty
      (Sys.boot 8) "t").2 _ _ _ hcreate).1
  · exact ((FileManager.openTable_same_instance 4096 .little FileManager.empty
      (Sys.boot 8) "t").2 _ _ _ hcreate).2 _

/-! ## A table created through the pool and not flushed -/

theorem length_le_one_of_same_key (fs : List Frame) (k : String × Nat)
    (hnd : (fs.map Frame.key).Nodup) (hk : ∀ g ∈ fs, g.key = k) : fs.length ≤ 1 := by
  cases fs with
  | nil => simp
  | cons a rest =>
    cases rest with
    | nil => simp
    | cons b rest1 =>
      exfalso
      rw [List.map_cons, List.nodup_cons] at hnd
      apply hnd.1
      rw [hk a (List.mem_cons_self _ _), ← hk b (List.mem_cons_of_mem _ (List.mem_cons_self _ _))]
      exact List.mem_map_of_mem _ (List.mem_cons_self _ _)

/-- In such a state a `get` of page `0` or of page `2 ^ 64 - 1` evicts nothing. -/
theorem Sys.Unflushed.no_eviction (PS : Nat) (s : Sys) (path : String) (n : Nat)
    (h : s.Unflushed PS path) (hn : n = 0 ∨ n = sizeMod - 1) :
    lookupFrame s.frames path n ≠ none ∨ s.frames.length < s.capacity := by
  by_cases hl : lookupFrame s.frames path n = none
  · right
    have hnone := lookupFrame_none _ _ _ hl
    have hmax : sizeMod - 1 ≠ 0 := by rw [sizeMod_eq]; decide
    have hsame : ∀ g ∈ s.frames, g.key = (path, if n = 0 then sizeMod - 1 else 0) := by
      intro g hg
      obtain ⟨hf, hp⟩ := h.keys g hg
      have hne : g.pageNo ≠ n := fun hc => hnone g hg ⟨hf, hc⟩
      simp only [Frame.key, hf, Prod.mk.injEq, true_and]
      rcases hn with rfl | rfl
      · rw [if_pos rfl]
        rcases hp with hp | hp
        · exact absurd hp hne
        · exact hp
      · rw [if_neg hmax]
        rcases hp with hp | hp
        · exact hp
        · exact absurd hp hne
    have := length_le_one_of_same_key s.frames _ h.ready.ok.nodup hsame
    have := h.room
    omega
  · exact Or.inl hl

theorem BlockFile.pageCount_unflushed (PS : Nat) (bf : BlockFile) (s : Sys)
    (h : s.Unflushed PS bf.path_) : bf.pageCount PS s = 0 := by
  simp [BlockFile.pageCount, h.empty]

theorem Sys.Unflushed.readPage (PS : Nat) (bf : BlockFile) (s : Sys) (n : Nat)
    (h : s.Unflushed PS bf.path_) (hn : n = 0 ∨ n = sizeMod - 1) :
    ∃ s1, bf.readPage PS s n = (.ok (s.current PS bf.path_ n), s1) ∧
      s1.Unflushed PS bf.path_ ∧ (∀ file m, s1.current PS file m = s.current PS file m) ∧
      writesOf s1.trace = writesOf s.trace := by
  obtain ⟨s1, hread, hready, hcur, htrace, hcap, hkeys, hfiles⟩ :=
    BlockFile.readPage_spec PS bf s n h.ready
  have hf := hfiles (h.no_eviction PS s bf.path_ n hn)
  refine ⟨s1, hread, ⟨hready, ?_, ?_, ?_, ?_⟩, hcur, ?_⟩
  · rw [hf.1]; exact h.empty
  · intro g hg
    rcases hkeys g hg with hk | hm
    · exact ⟨hk.1, by rw [hk.2]; exact hn⟩
    · exact h.keys g hm
  · rw [hcap]; exact h.room
  · rw [hcur]; exact h.top
  · rw [htrace, writesOf_append]
    simp [writesOf]

theorem Sys.Unflushed.writePage (PS : Nat) (bf : BlockFile) (s : Sys) (pg : Page)
    (h : s.Unflushed PS bf.path_) (hpg : pg.length = PS) :
    ∃ s1, bf.writePage PS s 0 pg = (.ok (), s1) ∧ s1.Unflushed PS bf.path_ ∧
      s1.current PS bf.path_ 0 = pg ∧
      writesOf s1.trace = writesOf s.trace ++ [(bf.path_, 0, pg)] := by
  obtain ⟨s1, hwrite, hready, hnew, hold, htrace, hcap, hkeys, hfiles, _⟩ :=
    BlockFile.writePage_spec PS bf s 0 pg h.ready hpg
  have hf := hfiles (h.no_eviction PS s bf.path_ 0 (Or.inl rfl))
  have hmax : sizeMod - 1 ≠ 0 := by rw [sizeMod_eq]; decide
  refine ⟨s1, hwrite, ⟨hready, ?_, ?_, ?_, ?_⟩, hnew, ?_⟩
  · rw [hf.1]; exact h.empty
  · intro g hg
    rcases hkeys g hg with hk | hm
    · exact ⟨hk.1, Or.inl hk.2⟩
    · exact h.keys g hm
  · rw [hcap]; exact h.room
  · rw [hold _ _ (fun hc => hmax hc.2)]; exact h.top
  · rw [htrace, writesOf_append]
    simp [writesOf]

theorem Page.insertRecord_zero (PS : Nat) (e : Endian) (rec : List Byte) :
    Page.insertRecord e (Page.zero PS) rec = none := by
  have hfree : Page.freeEnd e (Page.zero PS) = 0 := by
    simp only [Page.freeEnd, loadU16, Page.zero, List.getElem?_replicate]
    by_cases h2 : 2 < PS
    · have h3 : 2 + 1 < PS ∨ ¬ (2 + 1 < PS) := Decidable.em _
      rcases h3 with h3 | h3
      · simp only [if_pos h2, if_pos h3]
        cases e <;> rfl
      · simp only [if_pos h2, if_neg h3]
        rfl
    · simp only [if_neg h2]
      rfl
  simp only [Page.insertRecord, hfree, Page.slotEnd]
  rw [if_pos (by omega)]

theorem Page.insertRecord_fresh_isSome (PS : Nat) (e : Endian) (rec : List Byte)
    (hPS : PS < 65536) (hfit : 8 + rec.length ≤ PS) :
    ∃ pg, (Page.fresh PS e).insertRecord e rec = some (0, pg) := by
  simp only [Page.insertRecord, Page.slotEnd, Page.recordCount_fresh, Page.freeEnd_fresh,
    Nat.mod_eq_of_lt hPS]
  rw [if_neg (by omega)]
  exact ⟨_, rfl⟩

/-- In such a state `appendRow` reads page `2 ^ 64 - 1`, finds it full, and, when
the row fits in a fresh page, succeeds by writing the fresh page that holds the
row to page `0`; the state is such a state again. -/
theorem Sys.Unflushed.appendRow (PS : Nat) (e : Endian) (tf : TableFile) (s : Sys)
    (row : Row) (h : s.Unflushed PS tf.bf_.path_) (hPS : PS < 65536) :
    ∃ r s1, tf.appendRow PS e s row = (r, s1) ∧ s1.Unflushed PS tf.bf_.path_ ∧
      ∀ i fresh, (Page.fresh PS e).insertRecord e (serializeRow e row) = some (i, fresh) →
        r = .ok () ∧ s1.current PS tf.bf_.path_ 0 = fresh ∧
        writesOf s1.trace = writesOf s.trace ++ [(tf.bf_.path_, 0, fresh)] := by
  have hpc := BlockFile.pageCount_unflushed PS tf.bf_ s h
  have hlast : (tf.bf_.pageCount PS s + sizeMod - 1) % sizeMod = sizeMod - 1 := by
    rw [hpc, sizeMod_eq]
  have hmax : sizeMod - 1 ≠ 0 := by rw [sizeMod_eq]; decide
  have hnext : (sizeMod - 1 + 1) % sizeMod = 0 := by rw [sizeMod_eq]
  obtain ⟨s1, hread, hun1, hcur1, htr1⟩ := h.readPage PS tf.bf_ s (sizeMod - 1) (Or.inr rfl)
  rw [h.top] at hread
  cases hins : (Page.fresh PS e).insertRecord e (serializeRow e row) with
  | none =>
    refine ⟨.error (.storageError "row too large"), s1, ?_, hun1, ?_⟩
    · simp only [TableFile.appendRow, hlast, if_neg hmax, hread, Page.insertRecord_zero, hins]
    · intro i fresh hc
      cases hc
  | some p =>
    obtain ⟨i, fresh⟩ := p
    obtain ⟨hlen, _, _⟩ :=
      Page.insertRecord_fresh_records PS e (serializeRow e row) i fresh hPS hins
    obtain ⟨s2, hwrite, hun2, hnew, htr2⟩ := hun1.writePage PS tf.bf_ s1 fresh hlen
    refine ⟨.ok (), s2, ?_, hun2, ?_⟩
    · simp only [TableFile.appendRow, hlast, if_neg hmax, hread, Page.insertRecord_zero, hins,
        hnext]
      exact hwrite
    · intro i1 fresh1 hc
      simp only [Option.some.injEq, Prod.mk.injEq] at hc
      rw [← hc.2]
      exact ⟨rfl, hnew, by rw [htr2, htr1]⟩

theorem Sys.Unflushed.appendAll (PS : Nat) (e : Endian) (tf : TableFile) (rows : List Row)
    (hPS : PS < 65536) : ∀ s : Sys, s.Unflushed PS tf.bf_.path_ →
      (ElVoidDB.appendAll PS e tf s rows).Unflushed PS tf.bf_.path_ := by
  induction rows with
  | nil => intro s h; exact h
  | cons row rest ih =>
    intro s h
    obtain ⟨r, s1, hap, hun, _⟩ := h.appendRow PS e tf s row hPS
    simp only [ElVoidDB.appendAll, List.foldl_cons, hap]
    exact ih s1 hun

/-- In such a state `loadAllRows` scans no page: it returns with `dest` as it
was. -/
theorem Sys.Unflushed.loadAllRows (PS : Nat) (e : Endian) (tf : TableFile) (s : Sys)
    (dest : List Row) (h : s.Unflushed PS tf.bf_.path_) :
    tf.loadAllRows PS e s dest = some (.ok (), dest, s) := by
  have hpc := BlockFile.pageCount_unflushed PS tf.bf_ s h
  simp only [TableFile.loadAllRows]
  cases scanBound PS tf s with
  | zero => simp [loadLoop, hpc]
  | succ k => simp [loadLoop, hpc]

theorem diskPage_nil (PS n : Nat) : diskPage PS [] n = Page.zero PS := by
  simp only [diskPage, byteAt, Page.zero]
  apply List.ext_getElem
  · simp
  · intro i h1 h2
    simp

/-- The constructor of `TableFile` in create mode, at the start of a process with a
pool of at least two frames, leaves such a state. -/
theorem TableFile.ctor_unflushed (PS cap : Nat) (e : Endian) (t : String)
    (cols : List (List Byte)) (hcap : 2 ≤ cap) (hPS : 4 ≤ PS)
    (hfit : (headerLoop cols colsTag).length ≤ PS) :
    ∃ s1, TableFile.ctor PS e (Sys.boot cap) t true cols = (.ok ⟨⟨t ++ ".tbl"⟩⟩, s1) ∧
      s1.Unflushed PS (t ++ ".tbl") ∧
      s1.current PS (t ++ ".tbl") 0
        = overwrite (Page.fresh PS e) 0 (headerLoop cols colsTag) := by
  obtain ⟨s1, hc, hready, hcur, hold, hcapeq, hkeys, hfiles⟩ :=
    TableFile.ctor_create_spec PS e (Sys.boot cap) t cols (Sys.boot_ready PS cap (by omega)) hPS
      rfl hfit
  have hmax : sizeMod - 1 ≠ 0 := by rw [sizeMod_eq]; decide
  refine ⟨s1, hc, ⟨hready, ?_, ?_, ?_, ?_⟩, hcur⟩
  · apply hfiles
    simp only [Sys.boot, List.length_nil]
    omega
  · intro g hg
    rcases hkeys g hg with hk | hm
    · exact ⟨hk.1, Or.inl hk.2⟩
    · simp [Sys.boot] at hm
  · rw [hcapeq]; exact hcap
  · rw [hold _ _ (fun hc => hmax hc.2)]
    simp only [Sys.current, pageOf, Sys.boot, lookupFrame, List.find?_nil, Option.getD_none]
    exact diskPage_nil PS _

theorem findSub_none_of_not_mem (p : Byte) (ps : List Byte) (text : List Byte)
    (h : p ∉ text) : findSub (p :: ps) text = none := by
  induction text with
  | nil => simp [findSub]
  | cons c cs ih =>
    have hc : p ≠ c := fun hc => h (hc ▸ List.mem_cons_self _ _)
    have hcs : p ∉ cs := fun hm => h (List.mem_cons_of_mem _ hm)
    simp only [findSub, List.isPrefixOf, ih hcs, Option.map_none']
    simp [hc]

/-! ## A fresh table: what `appendRow` and `loadAllRows` do -/

/-- On a table made by the constructor at the start of a process, with a pool of at
least two frames, `loadAllRows` after any sequence of `appendRow` calls pushes
no row: `pageCount()` is still zero. -/
theorem TableFile.loadAllRows_appendAll_boot (PS cap : Nat) (e : Endian) (t : String)
    (cols : List (List Byte)) (rows : List Row) (hcap : 2 ≤ cap) (hPS : PS < 65536)
    (hfit : (headerLoop cols colsTag).length ≤ PS) :
    ∃ s1, TableFile.ctor PS e (Sys.boot cap) t true cols = (.ok ⟨⟨t ++ ".tbl"⟩⟩, s1) ∧
      BlockFile.pageCount PS ⟨t ++ ".tbl"⟩ (appendAll PS e ⟨⟨t ++ ".tbl"⟩⟩ s1 rows) = 0 ∧
      TableFile.loadAllRows PS e ⟨⟨t ++ ".tbl"⟩⟩ (appendAll PS e ⟨⟨t ++ ".tbl"⟩⟩ s1 rows) []
        = some (.ok (), [], appendAll PS e ⟨⟨t ++ ".tbl"⟩⟩ s1 rows) := by
  have h5 : 5 ≤ (headerLoop cols colsTag).length := by
    rw [headerLoop_eq]
    simp [colsTag]
  obtain ⟨s1, hc, hun, _⟩ := TableFile.ctor_unflushed PS cap e t cols hcap (by omega) hfit
  have hun2 := Sys.Unflushed.appendAll PS e ⟨⟨t ++ ".tbl"⟩⟩ rows hPS s1 hun
  exact ⟨s1, hc, BlockFile.pageCount_unflushed PS _ _ hun2,
    Sys.Unflushed.loadAllRows PS e ⟨⟨t ++ ".tbl"⟩⟩ _ [] hun2⟩

/-- C4 fails on the code, at the example of the specification with pages of 4096
bytes and a pool of eight frames: after `TableFile("t", true, ["a", "b"])` at the
start of a process, `appendRow(["x", "yy"])` and `appendRow(["", "z"])` both
succeed, `pageCount()` is still zero, and `loadAllRows` on an empty destination
leaves it empty. -/
theorem TableFile.appendRow_loadAllRows_fresh_table :
    ∃ s1 s2 s3, TableFile.ctor 4096 .little (Sys.boot 8) "t" true [[97], [98]]
        = (.ok ⟨⟨"t" ++ ".tbl"⟩⟩, s1) ∧
      TableFile.appendRow 4096 .little ⟨⟨"t" ++ ".tbl"⟩⟩ s1 [[120], [121, 121]]
        = (.ok (), s2) ∧
      TableFile.appendRow 4096 .little ⟨⟨"t" ++ ".tbl"⟩⟩ s2 [[], [122]] = (.ok (), s3) ∧
      BlockFile.pageCount 4096 ⟨"t" ++ ".tbl"⟩ s3 = 0 ∧
      TableFile.loadAllRows 4096 .little ⟨⟨"t" ++ ".tbl"⟩⟩ s3 [] = some (.ok (), [], s3) := by
  obtain ⟨s1, hc, hun1, _⟩ := TableFile.ctor_unflushed 4096 8 .little "t" [[97], [98]]
    (by decide) (by decide) (by decide)
  obtain ⟨r2, s2, ha2, hun2, hok2⟩ :=
    Sys.Unflushed.appendRow 4096 .little ⟨⟨"t" ++ ".tbl"⟩⟩ s1 [[120], [121, 121]] hun1
      (by decide)
  obtain ⟨pg2, hpg2⟩ := Page.insertRecord_fresh_isSome 4096 .little
    (serializeRow .little [[120], [121, 121]]) (by decide) (by decide)
  obtain ⟨r3, s3, ha3, hun3, hok3⟩ :=
    Sys.Unflushed.appendRow 4096 .little ⟨⟨"t" ++ ".tbl"⟩⟩ s2 [[], [122]] hun2 (by decide)
  obtain ⟨pg3, hpg3⟩ := Page.insertRecord_fresh_isSome 4096 .little
    (serializeRow .little [[], [122]]) (by decide) (by decide)
  rw [(hok2 0 pg2 hpg2).1] at ha2
  rw [(hok3 0 pg3 hpg3).1] at ha3
  exact ⟨s1, s2, s3, hc, ha2, ha3, BlockFile.pageCount_unflushed 4096 _ _ hun3,
    Sys.Unflushed.loadAllRows 4096 .little ⟨⟨"t" ++ ".tbl"⟩⟩ s3 [] hun3⟩

/-! ## The wire format: properties -/

theorem wireCols_eq (e : Endian) (row : Row) (h : ∀ c ∈ row, c.length < 65536) :
    encodeCols e row = wireCols e row := by
  induction row with
  | nil => rfl
  | cons c cs ih =>
    have hc : c.length < 65536 := h c (List.mem_cons_self _ _)
    simp only [encodeCols, wireCols, Nat.mod_eq_of_lt hc]
    rw [ih (fun x hx => h x (List.mem_cons_of_mem _ hx))]

theorem wireCols_length (e : Endian) (row : Row) :
    (wireCols e row).length = (row.map (fun col => 2 + col.length)).sum := by
  induction row with
  | nil => rfl
  | cons c cs ih =>
    simp only [wireCols, List.length_append, u16Bytes_length, ih, List.map_cons, List.sum_cons]

/-- C15: for every row within the 16-bit field bounds, `serializeRow row` is the
2-byte column count followed, for each column in order, by the 2-byte length of
the column and its raw bytes, with nothing else; its length is 2 plus the sum
over the columns of 2 plus the length of the column; and every 2-byte field is
written in the one byte order `e`, that of the machine. -/
theorem serializeRow_wire (e : Endian) (row : Row) (hcnt : row.length < 65536)
    (hcols : ∀ c ∈ row, c.length < 65536) :
    serializeRow e row = wireRow e row ∧ (serializeRow e row).length = wireLength row := by
  have h : serializeRow e row = wireRow e row := by
    rw [serializeRow_eq, Nat.mod_eq_of_lt hcnt, wireCols_eq e row hcols]
    rfl
  refine ⟨h, ?_⟩
  rw [h]
  simp only [wireRow, wireLength, List.length_append, u16Bytes_length, wireCols_length]

/-- Witness of C15: a row of two columns, for either byte order. -/
theorem serializeRow_wire_witness :
    (serializeRow .little [[120], [121, 121]] = wireRow .little [[120], [121, 121]] ∧
      (serializeRow .little [[120], [121, 121]]).length = wireLength [[120], [121, 121]]) ∧
    (serializeRow .big [[120], [121, 121]] = wireRow .big [[120], [121, 121]] ∧
      (serializeRow .big [[120], [121, 121]]).length = wireLength [[120], [121, 121]]) :=
  ⟨serializeRow_wire .little [[120], [121, 121]] (by decide) (by decide),
    serializeRow_wire .big [[120], [121, 121]] (by decide) (by decide)⟩

/-! ## `FileManager::openTable` of a table that was never created -/

/-- C11: for every name that is not registered and has no backing store
`<name>.tbl`, `openTable(name)` returns `nullptr` and leaves the `FileManager`
(registry, objects) and the world (every file, the pool) as they were. -/
theorem FileManager.openTable_absent (PS : Nat) (e : Endian) (fm : FileManager) (s : Sys)
    (n : String) (hreg : fm.open_ n = none) (habs : s.fileExists (n ++ ".tbl") = false) :
    fm.openTable PS e s n = (.ok none, fm, s) := by
  simp only [FileManager.openTable, hreg, habs, Bool.not_false, if_true]

/-- Witness of C11: at the start of a process in an empty directory. -/
theorem FileManager.openTable_absent_witness :
    FileManager.openTable 4096 .little FileManager.empty (Sys.boot 8) "t"
      = (.ok none, FileManager.empty, Sys.boot 8) :=
  FileManager.openTable_absent 4096 .little FileManager.empty (Sys.boot 8) "t" rfl rfl

/-! ## Decoding: soundness -/

theorem u16Bytes_u16Value (e : Endian) (b0 b1 : Byte) :
    u16Bytes e (u16Value e b0 b1) = [b0, b1] := by
  have h0 := b0.isLt
  have h1 := b1.isLt
  cases e
  · simp only [u16Bytes, u16Value, byteOf, List.cons.injEq, and_true]
    constructor
    · apply Fin.ext; simp only []; omega
    · apply Fin.ext; simp only []; omega
  · simp only [u16Bytes, u16Value, byteOf, List.cons.injEq, and_true]
    constructor
    · apply Fin.ext; simp only []; omega
    · apply Fin.ext; simp only []; omega

theorem loadU16_eq_some (e : Endian) (data : List Byte) (off v : Nat)
    (h : loadU16 e data off = some v) :
    ∃ b0 b1, data.drop off = b0 :: b1 :: data.drop (off + 2) ∧ v = u16Value e b0 b1 := by
  simp only [loadU16] at h
  cases h0 : data[off]? with
  | none => simp [h0] at h
  | some b0 =>
    cases h1 : data[off + 1]? with
    | none => simp [h0, h1] at h
    | some b1 =>
      simp only [h0, h1, Option.some.injEq] at h
      obtain ⟨hl0, hb0⟩ := List.getElem?_eq_some.1 h0
      obtain ⟨hl1, hb1⟩ := List.getElem?_eq_some.1 h1
      refine ⟨b0, b1, ?_, h.symm⟩
      rw [List.drop_eq_getElem_cons hl0, List.drop_eq_getElem_cons hl1, hb0, hb1]

theorem loadBytes_eq_some (data : List Byte) (off n : Nat) (col : List Byte)
    (h : loadBytes data off n = some col) :
    data.drop off = col ++ data.drop (off + n) ∧ col.length = n := by
  simp only [loadBytes] at h
  by_cases hle : off + n ≤ data.length
  · rw [if_pos hle] at h
    have hcol := Option.some.inj h
    refine ⟨?_, ?_⟩
    · rw [← hcol]
      have := List.take_append_drop n (data.drop off)
      rw [List.drop_drop] at this
      exact this.symm
    · rw [← hcol, List.length_take, List.length_drop]
      omega
  · rw [if_neg hle] at h
    cases h

/-- What the loop returns: the empty row, or `out` followed by `cnt` columns whose
encoding stands in the buffer at the cursor, below the limit. -/
theorem deserializeLoop_sound (e : Endian) (data : List Byte) (lim : Nat) :
    ∀ (cnt ptr : Nat) (out r : Row), ptr ≤ lim →
      deserializeLoop e data lim cnt ptr out = some r →
      r = [] ∨ ∃ cols, r = out ++ cols ∧ cols.length = cnt ∧
        (∀ c ∈ cols, c.length < 65536) ∧ ptr + (encodeCols e cols).length ≤ lim ∧
        ∃ rest, data.drop ptr = encodeCols e cols ++ rest := by
  intro cnt
  induction cnt with
  | zero =>
    intro ptr out r hp h
    simp only [deserializeLoop, Option.some.injEq] at h
    exact Or.inr ⟨[], by simp [h], rfl, by simp, by simpa [encodeCols] using hp, data.drop ptr,
      by simp [encodeCols]⟩
  | succ n ih =>
    intro ptr out r _ h
    simp only [deserializeLoop] at h
    by_cases h1 : ptr + 2 > lim
    · rw [if_pos h1] at h
      exact Or.inl (Option.some.inj h).symm
    · rw [if_neg h1] at h
      cases hl : loadU16 e data ptr with
      | none => simp [hl] at h
      | some slen =>
        simp only [hl] at h
        by_cases h2 : ptr + 2 + slen > lim
        · rw [if_pos h2] at h
          exact Or.inl (Option.some.inj h).symm
        · rw [if_neg h2] at h
          cases hb : loadBytes data (ptr + 2) slen with
          | none => simp [hb] at h
          | some col =>
            simp only [hb] at h
            obtain ⟨b0, b1, hd0, hv⟩ := loadU16_eq_some e data ptr slen hl
            obtain ⟨hd1, hcl⟩ := loadBytes_eq_some data (ptr + 2) slen col hb
            have hslen : slen < 65536 := hv ▸ u16Value_lt e b0 b1
            rcases ih (ptr + 2 + slen) (out ++ [col]) r (by omega) h with
              hr | ⟨cols, hr, hlen, hbd, hlim, rest, hrest⟩
            · exact Or.inl hr
            · refine Or.inr ⟨col :: cols, by simp [hr], by simp [hlen], ?_, ?_, rest, ?_⟩
              · intro c hc
                rcases List.mem_cons.1 hc with rfl | hm
                · rw [hcl]; exact hslen
                · exact hbd c hm
              · rw [encodeCols_cons_length, hcl]
                omega
              · rw [hd0, hd1, hrest]
                simp only [encodeCols, hcl, Nat.mod_eq_of_lt hslen]
                rw [hv, u16Bytes_u16Value]
                simp [List.append_assoc]

/-- What `deserializeRow` returns: the empty row, or a row within the 16-bit field
bounds whose column count is declared in the first two bytes and whose encoding
starts the buffer, below the limit. -/
theorem deserializeRow_cases (e : Endian) (data : List Byte) (len : Nat) (r : Row)
    (h : deserializeRow e data len = some r) :
    r = [] ∨ (r.length < 65536 ∧ (∀ c ∈ r, c.length < 65536) ∧
      loadU16 e data 0 = some r.length ∧ (serializeRow e r).length ≤ len % 65536 ∧
      ∃ rest, data = serializeRow e r ++ rest) := by
  simp only [deserializeRow] at h
  by_cases h2 : 2 > len % 65536
  · rw [if_pos h2] at h
    exact Or.inl (Option.some.inj h).symm
  · rw [if_neg h2] at h
    cases hl : loadU16 e data 0 with
    | none => simp [hl] at h
    | some cnt =>
      simp only [hl] at h
      obtain ⟨b0, b1, hd0, hv⟩ := loadU16_eq_some e data 0 cnt hl
      have hcnt : cnt < 65536 := hv ▸ u16Value_lt e b0 b1
      rcases deserializeLoop_sound e data _ cnt 2 [] r (by omega) h with
        hr | ⟨cols, hr, hlen, hbd, hlim, rest, hrest⟩
      · exact Or.inl hr
      · simp only [List.nil_append] at hr
        subst hr
        refine Or.inr ⟨by rw [hlen]; exact hcnt, hbd, by rw [hlen], ?_, rest, ?_⟩
        · rw [serializeRow_length]; omega
        · rw [List.drop_zero] at hd0
          rw [hd0, hrest, serializeRow_eq, hlen, Nat.mod_eq_of_lt hcnt, hv, u16Bytes_u16Value]
          simp [List.append_assoc]

/-- C17: if `deserializeRow(data, len)` returns a non-empty row `r`, then `r` has
as many columns as the first two bytes declare, `serializeRow r` is a prefix of
the first `len` bytes of `data`, and whatever bytes follow that prefix are
ignored: the decode of the prefix followed by any bytes is `r` again. -/
theorem deserializeRow_sound (e : Endian) (data : List Byte) (len : Nat) (r : Row)
    (h : deserializeRow e data len = some r) (hne : r ≠ []) :
    loadU16 e data 0 = some r.length ∧
      serializeRow e r <+: data.take (len % 65536) ∧
      ∀ post, deserializeRow e (serializeRow e r ++ post) len = some r := by
  rcases deserializeRow_cases e data len r h with hr | ⟨hcnt, hcols, hdecl, hlen, rest, hdata⟩
  · exact absurd hr hne
  · refine ⟨hdecl, ?_, fun post => deserializeRow_encoded e r post len hcnt hcols hlen⟩
    refine ⟨rest.take (len % 65536 - (serializeRow e r).length), ?_⟩
    conv => rhs; rw [hdata]
    rw [List.take_append_eq_append_take, List.take_of_length_le hlen]

/-- Witness of C17: a buffer of eleven bytes that starts with the encoding of a row
of two columns, read with `len = 10`. -/
theorem deserializeRow_sound_witness :
    loadU16 .little [2, 0, 1, 0, 120, 2, 0, 121, 121, 7, 7] 0
        = some ([[120], [121, 121]] : Row).length ∧
      serializeRow .little [[120], [121, 121]]
        <+: ([2, 0, 1, 0, 120, 2, 0, 121, 121, 7, 7] : List Byte).take (10 % 65536) ∧
      ∀ post, deserializeRow .little (serializeRow .little [[120], [121, 121]] ++ post) 10
        = some [[120], [121, 121]] :=
  deserializeRow_sound .little [2, 0, 1, 0, 120, 2, 0, 121, 121, 7, 7] 10 [[120], [121, 121]]
    (by decide) (by decide)

/-! ## Rows outside the 16-bit field bounds -/

/-- C18: `serializeRow` rejects no row: for a row of `n` columns it writes the count
field `n % 65536`, and for each column of length `L` the length field
`L % 65536` followed by all its bytes.  So for a row with 65536 columns or more,
or with a column of 65536 bytes or more, the count field, or the length field of
that column, is not the true size, and `deserializeRow` of the encoding, with
any `len`, does not return the row. -/
theorem serializeRow_out_of_bounds (e : Endian) (row : Row) :
    serializeRow e row = u16Bytes e (row.length % 65536) ++ encodeCols e row ∧
    (∀ col cols, encodeCols e (col :: cols)
      = u16Bytes e (col.length % 65536) ++ col ++ encodeCols e cols) ∧
    (65536 ≤ row.length → loadU16 e (serializeRow e row) 0 = some (row.length % 65536) ∧
      row.length % 65536 ≠ row.length) ∧
    (∀ col ∈ row, 65536 ≤ col.length →
      loadU16 e (encodeCols e [col]) 0 = some (col.length % 65536) ∧
      col.length % 65536 ≠ col.length) ∧
    ((65536 ≤ row.length ∨ ∃ col ∈ row, 65536 ≤ col.length) →
      ∀ len, deserializeRow e (serializeRow e row) len ≠ some row) := by
  have hmod : ∀ k, 65536 ≤ k → k % 65536 ≠ k := by
    intro k hk
    have := Nat.mod_lt k (show 0 < 65536 by decide)
    omega
  refine ⟨serializeRow_eq e row, fun _ _ => rfl, ?_, ?_, ?_⟩
  · intro hn
    refine ⟨?_, hmod _ hn⟩
    rw [serializeRow_eq]
    exact loadU16_u16Bytes e _ (Nat.mod_lt _ (by decide)) _
  · intro col _ hl
    refine ⟨?_, hmod _ hl⟩
    simp only [encodeCols, List.append_nil, List.append_assoc]
    exact loadU16_u16Bytes e _ (Nat.mod_lt _ (by decide)) _
  · intro hout len hdec
    rcases deserializeRow_cases e _ len row hdec with hr | ⟨hcnt, hcols, _⟩
    · subst hr
      rcases hout with hn | ⟨col, hc, _⟩
      · simp at hn
      · cases hc
    · rcases hout with hn | ⟨col, hc, hl⟩
      · omega
      · have := hcols col hc
        omega

/-- Witness of C18: the row of one column of 65536 zero bytes is not recovered from
its encoding, whatever `len` is. -/
theorem serializeRow_out_of_bounds_witness :
    ¬ ∃ len, deserializeRow .little (serializeRow .little [List.replicate 65536 0]) len
      = some [List.replicate 65536 0] :=
  fun ⟨len, h⟩ => (serializeRow_out_of_bounds .little [List.replicate 65536 0]).2.2.2.2
    (Or.inr ⟨List.replicate 65536 0, List.mem_cons_self _ _,
      Nat.le_of_eq (List.length_replicate 65536 (0 : Byte)).symm⟩) len h

/-! ## `BlockFile`: construction, write then read -/

/-- The constructor of `BlockFile` in create mode, between two calls of the storage
layer, for a file that does not exist: it succeeds, a fresh page is the current
version of page 0, and when the `get` evicts nothing the file is left empty, so
that `pageCount()` is zero. -/
theorem BlockFile.ctor_create_empty (PS : Nat) (e : Endian) (s : Sys) (p : String)
    (h : s.Ready PS) (hPS : 4 ≤ PS) (habs : s.files p = none) :
    ∃ s1, BlockFile.ctor PS e s p true = (.ok ⟨p⟩, s1) ∧ s1.Ready PS ∧
      s1.current PS p 0 = Page.fresh PS e ∧
      ((lookupFrame s.frames p 0 ≠ none ∨ s.frames.length < s.capacity) →
        s1.files p = some [] ∧ BlockFile.pageCount PS ⟨p⟩ s1 = 0) := by
  obtain ⟨s1, hw1, hr1, hc1, _, _, _, _, hf1, _⟩ :=
    BlockFile.writePage_spec PS ⟨p⟩ _ 0 (Page.fresh PS e)
      (h.truncate PS s p habs) (Page.fresh_length PS e hPS)
  refine ⟨s1, ?_, hr1, hc1, ?_⟩
  · simp only [BlockFile.ctor, if_true, hw1]
  · intro hroom
    have hfiles : s1.files p = some [] := by
      rw [(hf1 hroom).1]
      simp
    exact ⟨hfiles, by simp [BlockFile.pageCount, hfiles]⟩

/-- C12 fails on the code, with pages of 4096 bytes and a pool of eight frames:
after `BlockFile("t.tbl", true)` at the start of a process the page written by
the constructor is in the pool only; the file is empty and `pageCount()`
returns 0. -/
theorem BlockFile.ctor_pageCount :
    ∃ s1, BlockFile.ctor 4096 .little (Sys.boot 8) "t.tbl" true = (.ok ⟨"t.tbl"⟩, s1) ∧
      s1.current 4096 "t.tbl" 0 = Page.fresh 4096 .little ∧
      s1.files "t.tbl" = some [] ∧ BlockFile.pageCount 4096 ⟨"t.tbl"⟩ s1 = 0 := by
  obtain ⟨s1, hc, _, hcur, hfiles⟩ := BlockFile.ctor_create_empty 4096 .little (Sys.boot 8)
    "t.tbl" (Sys.boot_ready _ _ (by decide)) (by decide) rfl
  have := hfiles (Or.inr (by decide))
  exact ⟨s1, hc, hcur, this.1, this.2⟩

/-- C13: for every page number `n` and page `pg`, after a `writePage(n, pg)` that
returns, `readPage(n, out)` returns with `out` equal to `pg`, whatever the
backing store holds. -/
theorem BlockFile.readPage_writePage (PS : Nat) (bf : BlockFile) (s : Sys) (n : Nat)
    (pg : Page) (s1 : Sys) (hw : bf.writePage PS s n pg = (.ok (), s1)) :
    ∃ s2, bf.readPage PS s1 n = (.ok pg, s2) := by
  obtain ⟨f, rest, hfr, hfile, hno, hpage⟩ := BlockFile.writePage_ok_head PS bf s n pg s1 hw
  obtain ⟨s2, hread⟩ := BlockFile.readPage_head PS bf s1 n f rest hfr hfile hno
  exact ⟨s2, by rw [hread, hpage]⟩

/-- Witness of C13: page 3 of a file that does not exist, at the start of a
process; the file still does not exist when the page is read back. -/
theorem BlockFile.readPage_writePage_witness :
    ∃ s1 s2, BlockFile.writePage 16 ⟨"t.tbl"⟩ (Sys.boot 4) 3 examplePage = (.ok (), s1) ∧
      s1.files "t.tbl" = none ∧
      BlockFile.readPage 16 ⟨"t.tbl"⟩ s1 3 = (.ok examplePage, s2) := by
  obtain ⟨s1, hw, _, _, _, _, _, _, hf, _⟩ := BlockFile.writePage_spec 16 ⟨"t.tbl"⟩ (Sys.boot 4) 3
    examplePage (Sys.boot_ready _ _ (by decide)) rfl
  obtain ⟨s2, hr⟩ := BlockFile.readPage_writePage 16 ⟨"t.tbl"⟩ (Sys.boot 4) 3 examplePage s1 hw
  have hfiles := (hf (Or.inr (by decide))).1
  exact ⟨s1, s2, hw, by rw [hfiles]; rfl, hr⟩

/-! ## Traces of the calls, in any world -/

theorem readsOf_append (a b : List Event) : readsOf (a ++ b) = readsOf a ++ readsOf b := by
  induction a with
  | nil => rfl
  | cons ev evs ih => cases ev <;> simp [readsOf, ih]

theorem poolCallsOf_append (a b : List Event) :
    poolCallsOf (a ++ b) = poolCallsOf a ++ poolCallsOf b := by
  induction a with
  | nil => rfl
  | cons ev evs ih => cases ev <;> simp [poolCallsOf, ih]

theorem BufferPool.get_trace (PS : Nat) (s : Sys) (file : String) (n : Nat) :
    (BufferPool.get PS s file n).2.trace = s.trace ++ [.get file n] := by
  simp only [BufferPool.get, Sys.log_frames, Sys.log_capacity]
  cases lookupFrame s.frames file n with
  | some f => rfl
  | none =>
    simp only []
    by_cases hcap : s.frames.length < s.capacity
    · rw [if_pos hcap]; rfl
    · rw [if_neg hcap]
      cases victim s.frames with
      | none => rfl
      | some v => rfl

theorem BufferPool.unpin_trace (s : Sys) (file : String) (n : Nat) :
    (BufferPool.unpin s file n).2.trace = s.trace ++ [.unpin file n] := by
  simp only [BufferPool.unpin, Sys.log_frames]
  cases lookupFrame s.frames file n with
  | none => rfl
  | some f =>
    simp only []
    by_cases hp : f.pin = 0
    · rw [if_pos hp]; rfl
    · rw [if_neg hp]; rfl

/-- The trace of a `readPage`, however it ends: the call itself, and calls of the
pool. -/
theorem BlockFile.readPage_trace (PS : Nat) (bf : BlockFile) (s : Sys) (n : Nat) :
    ∃ evs, (bf.readPage PS s n).2.trace = s.trace ++ .readPage bf.path_ n :: evs ∧
      readsOf evs = [] ∧ writesOf evs = [] := by
  simp only [BlockFile.readPage]
  have hg := BufferPool.get_trace PS (s.log (.readPage bf.path_ n)) bf.path_ n
  cases hget : BufferPool.get PS (s.log (.readPage bf.path_ n)) bf.path_ n with
  | mk r sg =>
    rw [hget] at hg
    simp only [Sys.log_trace] at hg
    cases r with
    | error err =>
      exact ⟨[.get bf.path_ n], by simp [hg], rfl, rfl⟩
    | ok frame =>
      have hu := BufferPool.unpin_trace sg bf.path_ n
      cases hunpin : BufferPool.unpin sg bf.path_ n with
      | mk r2 su =>
        rw [hunpin] at hu
        simp only [] at hu
        refine ⟨[.get bf.path_ n, .unpin bf.path_ n], ?_, rfl, rfl⟩
        cases r2 with
        | error err => simp [hunpin, hu, hg]
        | ok u => simp [hunpin, hu, hg]

/-- The trace of a `writePage`, however it ends: the call itself, and calls of the
pool. -/
theorem BlockFile.writePage_trace (PS : Nat) (bf : BlockFile) (s : Sys) (n : Nat)
    (pg : Page) :
    ∃ evs, (bf.writePage PS s n pg).2.trace = s.trace ++ .writePage bf.path_ n pg :: evs ∧
      readsOf evs = [] ∧ writesOf evs = [] := by
  simp only [BlockFile.writePage]
  have hg := BufferPool.get_trace PS (s.log (.writePage bf.path_ n pg)) bf.path_ n
  cases hget : BufferPool.get PS (s.log (.writePage bf.path_ n pg)) bf.path_ n with
  | mk r sg =>
    rw [hget] at hg
    simp only [Sys.log_trace] at hg
    cases r with
    | error err =>
      exact ⟨[.get bf.path_ n], by simp [hg], rfl, rfl⟩
    | ok frame =>
      have hu := BufferPool.unpin_trace
        (BufferPool.markDirty (storeFrame sg bf.path_ n pg) bf.path_ n) bf.path_ n
      refine ⟨[.get bf.path_ n, .markDirty bf.path_ n, .unpin bf.path_ n], ?_, rfl, rfl⟩
      simp only []
      rw [hu]
      simp [BufferPool.markDirty, storeFrame, Sys.log, hg]

theorem BlockFile.readPage_reads (PS : Nat) (bf : BlockFile) (s : Sys) (n : Nat) :
    readsOf (bf.readPage PS s n).2.trace = readsOf s.trace ++ [(bf.path_, n)] ∧
      writesOf (bf.readPage PS s n).2.trace = writesOf s.trace := by
  obtain ⟨evs, ht, hr, hw⟩ := BlockFile.readPage_trace PS bf s n
  rw [ht, readsOf_append, writesOf_append]
  simp [readsOf, writesOf, hr, hw]

theorem BlockFile.writePage_writes (PS : Nat) (bf : BlockFile) (s : Sys) (n : Nat)
    (pg : Page) :
    readsOf (bf.writePage PS s n pg).2.trace = readsOf s.trace ∧
      writesOf (bf.writePage PS s n pg).2.trace = writesOf s.trace ++ [(bf.path_, n, pg)] := by
  obtain ⟨evs, ht, hr, hw⟩ := BlockFile.writePage_trace PS bf s n pg
  rw [ht, readsOf_append, writesOf_append]
  simp [readsOf, writesOf, hr, hw]
/-! ## The index `last` of `TableFile::appendRow` -/

/-- The trace of `appendRow` when `last` is not zero, however the call ends: page
`last` is read, and a page is written to `last` or to `last + 1` only; the page
written is the fresh page with the row, to `last + 1`, when the read returns a
page on which `insertRecord` reports full and the row fits in a fresh page. -/
theorem TableFile.appendRow_trace_else (PS : Nat) (e : Endian) (tf : TableFile) (s : Sys)
    (row : Row) (last : Nat) (hlast : (tf.bf_.pageCount PS s + sizeMod - 1) % sizeMod = last)
    (h0 : last ≠ 0) :
    readsOf (tf.appendRow PS e s row).2.trace = readsOf s.trace ++ [(tf.bf_.path_, last)] ∧
    (∃ ws, writesOf (tf.appendRow PS e s row).2.trace = writesOf s.trace ++ ws ∧
      ∀ w ∈ ws, w.2.1 = last ∨ w.2.1 = (last + 1) % sizeMod) ∧
    (∀ pg s1 i fresh, tf.bf_.readPage PS s last = (.ok pg, s1) →
      pg.insertRecord e (serializeRow e row) = none →
      (Page.fresh PS e).insertRecord e (serializeRow e row) = some (i, fresh) →
      writesOf (tf.appendRow PS e s row).2.trace
        = writesOf s.trace ++ [(tf.bf_.path_, (last + 1) % sizeMod, fresh)]) := by
  have hrd := BlockFile.readPage_reads PS tf.bf_ s last
  simp only [TableFile.appendRow, hlast, if_neg h0]
  cases hread : tf.bf_.readPage PS s last with
  | mk r s1 =>
    rw [hread] at hrd
    simp only [] at hrd
    cases r with
    | error err =>
      refine ⟨hrd.1, ⟨[], by simp [hrd.2], by simp⟩, ?_⟩
      intro pg s2 i fresh hc
      simp at hc
    | ok pg =>
      simp only []
      cases hins : pg.insertRecord e (serializeRow e row) with
      | none =>
        cases hfr : (Page.fresh PS e).insertRecord e (serializeRow e row) with
        | none =>
          refine ⟨hrd.1, ⟨[], by simp [hrd.2], by simp⟩, ?_⟩
          intro pg2 s2 i fresh _ _ hc
          cases hc
        | some p =>
          obtain ⟨i, fresh⟩ := p
          have hw := BlockFile.writePage_writes PS tf.bf_ s1 ((last + 1) % sizeMod) fresh
          simp only []
          refine ⟨by rw [hw.1, hrd.1], ⟨[(tf.bf_.path_, (last + 1) % sizeMod, fresh)],
            by rw [hw.2, hrd.2], by simp⟩, ?_⟩
          intro pg2 s2 i2 fresh2 _ _ hc
          simp only [Option.some.injEq, Prod.mk.injEq] at hc
          rw [hw.2, hrd.2, hc.2]
      | some p =>
        obtain ⟨i, pg1⟩ := p
        have hw := BlockFile.writePage_writes PS tf.bf_ s1 last pg1
        simp only []
        refine ⟨by rw [hw.1, hrd.1], ⟨[(tf.bf_.path_, last, pg1)],
          by rw [hw.2, hrd.2], by simp⟩, ?_⟩
        intro pg2 s2 i2 fresh2 hc1 hc2 _
        simp only [Prod.mk.injEq, Except.ok.injEq] at hc1
        rw [← hc1.1, hins] at hc2
        cases hc2

/-- The trace of `appendRow` when `last` is zero, however the call ends: no page is
read, and a page is written to page 1 only. -/
theorem TableFile.appendRow_trace_first (PS : Nat) (e : Endian) (tf : TableFile) (s : Sys)
    (row : Row) (hlast : (tf.bf_.pageCount PS s + sizeMod - 1) % sizeMod = 0) :
    readsOf (tf.appendRow PS e s row).2.trace = readsOf s.trace ∧
    ∃ ws, writesOf (tf.appendRow PS e s row).2.trace = writesOf s.trace ++ ws ∧
      ∀ w ∈ ws, w.2.1 = 1 := by
  simp only [TableFile.appendRow, hlast, if_true]
  cases hfr : (Page.fresh PS e).insertRecord e (serializeRow e row) with
  | none => exact ⟨rfl, [], by simp, by simp⟩
  | some p =>
    obtain ⟨i, fresh⟩ := p
    have hw := BlockFile.writePage_writes PS tf.bf_ s 1 fresh
    exact ⟨hw.1, [(tf.bf_.path_, 1, fresh)], hw.2, by simp⟩

/-- C19: in `appendRow`, `last = pageCount() - 1` is computed modulo `2 ^ 64`.  When
`pageCount()` is 0, `last` is `2 ^ 64 - 1`, which is not 0: page `2 ^ 64 - 1` is
read, no page 1 is written (a page is written to `2 ^ 64 - 1` or to 0 only), and
when the read returns a page on which `insertRecord` reports full and the row
fits in a fresh page, the fresh page is written to page `last + 1`, which is
page 0.  When `pageCount()` is at least 1, `last` is `pageCount() - 1` and no
page is written to page 0. -/
theorem TableFile.appendRow_last_index (PS : Nat) (e : Endian) (tf : TableFile) (s : Sys)
    (row : Row) :
    (tf.bf_.pageCount PS s = 0 →
      (tf.bf_.pageCount PS s + sizeMod - 1) % sizeMod = 2 ^ 64 - 1 ∧
      readsOf (tf.appendRow PS e s row).2.trace
        = readsOf s.trace ++ [(tf.bf_.path_, 2 ^ 64 - 1)] ∧
      (∃ ws, writesOf (tf.appendRow PS e s row).2.trace = writesOf s.trace ++ ws ∧
        ∀ w ∈ ws, w.2.1 = 2 ^ 64 - 1 ∨ w.2.1 = 0) ∧
      (∀ pg s1 i fresh, tf.bf_.readPage PS s (2 ^ 64 - 1) = (.ok pg, s1) →
        pg.insertRecord e (serializeRow e row) = none →
        (Page.fresh PS e).insertRecord e (serializeRow e row) = some (i, fresh) →
        writesOf (tf.appendRow PS e s row).2.trace
          = writesOf s.trace ++ [(tf.bf_.path_, 0, fresh)])) ∧
    (1 ≤ tf.bf_.pageCount PS s →
      (tf.bf_.pageCount PS s + sizeMod - 1) % sizeMod = tf.bf_.pageCount PS s - 1 ∧
      ∃ ws, writesOf (tf.appendRow PS e s row).2.trace = writesOf s.trace ++ ws ∧
        ∀ w ∈ ws, w.2.1 ≠ 0) := by
  have hlt := BlockFile.pageCount_lt PS tf.bf_ s
  rw [sizeMod_eq] at hlt
  refine ⟨?_, ?_⟩
  · intro hpc
    have hlast : (tf.bf_.pageCount PS s + sizeMod - 1) % sizeMod = 2 ^ 64 - 1 := by
      rw [hpc, sizeMod_eq]
      norm_num
    have hnext : (2 ^ 64 - 1 + 1) % sizeMod = 0 := by
      rw [sizeMod_eq]
      norm_num
    obtain ⟨hr, ⟨ws, hws, hall⟩, hspill⟩ :=
      TableFile.appendRow_trace_else PS e tf s row (2 ^ 64 - 1) hlast (by norm_num)
    rw [hnext] at hall hspill
    exact ⟨hlast, hr, ⟨ws, hws, hall⟩, hspill⟩
  · intro hpc
    have hlast : (tf.bf_.pageCount PS s + sizeMod - 1) % sizeMod
        = tf.bf_.pageCount PS s - 1 := by
      rw [sizeMod_eq]
      omega
    refine ⟨hlast, ?_⟩
    by_cases h0 : tf.bf_.pageCount PS s - 1 = 0
    · obtain ⟨_, ws, hws, hall⟩ :=
        TableFile.appendRow_trace_first PS e tf s row (by rw [hlast, h0])
      exact ⟨ws, hws, fun w hw => by rw [hall w hw]; decide⟩
    · obtain ⟨_, ⟨ws, hws, hall⟩, _⟩ :=
        TableFile.appendRow_trace_else PS e tf s row _ hlast h0
      refine ⟨ws, hws, fun w hw => ?_⟩
      have hnext : (tf.bf_.pageCount PS s - 1 + 1) % sizeMod = tf.bf_.pageCount PS s := by
        rw [sizeMod_eq]
        omega
      rcases hall w hw with hw1 | hw1
      · rw [hw1]; exact h0
      · rw [hw1, hnext]; omega

/-- Witness of C19: pages of 16 bytes and a pool of two frames.  On a table file
that is empty, `pageCount()` is 0 and `appendRow` of the row of the one column
`[1, 2]` writes one page, to page 0; on a table file of three pages
`pageCount()` is 3 and no page is written to page 0. -/
theorem TableFile.appendRow_last_index_witness :
    BlockFile.pageCount 16 ⟨"t.tbl"⟩ (Sys.withFile 2 []) = 0 ∧
    writesOf (TableFile.appendRow 16 .little ⟨⟨"t.tbl"⟩⟩ (Sys.withFile 2 []) [[1, 2]]).2.trace
      = [("t.tbl", 0, examplePage)] ∧
    ((BlockFile.pageCount 16 ⟨"t.tbl"⟩ (Sys.withFile 2 []) + sizeMod - 1) % sizeMod
        = 2 ^ 64 - 1 ∧
      readsOf (TableFile.appendRow 16 .little ⟨⟨"t.tbl"⟩⟩ (Sys.withFile 2 []) [[1, 2]]).2.trace
        = readsOf (Sys.withFile 2 []).trace ++ [("t.tbl", 2 ^ 64 - 1)] ∧
      (∃ ws, writesOf
            (TableFile.appendRow 16 .little ⟨⟨"t.tbl"⟩⟩ (Sys.withFile 2 []) [[1, 2]]).2.trace
          = writesOf (Sys.withFile 2 []).trace ++ ws ∧
        ∀ w ∈ ws, w.2.1 = 2 ^ 64 - 1 ∨ w.2.1 = 0) ∧
      (∀ pg s1 i fresh,
        BlockFile.readPage 16 ⟨"t.tbl"⟩ (Sys.withFile 2 []) (2 ^ 64 - 1) = (.ok pg, s1) →
        pg.insertRecord .little (serializeRow .little [[1, 2]]) = none →
        (Page.fresh 16 .little).insertRecord .little (serializeRow .little [[1, 2]])
          = some (i, fresh) →
        writesOf
            (TableFile.appendRow 16 .little ⟨⟨"t.tbl"⟩⟩ (Sys.withFile 2 []) [[1, 2]]).2.trace
          = writesOf (Sys.withFile 2 []).trace ++ [("t.tbl", 0, fresh)])) ∧
    BlockFile.pageCount 16 ⟨"t.tbl"⟩ (Sys.withFile 2 exampleTable) = 3 ∧
    ((BlockFile.pageCount 16 ⟨"t.tbl"⟩ (Sys.withFile 2 exampleTable) + sizeMod - 1) % sizeMod
        = BlockFile.pageCount 16 ⟨"t.tbl"⟩ (Sys.withFile 2 exampleTable) - 1 ∧
      ∃ ws, writesOf (TableFile.appendRow 16 .little ⟨⟨"t.tbl"⟩⟩
            (Sys.withFile 2 exampleTable) [[1, 2]]).2.trace
          = writesOf (Sys.withFile 2 exampleTable).trace ++ ws ∧
        ∀ w ∈ ws, w.2.1 ≠ 0) :=
  ⟨by decide, by decide,
    (TableFile.appendRow_last_index 16 .little ⟨⟨"t.tbl"⟩⟩ (Sys.withFile 2 []) [[1, 2]]).1
      (by decide),
    by decide,
    (TableFile.appendRow_last_index 16 .little ⟨⟨"t.tbl"⟩⟩ (Sys.withFile 2 exampleTable)
      [[1, 2]]).2 (by decide)⟩

/-! ## Pin counts -/

theorem lookupFrame_modifyFrame (fs : List Frame) (file file' : String) (n m : Nat)
    (g : Frame → Frame) (hkey : ∀ f, (g f).file = f.file ∧ (g f).pageNo = f.pageNo) :
    lookupFrame (modifyFrame fs file n g) file' m
      = (lookupFrame fs file' m).map (fun f => if f.hasKey file n then g f else f) := by
  induction fs with
  | nil => rfl
  | cons x xs ih =>
    have hcons : modifyFrame (x :: xs) file n g
        = (if x.hasKey file n then g x else x) :: modifyFrame xs file n g := rfl
    have hk : ((if x.hasKey file n then g x else x).file = file' ∧
        (if x.hasKey file n then g x else x).pageNo = m) ↔ (x.file = file' ∧ x.pageNo = m) := by
      by_cases hx : x.hasKey file n = true
      · rw [if_pos hx, (hkey x).1, (hkey x).2]
      · rw [if_neg hx]
    rw [hcons, lookupFrame_cons, lookupFrame_cons]
    by_cases hx : x.file = file' ∧ x.pageNo = m
    · rw [if_pos (hk.2 hx), if_pos hx]
      rfl
    · rw [if_neg (fun h => hx (hk.1 h)), if_neg hx]
      exact ih

theorem pinCount_modifyFrame_other (fs : List Frame) (file file' : String) (n m : Nat)
    (g : Frame → Frame) (hkey : ∀ f, (g f).file = f.file ∧ (g f).pageNo = f.pageNo)
    (h : ¬ (file' = file ∧ m = n)) :
    pinCount (modifyFrame fs file n g) file' m = pinCount fs file' m := by
  simp only [pinCount, lookupFrame_modifyFrame fs file file' n m g hkey]
  cases hl : lookupFrame fs file' m with
  | none => rfl
  | some f =>
    obtain ⟨_, hfile, hno⟩ := lookupFrame_some _ _ _ _ hl
    have hf : ¬ (f.hasKey file n = true) := by
      rw [Frame.hasKey_eq_true]
      intro hk
      exact h ⟨hfile ▸ hk.1, hno ▸ hk.2⟩
    simp only [Option.map_some', if_neg hf]

theorem pinCount_modifyFrame_pin (fs : List Frame) (file file' : String) (n m : Nat)
    (g : Frame → Frame) (hkey : ∀ f, (g f).file = f.file ∧ (g f).pageNo = f.pageNo)
    (hpin : ∀ f, (g f).pin = f.pin) :
    pinCount (modifyFrame fs file n g) file' m = pinCount fs file' m := by
  simp only [pinCount, lookupFrame_modifyFrame fs file file' n m g hkey]
  cases hl : lookupFrame fs file' m with
  | none => rfl
  | some f =>
    by_cases hf : f.hasKey file n = true
    · simp only [Option.map_some', if_pos hf, hpin]
    · simp only [Option.map_some', if_neg hf]

theorem pinCount_modifyFrame_same (fs : List Frame) (file : String) (n : Nat)
    (g : Frame → Frame) (hkey : ∀ f, (g f).file = f.file ∧ (g f).pageNo = f.pageNo)
    (f : Frame) (hl : lookupFrame fs file n = some f) :
    pinCount (modifyFrame fs file n g) file n = (g f).pin := by
  obtain ⟨_, hfile, hno⟩ := lookupFrame_some _ _ _ _ hl
  simp only [pinCount, lookupFrame_modifyFrame fs file file n n g hkey, hl, Option.map_some']
  rw [if_pos ((Frame.hasKey_eq_true f file n).2 ⟨hfile, hno⟩)]

theorem pinCount_cons_other (f : Frame) (rest : List Frame) (file : String) (n : Nat)
    (h : ¬ (f.file = file ∧ f.pageNo = n)) :
    pinCount (f :: rest) file n = pinCount rest file n := by
  simp only [pinCount, lookupFrame_cons, if_neg h]

theorem victim_some (fs : List Frame) (v : Frame) (h : victim fs = some v) :
    v ∈ fs ∧ v.pin = 0 := by
  refine ⟨List.mem_reverse.1 (List.mem_of_find?_eq_some h), ?_⟩
  have := List.find?_some h
  simpa using this

/-- The result of `get` does not depend on the ghost trace. -/
theorem BufferPool.get_log_fst (PS : Nat) (s : Sys) (ev : Event) (file : String) (n : Nat) :
    (BufferPool.get PS (s.log ev) file n).1 = (BufferPool.get PS s file n).1 := by
  simp only [BufferPool.get, Sys.log_frames, Sys.log_capacity]
  cases lookupFrame s.frames file n with
  | some f => rfl
  | none =>
    simp only []
    by_cases hcap : s.frames.length < s.capacity
    · rw [if_pos hcap, if_pos hcap]; rfl
    · rw [if_neg hcap, if_neg hcap]
      cases victim s.frames with
      | none => rfl
      | some v => rfl

/-- The pin counts after a `get` that succeeds: the frame of the page is at the
head of the pool with one pin more than the page had, and the pin count of
every other page is what it was. -/
theorem BufferPool.get_pins (PS : Nat) (s : Sys) (file : String) (n : Nat) (pg : Page)
    (s1 : Sys) (hnd : (s.frames.map Frame.key).Nodup)
    (h : BufferPool.get PS s file n = (.ok pg, s1)) :
    ∃ f rest, s1.frames = f :: rest ∧ f.file = file ∧ f.pageNo = n ∧ f.page = pg ∧
      f.pin = pinCount s.frames file n + 1 ∧
      ∀ file' m, ¬ (file' = file ∧ m = n) →
        pinCount rest file' m = pinCount s.frames file' m := by
  simp only [BufferPool.get, Sys.log_frames, Sys.log_capacity] at h
  cases hl : lookupFrame s.frames file n with
  | some f0 =>
    obtain ⟨_, hfile, hno⟩ := lookupFrame_some _ _ _ _ hl
    simp only [hl, Prod.mk.injEq, Except.ok.injEq] at h
    refine ⟨{ f0 with pin := f0.pin + 1 }, dropFrame s.frames file n, ?_, hfile, hno, h.1,
      ?_, ?_⟩
    · rw [← h.2]
    · simp only [pinCount, hl]
    · intro file' m hne
      simp only [pinCount, lookupFrame_dropFrame_other s.frames file file' n m hne]
  | none =>
    simp only [hl] at h
    by_cases hcap : s.frames.length < s.capacity
    · simp only [if_pos hcap, loadFrame, Prod.mk.injEq, Except.ok.injEq] at h
      refine ⟨Frame.mk file n (diskPage PS ((s.files file).getD []) n) 1 false, s.frames,
        by rw [← h.2]; rfl, rfl, rfl, h.1, ?_, fun _ _ _ => rfl⟩
      simp only [pinCount, hl]
    · simp only [if_neg hcap] at h
      cases hv : victim s.frames with
      | none => simp [hv] at h
      | some v =>
        simp only [hv, loadFrame, Prod.mk.injEq, Except.ok.injEq] at h
        obtain ⟨hvm, hvp⟩ := victim_some _ _ hv
        refine ⟨Frame.mk file n pg 1 false, dropFrame s.frames v.file v.pageNo,
          by rw [← h.2, ← h.1], rfl, rfl, rfl, ?_, ?_⟩
        · simp only [pinCount, hl]
        · intro file' m _
          by_cases hk : file' = v.file ∧ m = v.pageNo
          · rw [hk.1, hk.2]
            simp only [pinCount, Sys.log_frames, lookupFrame_dropFrame_same,
              lookupFrame_of_mem s.frames v hnd hvm, hvp]
          · simp only [pinCount, Sys.log_frames,
              lookupFrame_dropFrame_other s.frames v.file file' v.pageNo m hk]
/-- The pin counts and the calls of the pool of a `readPage` on a page on which
`get` succeeds. -/
theorem BlockFile.readPage_pins (PS : Nat) (bf : BlockFile) (s : Sys) (n : Nat) (pg0 : Page)
    (hnd : (s.frames.map Frame.key).Nodup)
    (hget : (BufferPool.get PS s bf.path_ n).1 = .ok pg0) :
    ∃ s1, bf.readPage PS s n = (.ok pg0, s1) ∧
      poolCallsOf s1.trace = poolCallsOf s.trace ++ [.get bf.path_ n, .unpin bf.path_ n] ∧
      ∀ file m, pinCount s1.frames file m = pinCount s.frames file m := by
  have hfst := BufferPool.get_log_fst PS s (.readPage bf.path_ n) bf.path_ n
  have htr := BufferPool.get_trace PS (s.log (.readPage bf.path_ n)) bf.path_ n
  rw [hget] at hfst
  cases hg : BufferPool.get PS (s.log (.readPage bf.path_ n)) bf.path_ n with
  | mk r sg =>
    rw [hg] at hfst htr
    simp only [Sys.log_trace] at hfst htr
    subst hfst
    obtain ⟨f, rest, hfr, hfile, hno, _, hpin, hother⟩ :=
      BufferPool.get_pins PS (s.log (.readPage bf.path_ n)) bf.path_ n pg0 sg hnd hg
    have hl : lookupFrame sg.frames bf.path_ n = some f := by
      rw [hfr, lookupFrame_cons, if_pos ⟨hfile, hno⟩]
    have hp : ¬ f.pin = 0 := by rw [hpin]; exact Nat.succ_ne_zero _
    have hkey : ∀ x : Frame, ({ x with pin := x.pin - 1 } : Frame).file = x.file ∧
        ({ x with pin := x.pin - 1 } : Frame).pageNo = x.pageNo := fun _ => ⟨rfl, rfl⟩
    simp only [BlockFile.readPage, hg, BufferPool.unpin, Sys.log_frames, hl, if_neg hp]
    refine ⟨_, rfl, ?_, ?_⟩
    · simp only [Sys.log_trace, htr, poolCallsOf_append]
      simp [poolCallsOf]
    · intro file m
      simp only []
      by_cases hk : file = bf.path_ ∧ m = n
      · rw [hk.1, hk.2, pinCount_modifyFrame_same _ _ _ _ hkey f hl]
        simp only [hpin, Sys.log_frames]
        omega
      · rw [pinCount_modifyFrame_other _ _ _ _ _ _ hkey hk, hfr,
          pinCount_cons_other f rest file m (fun h => hk ⟨h.1 ▸ hfile.symm ▸ rfl, h.2 ▸ hno.symm ▸ rfl⟩)]
        exact hother file m hk

/-- The pin counts and the calls of the pool of a `writePage` on a page on which
`get` succeeds. -/
theorem BlockFile.writePage_pins (PS : Nat) (bf : BlockFile) (s : Sys) (n : Nat)
    (pg pg0 : Page) (hnd : (s.frames.map Frame.key).Nodup)
    (hget : (BufferPool.get PS s bf.path_ n).1 = .ok pg0) :
    ∃ s1, bf.writePage PS s n pg = (.ok (), s1) ∧
      poolCallsOf s1.trace = poolCallsOf s.trace
        ++ [.get bf.path_ n, .markDirty bf.path_ n, .unpin bf.path_ n] ∧
      ∀ file m, pinCount s1.frames file m = pinCount s.frames file m := by
  have hfst := BufferPool.get_log_fst PS s (.writePage bf.path_ n pg) bf.path_ n
  have htr := BufferPool.get_trace PS (s.log (.writePage bf.path_ n pg)) bf.path_ n
  rw [hget] at hfst
  cases hg : BufferPool.get PS (s.log (.writePage bf.path_ n pg)) bf.path_ n with
  | mk r sg =>
    rw [hg] at hfst htr
    simp only [Sys.log_trace] at hfst htr
    subst hfst
    obtain ⟨f, rest, hfr, hfile, hno, _, hpin, hother⟩ :=
      BufferPool.get_pins PS (s.log (.writePage bf.path_ n pg)) bf.path_ n pg0 sg hnd hg
    have hl : lookupFrame sg.frames bf.path_ n = some f := by
      rw [hfr, lookupFrame_cons, if_pos ⟨hfile, hno⟩]
    have hkey1 : ∀ x : Frame, ({ x with page := pg } : Frame).file = x.file ∧
        ({ x with page := pg } : Frame).pageNo = x.pageNo := fun _ => ⟨rfl, rfl⟩
    have hkey2 : ∀ x : Frame, ({ x with dirty := true } : Frame).file = x.file ∧
        ({ x with dirty := true } : Frame).pageNo = x.pageNo := fun _ => ⟨rfl, rfl⟩
    have hkey3 : ∀ x : Frame, ({ x with pin := x.pin - 1 } : Frame).file = x.file ∧
        ({ x with pin := x.pin - 1 } : Frame).pageNo = x.pageNo := fun _ => ⟨rfl, rfl⟩
    have hl3 : lookupFrame (modifyFrame (modifyFrame sg.frames bf.path_ n
          (fun g => { g with page := pg })) bf.path_ n (fun g => { g with dirty := true }))
          bf.path_ n = some { f with page := pg, dirty := true } := by
      rw [lookupFrame_modifyFrame _ _ _ _ _ _ hkey2, lookupFrame_modifyFrame _ _ _ _ _ _ hkey1,
        hl]
      simp [(Frame.hasKey_eq_true f bf.path_ n).2 ⟨hfile, hno⟩, Frame.hasKey, hfile, hno]
    have hp : ¬ ({ f with page := pg, dirty := true } : Frame).pin = 0 := by
      show ¬ f.pin = 0
      rw [hpin]; exact Nat.succ_ne_zero _
    simp only [BlockFile.writePage, hg, BufferPool.unpin, BufferPool.markDirty, storeFrame,
      Sys.log_frames, hl3, if_neg hp]
    refine ⟨_, rfl, ?_, ?_⟩
    · simp only [Sys.log_trace, htr, poolCallsOf_append]
      simp [poolCallsOf]
    · intro file m
      simp only []
      by_cases hk : file = bf.path_ ∧ m = n
      · rw [hk.1, hk.2, pinCount_modifyFrame_same _ _ _ _ hkey3 _ hl3]
        simp only [hpin, Sys.log_frames]
        omega
      · rw [pinCount_modifyFrame_other _ _ _ _ _ _ hkey3 hk,
          pinCount_modifyFrame_other _ _ _ _ _ _ hkey2 hk,
          pinCount_modifyFrame_other _ _ _ _ _ _ hkey1 hk, hfr,
          pinCount_cons_other f rest file m (fun h => hk ⟨h.1 ▸ hfile.symm ▸ rfl, h.2 ▸ hno.symm ▸ rfl⟩)]
        exact hother file m hk

/-! ## Pin discipline of `BlockFile::readPage` and `BlockFile::writePage` -/

/-- C14: for a pool with at most one frame per page and a page `n` on which `get`
succeeds, `readPage(n, out)` and `writePage(n, pg)` both return normally; the
calls of the pool that `readPage` makes are one `get` and then one `unpin` on
`(path_, n)`, those of `writePage` one `get`, one `markDirty` and then one
`unpin` on `(path_, n)`; the `get` raises the pin count of the page by one, so
that the `unpin` never meets a pin count of zero; and after either call the pin
count of every page is what it was before it. -/
theorem BlockFile.pin_discipline (PS : Nat) (bf : BlockFile) (s : Sys) (n : Nat)
    (pg pg0 : Page) (hnd : (s.frames.map Frame.key).Nodup)
    (hget : (BufferPool.get PS s bf.path_ n).1 = .ok pg0) :
    (∃ s1, bf.readPage PS s n = (.ok pg0, s1) ∧
      poolCallsOf s1.trace = poolCallsOf s.trace ++ [.get bf.path_ n, .unpin bf.path_ n] ∧
      ∀ file m, pinCount s1.frames file m = pinCount s.frames file m) ∧
    (∃ s1, bf.writePage PS s n pg = (.ok (), s1) ∧
      poolCallsOf s1.trace = poolCallsOf s.trace
        ++ [.get bf.path_ n, .markDirty bf.path_ n, .unpin bf.path_ n] ∧
      ∀ file m, pinCount s1.frames file m = pinCount s.frames file m) ∧
    pinCount (BufferPool.get PS s bf.path_ n).2.frames bf.path_ n
      = pinCount s.frames bf.path_ n + 1 := by
  refine ⟨BlockFile.readPage_pins PS bf s n pg0 hnd hget,
    BlockFile.writePage_pins PS bf s n pg pg0 hnd hget, ?_⟩
  cases hg : BufferPool.get PS s bf.path_ n with
  | mk r sg =>
    rw [hg] at hget
    simp only [] at hget
    subst hget
    obtain ⟨f, rest, hfr, hfile, hno, _, hpin, _⟩ :=
      BufferPool.get_pins PS s bf.path_ n pg0 sg hnd hg
    simp only [hfr, pinCount, lookupFrame_cons, if_pos (And.intro hfile hno), hpin]

theorem BlockFile.pin_discipline_witness :
    (Sys.pinned.frames.map Frame.key).Nodup ∧
    (BufferPool.get 2 Sys.pinned "t.tbl" 0).1 = .ok [1, 2] ∧
    (∃ s1, BlockFile.readPage 2 (BlockFile.mk "t.tbl") Sys.pinned 0 = (.ok [1, 2], s1) ∧
      poolCallsOf s1.trace = poolCallsOf Sys.pinned.trace
        ++ [.get "t.tbl" 0, .unpin "t.tbl" 0] ∧
      ∀ file m, pinCount s1.frames file m = pinCount Sys.pinned.frames file m) ∧
    (∃ s1, BlockFile.writePage 2 (BlockFile.mk "t.tbl") Sys.pinned 0 [3, 4] = (.ok (), s1) ∧
      poolCallsOf s1.trace = poolCallsOf Sys.pinned.trace
        ++ [.get "t.tbl" 0, .markDirty "t.tbl" 0, .unpin "t.tbl" 0] ∧
      ∀ file m, pinCount s1.frames file m = pinCount Sys.pinned.frames file m) ∧
    pinCount (BufferPool.get 2 Sys.pinned "t.tbl" 0).2.frames "t.tbl" 0
      = pinCount Sys.pinned.frames "t.tbl" 0 + 1 :=
  ⟨by simp [Sys.pinned], by rfl,
    BlockFile.pin_discipline 2 (BlockFile.mk "t.tbl") Sys.pinned 0 [3, 4] [1, 2]
      (by simp [Sys.pinned]) (by rfl)⟩

/-! ## `TableFile::loadAllRows`: lemmas -/

theorem decodeRecords_eq (e : Endian) (pg : Page) (recs : List (Nat × Nat))
    (h : ∀ r ∈ recs, r.1 + r.2 ≤ pg.length) :
    ∃ rows, decodeRecords e pg recs = some rows ∧
      rows.map some = recs.map (fun r => deserializeRow e (pg.drop r.1) r.2) := by
  induction recs with
  | nil => exact ⟨[], rfl, rfl⟩
  | cons r rs ih =>
    obtain ⟨off, len⟩ := r
    obtain ⟨rows, hrows, hmap⟩ := ih (fun x hx => h x (List.mem_cons_of_mem _ hx))
    have hin := h (off, len) (List.mem_cons_self _ _)
    have hlen : len % 65536 ≤ (pg.drop off).length := by
      rw [List.length_drop]
      have := Nat.mod_le len 65536
      simp only [] at hin
      omega
    obtain ⟨row, hrow⟩ := deserializeRow_isSome e (pg.drop off) len hlen
    refine ⟨row :: rows, ?_, ?_⟩
    · simp only [decodeRecords, hrow, hrows]
    · simp only [List.map_cons, hrow, hmap]

theorem Page.decodeRecords_decoded (e : Endian) (pg : Page)
    (h : pg.slotsInside e = true) :
    ∃ rows, decodeRecords e pg (pg.forEachRecord e) = some rows ∧
      rows.map some = pg.decoded e := by
  apply decodeRecords_eq
  intro r hr
  have := List.all_eq_true.1 h r hr
  simpa using this

theorem BufferPool.unpin_files (s : Sys) (file : String) (n : Nat) :
    (BufferPool.unpin s file n).2.files = s.files := by
  simp only [BufferPool.unpin, Sys.log_frames]
  cases lookupFrame s.frames file n with
  | none => rfl
  | some f =>
    simp only []
    by_cases hp : f.pin = 0
    · rw [if_pos hp]; rfl
    · rw [if_neg hp]; rfl

/-- The files after a `get`: unchanged, or a dirty frame of the pool written
back. -/
theorem BufferPool.get_files (PS : Nat) (s : Sys) (file : String) (n : Nat) :
    (BufferPool.get PS s file n).2.files = s.files ∨
    ∃ v ∈ s.frames, v.dirty = true ∧
      (BufferPool.get PS s file n).2.files = writeBack PS s.files v := by
  simp only [BufferPool.get, Sys.log_frames, Sys.log_capacity]
  cases lookupFrame s.frames file n with
  | some f => exact Or.inl rfl
  | none =>
    simp only []
    by_cases hcap : s.frames.length < s.capacity
    · rw [if_pos hcap]; exact Or.inl rfl
    · rw [if_neg hcap]
      cases hv : victim s.frames with
      | none => exact Or.inl rfl
      | some v =>
        by_cases hd : v.dirty = true
        · refine Or.inr ⟨v, (victim_some _ _ hv).1, hd, ?_⟩
          simp [loadFrame, hd, Sys.log]
        · refine Or.inl ?_
          simp [loadFrame, hd, Sys.log]

/-- The files after a `readPage`: unchanged, or a dirty frame of the pool written
back. -/
theorem BlockFile.readPage_files (PS : Nat) (bf : BlockFile) (s : Sys) (n : Nat) :
    (bf.readPage PS s n).2.files = s.files ∨
    ∃ v ∈ s.frames, v.dirty = true ∧
      (bf.readPage PS s n).2.files = writeBack PS s.files v := by
  have hg := BufferPool.get_files PS (s.log (.readPage bf.path_ n)) bf.path_ n
  have he : (bf.readPage PS s n).2.files
      = (BufferPool.get PS (s.log (.readPage bf.path_ n)) bf.path_ n).2.files := by
    simp only [BlockFile.readPage]
    cases hget : BufferPool.get PS (s.log (.readPage bf.path_ n)) bf.path_ n with
    | mk r sg =>
      cases r with
      | error err => rfl
      | ok frame =>
        have hu := BufferPool.unpin_files sg bf.path_ n
        cases hunpin : BufferPool.unpin sg bf.path_ n with
        | mk r2 su =>
          rw [hunpin] at hu
          cases r2 with
          | error err => simpa [hunpin] using hu
          | ok u => simpa [hunpin] using hu
  rw [he]
  exact hg

theorem storePage_length (PS : Nat) (content : List Byte) (n : Nat) (pg : Page) :
    (storePage PS content n pg).length = max content.length (n * PS + PS) := by
  simp [storePage]

theorem Sys.fileLength_writeBack (PS : Nat) (s s1 : Sys) (v : Frame) (path : String)
    (h : s1.files = writeBack PS s.files v) :
    s1.fileLength path
      = if path = v.file then max (s.fileLength path) (v.pageNo * PS + PS)
        else s.fileLength path := by
  simp only [Sys.fileLength, h, writeBack]
  by_cases hp : path = v.file
  · rw [if_pos hp, if_pos hp]
    simp [storePage_length]
  · rw [if_neg hp, if_neg hp]

theorem BlockFile.pageCount_eq (PS : Nat) (bf : BlockFile) (s : Sys) :
    bf.pageCount PS s = (s.fileLength bf.path_ % sizeMod) / PS := rfl

theorem foldl_max_le (fs : List Frame) (b : Nat) :
    b ≤ fs.foldl (fun b f => max b (f.pageNo + 1)) b ∧
    ∀ f ∈ fs, f.pageNo + 1 ≤ fs.foldl (fun b f => max b (f.pageNo + 1)) b := by
  induction fs generalizing b with
  | nil => exact ⟨Nat.le_refl _, fun f hf => by cases hf⟩
  | cons g gs ih =>
    simp only [List.foldl_cons]
    obtain ⟨h1, h2⟩ := ih (max b (g.pageNo + 1))
    refine ⟨by omega, ?_⟩
    intro f hf
    rcases List.mem_cons.1 hf with rfl | hm
    · omega
    · exact h2 f hm

theorem scanBound_spec (PS : Nat) (tf : TableFile) (s : Sys) :
    tf.bf_.pageCount PS s ≤ scanBound PS tf s ∧
    ∀ f ∈ s.frames, f.file = tf.bf_.path_ → f.pageNo < scanBound PS tf s := by
  obtain ⟨h1, h2⟩ := foldl_max_le
    (s.frames.filter (fun f => decide (f.file = tf.bf_.path_))) (tf.bf_.pageCount PS s)
  refine ⟨h1, ?_⟩
  intro f hf hfile
  have := h2 f (List.mem_filter.2 ⟨hf, by simpa using hfile⟩)
  exact this
/-- One iteration of the scan: what `readPage` of a page inside the file does to
the files and the frames of the table, between two calls of the storage
layer. -/
theorem BlockFile.readPage_scan (PS : Nat) (bf : BlockFile) (s : Sys) (n B : Nat)
    (h : s.Ready PS) (hn : n < bf.pageCount PS s) (hlen : s.fileLength bf.path_ < sizeMod)
    (hB : B * PS < sizeMod) (hpc : bf.pageCount PS s ≤ B)
    (hfr : ∀ f ∈ s.frames, f.file = bf.path_ → f.dirty = true → f.pageNo < B) :
    ∃ s1, bf.readPage PS s n = (.ok (s.current PS bf.path_ n), s1) ∧ s1.Ready PS ∧
      (∀ file m, s1.current PS file m = s.current PS file m) ∧
      readsOf s1.trace = readsOf s.trace ++ [(bf.path_, n)] ∧
      writesOf s1.trace = writesOf s.trace ∧
      s1.fileLength bf.path_ < sizeMod ∧ bf.pageCount PS s1 ≤ B ∧
      (∀ f ∈ s1.frames, f.file = bf.path_ → f.dirty = true → f.pageNo < B) ∧
      bf.pageCount PS s ≤ bf.pageCount PS s1 ∧
      ((∀ f ∈ s.frames, f.file = bf.path_ → f.dirty = true → f.pageNo < bf.pageCount PS s) →
        bf.pageCount PS s1 = bf.pageCount PS s ∧
        ∀ f ∈ s1.frames, f.file = bf.path_ → f.dirty = true →
          f.pageNo < bf.pageCount PS s1) := by
  obtain ⟨s1, hread, hready, hcur, _, _, hfrom, _⟩ := BlockFile.readPage_spec PS bf s n h
  have hfiles := BlockFile.readPage_files PS bf s n
  have htr := BlockFile.readPage_reads PS bf s n
  rw [hread] at hfiles htr
  simp only [] at hfiles htr
  rw [BlockFile.pageCount_eq, Nat.mod_eq_of_lt hlen] at hn hpc
  have hPS : 0 < PS := by
    rcases Nat.eq_zero_or_pos PS with h0 | h0
    · rw [h0, Nat.div_zero] at hn; omega
    · exact h0
  have hL : s.fileLength bf.path_ < (B + 1) * PS :=
    (Nat.div_lt_iff_lt_mul hPS).1 (by omega)
  have hBB : B * PS + PS = (B + 1) * PS := by rw [Nat.add_mul, Nat.one_mul]
  -- the length of the file after the read
  have hlen1 : s1.fileLength bf.path_ = s.fileLength bf.path_ ∨
      ∃ v ∈ s.frames, v.dirty = true ∧ v.file = bf.path_ ∧
        s1.fileLength bf.path_ = max (s.fileLength bf.path_) (v.pageNo * PS + PS) := by
    rcases hfiles with hf | ⟨v, hv, hd, hf⟩
    · left
      simp only [Sys.fileLength, hf]
    · have := Sys.fileLength_writeBack PS s s1 v bf.path_ hf
      by_cases hp : bf.path_ = v.file
      · rw [if_pos hp] at this
        exact Or.inr ⟨v, hv, hd, hp.symm, this⟩
      · rw [if_neg hp] at this
        exact Or.inl this
  have hvB : ∀ v ∈ s.frames, v.file = bf.path_ → v.dirty = true →
      v.pageNo * PS + PS ≤ B * PS := by
    intro v hv hfile hd
    have := Nat.mul_le_mul_right PS (hfr v hv hfile hd)
    rw [Nat.succ_mul] at this
    exact this
  have hle : s.fileLength bf.path_ ≤ s1.fileLength bf.path_ := by
    rcases hlen1 with h1 | ⟨v, _, _, _, h1⟩
    · omega
    · rw [h1]; exact Nat.le_max_left _ _
  have hlt1 : s1.fileLength bf.path_ < sizeMod := by
    rcases hlen1 with h1 | ⟨v, hv, hd, hfile, h1⟩
    · omega
    · have := hvB v hv hfile hd
      rw [h1]
      exact max_lt hlen (by omega)
  have hL1 : s1.fileLength bf.path_ < (B + 1) * PS := by
    rcases hlen1 with h1 | ⟨v, hv, hd, hfile, h1⟩
    · omega
    · have := hvB v hv hfile hd
      rw [h1]
      exact max_lt hL (by omega)
  have hpc1 : bf.pageCount PS s1 = s1.fileLength bf.path_ / PS := by
    rw [BlockFile.pageCount_eq, Nat.mod_eq_of_lt hlt1]
  have hpc0 : bf.pageCount PS s = s.fileLength bf.path_ / PS := by
    rw [BlockFile.pageCount_eq, Nat.mod_eq_of_lt hlen]
  have hfr1 : ∀ f ∈ s1.frames, f.file = bf.path_ → f.dirty = true → f.pageNo < B := by
    intro f hf hfile hd
    rcases hfrom f hf with hk | hm
    · rw [hk.2]; omega
    · exact hfr f hm hfile hd
  refine ⟨s1, hread, hready, hcur, htr.1, htr.2, hlt1, ?_, hfr1, ?_, ?_⟩
  · rw [hpc1]
    exact Nat.lt_succ_iff.1 ((Nat.div_lt_iff_lt_mul hPS).2 hL1)
  · rw [hpc1, hpc0]
    exact Nat.div_le_div_right hle
  · intro hst
    have hsame : s1.fileLength bf.path_ = s.fileLength bf.path_ := by
      rcases hlen1 with h1 | ⟨v, hv, hd, hfile, h1⟩
      · exact h1
      · have hv1 := hst v hv hfile hd
        rw [hpc0] at hv1
        have := (Nat.le_div_iff_mul_le hPS).1 (Nat.succ_le_of_lt hv1)
        rw [Nat.succ_mul] at this
        rw [h1]
        exact max_eq_left this
    have hpcs : bf.pageCount PS s1 = bf.pageCount PS s := by rw [hpc1, hpc0, hsame]
    refine ⟨hpcs, ?_⟩
    intro f hf hfile hd
    rw [hpcs]
    rcases hfrom f hf with hk | hm
    · rw [hk.2, hpc0]; exact hn
    · exact hst f hm hfile hd
theorem pagesFrom_succ (file : String) (first count : Nat) :
    pagesFrom file first (count + 1) = (file, first) :: pagesFrom file (first + 1) count := by
  simp only [pagesFrom, List.range'_succ, List.map_cons]

/-- The loop of `loadAllRows` from page `p` on, between two calls of the storage
layer: it ends, and has pushed the rows of the pages from `p` up to the page
count of the file as the loop leaves it. -/
theorem loadLoop_scan (PS : Nat) (e : Endian) (tf : TableFile) (s0 : Sys) (B : Nat)
    (hB : B * PS < sizeMod)
    (hslots : ∀ p, 1 ≤ p → p < B → (s0.current PS tf.bf_.path_ p).slotsInside e = true) :
    ∀ (fuel : Nat) (s : Sys) (p : Nat) (dest : List Row), 1 ≤ p → B ≤ fuel + p →
      s.Ready PS → (∀ file m, s.current PS file m = s0.current PS file m) →
      s.fileLength tf.bf_.path_ < sizeMod → tf.bf_.pageCount PS s ≤ B →
      (∀ f ∈ s.frames, f.file = tf.bf_.path_ → f.dirty = true → f.pageNo < B) →
      ∃ s1 rows, loadLoop PS e tf fuel s p dest = some (.ok (), dest ++ rows, s1) ∧
        rows.map some = scanRows PS e s0 tf.bf_.path_ p (tf.bf_.pageCount PS s1 - p) ∧
        readsOf s1.trace
          = readsOf s.trace ++ pagesFrom tf.bf_.path_ p (tf.bf_.pageCount PS s1 - p) ∧
        writesOf s1.trace = writesOf s.trace ∧
        tf.bf_.pageCount PS s ≤ tf.bf_.pageCount PS s1 ∧
        (∀ file m, s1.current PS file m = s0.current PS file m) ∧ s1.Ready PS ∧
        ((∀ f ∈ s.frames, f.file = tf.bf_.path_ → f.dirty = true →
            f.pageNo < tf.bf_.pageCount PS s) →
          tf.bf_.pageCount PS s1 = tf.bf_.pageCount PS s) := by
  have hexit : ∀ (s : Sys) (p : Nat) (dest : List Row), ¬ p < tf.bf_.pageCount PS s →
      s.Ready PS → (∀ file m, s.current PS file m = s0.current PS file m) →
      ∃ s1 rows, (some (Except.ok (), dest, s) : Option (Except Failure Unit × List Row × Sys))
          = some (Except.ok (), dest ++ rows, s1) ∧
        rows.map some = scanRows PS e s0 tf.bf_.path_ p (tf.bf_.pageCount PS s1 - p) ∧
        readsOf s1.trace
          = readsOf s.trace ++ pagesFrom tf.bf_.path_ p (tf.bf_.pageCount PS s1 - p) ∧
        writesOf s1.trace = writesOf s.trace ∧
        tf.bf_.pageCount PS s ≤ tf.bf_.pageCount PS s1 ∧
        (∀ file m, s1.current PS file m = s0.current PS file m) ∧ s1.Ready PS ∧
        ((∀ f ∈ s.frames, f.file = tf.bf_.path_ → f.dirty = true →
            f.pageNo < tf.bf_.pageCount PS s) →
          tf.bf_.pageCount PS s1 = tf.bf_.pageCount PS s) := by
    intro s p dest hp hready hcur
    have hz : tf.bf_.pageCount PS s - p = 0 := by omega
    refine ⟨s, [], by rw [List.append_nil], ?_, ?_, rfl, Nat.le_refl _, hcur, hready,
      fun _ => rfl⟩
    · rw [hz]; rfl
    · rw [hz]; simp [pagesFrom]
  intro fuel
  induction fuel with
  | zero =>
    intro s p dest _ hfuel hready hcur _ hpc _
    have hp : ¬ p < tf.bf_.pageCount PS s := by omega
    simp only [loadLoop, if_neg hp]
    exact hexit s p dest hp hready hcur
  | succ fuel ih =>
    intro s p dest hp1 hfuel hready hcur hlen hpc hfr
    by_cases hp : p < tf.bf_.pageCount PS s
    · obtain ⟨s1, hread, hready1, hcur1, hreads, hwrites, hlen1, hpc1, hfr1, hmono, hstable⟩ :=
        BlockFile.readPage_scan PS tf.bf_ s p B hready hp hlen hB hpc hfr
      have hpage : s.current PS tf.bf_.path_ p = s0.current PS tf.bf_.path_ p := hcur _ _
      obtain ⟨rows0, hdec, hmap0⟩ := Page.decodeRecords_decoded e (s0.current PS tf.bf_.path_ p)
        (hslots p hp1 (by omega))
      have hnext : (p + 1) % sizeMod = p + 1 := by
        apply Nat.mod_eq_of_lt
        have := BlockFile.pageCount_lt PS tf.bf_ s
        omega
      obtain ⟨s2, rows, hloop, hmap, hreads2, hwrites2, hmono2, hcur2, hready2, hstable2⟩ :=
        ih s1 (p + 1) (dest ++ rows0) (by omega) (by omega) hready1
          (fun file m => by rw [hcur1, hcur]) hlen1 hpc1 hfr1
      have hcnt : tf.bf_.pageCount PS s2 - p = (tf.bf_.pageCount PS s2 - (p + 1)) + 1 := by
        omega
      refine ⟨s2, rows0 ++ rows, ?_, ?_, ?_, ?_, by omega, hcur2, hready2, ?_⟩
      · simp only [loadLoop, if_pos hp, hread, hpage, hdec, hnext, hloop, List.append_assoc]
      · rw [hcnt]
        simp only [scanRows, List.map_append, hmap0, hmap]
      · rw [hcnt, pagesFrom_succ, hreads2, hreads]
        simp
      · rw [hwrites2, hwrites]
      · intro hst
        obtain ⟨h1, h2⟩ := hstable hst
        rw [hstable2 h2, h1]
    · simp only [loadLoop, if_neg hp]
      exact hexit s p dest hp hready hcur
theorem foldl_max_le_of (fs : List Frame) (b M : Nat) (hb : b ≤ M)
    (h : ∀ f ∈ fs, f.pageNo + 1 ≤ M) :
    fs.foldl (fun b f => max b (f.pageNo + 1)) b ≤ M := by
  induction fs generalizing b with
  | nil => exact hb
  | cons g gs ih =>
    simp only [List.foldl_cons]
    apply ih
    · exact max_le hb (h g (List.mem_cons_self _ _))
    · intro f hf
      exact h f (List.mem_cons_of_mem _ hf)

theorem extentBound_spec (PS : Nat) (tf : TableFile) (s : Sys) :
    tf.bf_.pageCount PS s ≤ extentBound PS tf s ∧
    (∀ f ∈ s.frames, f.file = tf.bf_.path_ → f.dirty = true →
      f.pageNo < extentBound PS tf s) ∧
    extentBound PS tf s ≤ scanBound PS tf s := by
  obtain ⟨h1, h2⟩ := foldl_max_le
    (s.frames.filter (fun f => decide (f.file = tf.bf_.path_) && f.dirty))
    (tf.bf_.pageCount PS s)
  obtain ⟨h3, h4⟩ := scanBound_spec PS tf s
  refine ⟨h1, ?_, ?_⟩
  · intro f hf hfile hd
    exact h2 f (List.mem_filter.2 ⟨hf, by simp [hfile, hd]⟩)
  · apply foldl_max_le_of _ _ _ h3
    intro f hf
    obtain ⟨hm, hk⟩ := List.mem_filter.1 hf
    simp only [Bool.and_eq_true, decide_eq_true_eq] at hk
    exact h4 f hm hk.1

/-! ## `TableFile::loadAllRows`: properties -/

/-- C16 as worded fails, with pages of 16 bytes and a pool of one frame, in the
world after an `appendRow` that spilled to a new page 2: `pageCount()` is 2 when
`loadAllRows` is called, and the call pushes the rows of pages 1 and 2, not
those of page 1 only; the read of page 1 evicts page 2, which extends the file,
and the loop goes on to page 2. -/
theorem TableFile.loadAllRows_entry_count :
    Sys.afterSpill.Ready 16 ∧
    BlockFile.pageCount 16 ⟨"t.tbl"⟩ Sys.afterSpill = 2 ∧
    (TableFile.loadAllRows 16 .little ⟨⟨"t.tbl"⟩⟩ Sys.afterSpill []).map (fun r => r.2.1)
      = some [[[1, 2]], [[1, 2]]] ∧
    scanRows 16 .little Sys.afterSpill "t.tbl" 1
      (BlockFile.pageCount 16 ⟨"t.tbl"⟩ Sys.afterSpill - 1) = [some [[1, 2]]] ∧
    ¬ ∃ s1 rows, TableFile.loadAllRows 16 .little ⟨⟨"t.tbl"⟩⟩ Sys.afterSpill []
        = some (.ok (), [] ++ rows, s1) ∧
      rows.map some = scanRows 16 .little Sys.afterSpill "t.tbl" 1
        (BlockFile.pageCount 16 ⟨"t.tbl"⟩ Sys.afterSpill - 1) := by
  have hrows : (TableFile.loadAllRows 16 .little ⟨⟨"t.tbl"⟩⟩ Sys.afterSpill []).map
      (fun r => r.2.1) = some [[[1, 2]], [[1, 2]]] := by decide
  have hscan : scanRows 16 .little Sys.afterSpill "t.tbl" 1
      (BlockFile.pageCount 16 ⟨"t.tbl"⟩ Sys.afterSpill - 1) = [some [[1, 2]]] := by decide
  refine ⟨⟨⟨by decide, by decide, by decide⟩, by decide, by decide⟩, by decide, hrows, hscan,
    ?_⟩
  rintro ⟨s1, rows, hload, hmap⟩
  rw [hload] at hrows
  rw [hscan] at hmap
  simp only [Option.map_some', List.nil_append, Option.some.injEq] at hrows
  rw [hrows] at hmap
  simp at hmap

/-- C16, amended: between two calls of the storage layer, for a table whose byte
offsets fit `size_t` and whose records lie inside their pages, `loadAllRows(dest)`
returns normally and leaves `dest` equal to its prior contents followed by
`deserializeRow` of every record of pages 1, 2, ..., `N - 1`, in ascending page
order and, within a page, ascending slot order, where `N` is the value of
`pageCount()` at the test that ends the loop; `N` is at least the value of
`pageCount()` at entry, and equal to it when the pool holds no modified page of
the table at or past the end of the file.  The pages read are pages 1, ...,
`N - 1`, so page 0 is never decoded, and no page is written.  A record with a
field that extends past its length contributes the empty row, and the scan goes
on.  When `pageCount()` is at most 1 at entry, nothing is appended and nothing
else changes. -/
theorem TableFile.loadAllRows_scan (PS : Nat) (e : Endian) (tf : TableFile) (s : Sys)
    (dest : List Row) (hready : s.Ready PS)
    (hlen : s.fileLength tf.bf_.path_ < sizeMod)
    (hbound : extentBound PS tf s * PS < sizeMod)
    (hslots : ∀ p, 1 ≤ p → p < extentBound PS tf s →
      (s.current PS tf.bf_.path_ p).slotsInside e = true) :
    (∃ s1 rows, tf.loadAllRows PS e s dest = some (.ok (), dest ++ rows, s1) ∧
      rows.map some = scanRows PS e s tf.bf_.path_ 1 (tf.bf_.pageCount PS s1 - 1) ∧
      readsOf s1.trace
        = readsOf s.trace ++ pagesFrom tf.bf_.path_ 1 (tf.bf_.pageCount PS s1 - 1) ∧
      writesOf s1.trace = writesOf s.trace ∧
      tf.bf_.pageCount PS s ≤ tf.bf_.pageCount PS s1 ∧
      ((∀ f ∈ s.frames, f.file = tf.bf_.path_ → f.dirty = true →
          f.pageNo < tf.bf_.pageCount PS s) →
        tf.bf_.pageCount PS s1 = tf.bf_.pageCount PS s)) ∧
    (∀ p r, 1 ≤ p → p < extentBound PS tf s →
      r ∈ (s.current PS tf.bf_.path_ p).forEachRecord e →
      fieldOverrun e ((s.current PS tf.bf_.path_ p).drop r.1) (r.2 % 65536) = true →
      deserializeRow e ((s.current PS tf.bf_.path_ p).drop r.1) r.2 = some []) ∧
    (tf.bf_.pageCount PS s ≤ 1 → tf.loadAllRows PS e s dest = some (.ok (), dest, s)) := by
  obtain ⟨hpc, hfr, hfuel⟩ := extentBound_spec PS tf s
  refine ⟨?_, ?_, ?_⟩
  · obtain ⟨s1, rows, hloop, hmap, hreads, hwrites, hmono, _, _, hstable⟩ :=
      loadLoop_scan PS e tf s (extentBound PS tf s) hbound hslots (scanBound PS tf s) s 1 dest
        (Nat.le_refl 1) (by omega) hready (fun _ _ => rfl) hlen hpc hfr
    exact ⟨s1, rows, hloop, hmap, hreads, hwrites, hmono, hstable⟩
  · intro p r hp1 hp2 hr ho
    have hin := List.all_eq_true.1 (hslots p hp1 hp2) r hr
    simp only [decide_eq_true_eq] at hin
    apply deserializeRow_overrun e _ _ _ ho
    rw [List.length_drop]
    have := Nat.mod_le r.2 65536
    omega
  · intro hle
    have hp : ¬ 1 < tf.bf_.pageCount PS s := by omega
    simp only [TableFile.loadAllRows]
    cases scanBound PS tf s with
    | zero => simp only [loadLoop, if_neg hp]
    | succ k => simp only [loadLoop, if_neg hp]

/-- Witness of C16, amended, with pages of 16 bytes.  In the world after a spill
with a pool of one frame, `pageCount()` is 2 at entry and 3 when the loop ends,
and the rows of pages 1 and 2 are pushed.  In the world after the constructor
and one `appendRow` at the start of a process, where the pool holds page
`2 ^ 64 - 1` unmodified, `pageCount()` is 0 and `dest` is left as it was.  On a
table file of three pages whose page 2 holds a record that does not decode, the
row of page 1 and then the empty row are pushed. -/
theorem TableFile.loadAllRows_scan_witness :
    (extentBound 16 ⟨⟨"t.tbl"⟩⟩ Sys.afterSpill = 3 ∧
      scanRows 16 .little Sys.afterSpill "t.tbl" 1 2 = [some [[1, 2]], some [[1, 2]]] ∧
      (∃ s1 rows, TableFile.loadAllRows 16 .little ⟨⟨"t.tbl"⟩⟩ Sys.afterSpill [[]]
            = some (.ok (), [[]] ++ rows, s1) ∧
        rows.map some = scanRows 16 .little Sys.afterSpill "t.tbl" 1
          (BlockFile.pageCount 16 ⟨"t.tbl"⟩ s1 - 1) ∧
        readsOf s1.trace = readsOf Sys.afterSpill.trace
          ++ pagesFrom "t.tbl" 1 (BlockFile.pageCount 16 ⟨"t.tbl"⟩ s1 - 1) ∧
        writesOf s1.trace = writesOf Sys.afterSpill.trace ∧
        BlockFile.pageCount 16 ⟨"t.tbl"⟩ Sys.afterSpill ≤ BlockFile.pageCount 16 ⟨"t.tbl"⟩ s1 ∧
        ((∀ f ∈ Sys.afterSpill.frames, f.file = "t.tbl" → f.dirty = true →
            f.pageNo < BlockFile.pageCount 16 ⟨"t.tbl"⟩ Sys.afterSpill) →
          BlockFile.pageCount 16 ⟨"t.tbl"⟩ s1
            = BlockFile.pageCount 16 ⟨"t.tbl"⟩ Sys.afterSpill))) ∧
    (BlockFile.pageCount 16 ⟨"t.tbl"⟩ Sys.afterAppend = 0 ∧
      scanBound 16 ⟨⟨"t.tbl"⟩⟩ Sys.afterAppend = 2 ^ 64 ∧
      extentBound 16 ⟨⟨"t.tbl"⟩⟩ Sys.afterAppend = 1 ∧
      (∃ s1 rows, TableFile.loadAllRows 16 .little ⟨⟨"t.tbl"⟩⟩ Sys.afterAppend [[]]
            = some (.ok (), [[]] ++ rows, s1) ∧
        rows.map some = scanRows 16 .little Sys.afterAppend "t.tbl" 1
          (BlockFile.pageCount 16 ⟨"t.tbl"⟩ s1 - 1) ∧
        readsOf s1.trace = readsOf Sys.afterAppend.trace
          ++ pagesFrom "t.tbl" 1 (BlockFile.pageCount 16 ⟨"t.tbl"⟩ s1 - 1) ∧
        writesOf s1.trace = writesOf Sys.afterAppend.trace ∧
        BlockFile.pageCount 16 ⟨"t.tbl"⟩ Sys.afterAppend
          ≤ BlockFile.pageCount 16 ⟨"t.tbl"⟩ s1 ∧
        ((∀ f ∈ Sys.afterAppend.frames, f.file = "t.tbl" → f.dirty = true →
            f.pageNo < BlockFile.pageCount 16 ⟨"t.tbl"⟩ Sys.afterAppend) →
          BlockFile.pageCount 16 ⟨"t.tbl"⟩ s1
            = BlockFile.pageCount 16 ⟨"t.tbl"⟩ Sys.afterAppend))) ∧
    (BlockFile.pageCount 16 ⟨"t.tbl"⟩ (Sys.withFile 1 exampleTable) = 3 ∧
      scanRows 16 .little (Sys.withFile 1 exampleTable) "t.tbl" 1 2
        = [some [[1, 2]], some []] ∧
      (∃ s1 rows, TableFile.loadAllRows 16 .little ⟨⟨"t.tbl"⟩⟩ (Sys.withFile 1 exampleTable)
            [[]] = some (.ok (), [[]] ++ rows, s1) ∧
        rows.map some = scanRows 16 .little (Sys.withFile 1 exampleTable) "t.tbl" 1
          (BlockFile.pageCount 16 ⟨"t.tbl"⟩ s1 - 1) ∧
        readsOf s1.trace = readsOf (Sys.withFile 1 exampleTable).trace
          ++ pagesFrom "t.tbl" 1 (BlockFile.pageCount 16 ⟨"t.tbl"⟩ s1 - 1) ∧
        writesOf s1.trace = writesOf (Sys.withFile 1 exampleTable).trace ∧
        BlockFile.pageCount 16 ⟨"t.tbl"⟩ (Sys.withFile 1 exampleTable)
          ≤ BlockFile.pageCount 16 ⟨"t.tbl"⟩ s1 ∧
        ((∀ f ∈ (Sys.withFile 1 exampleTable).frames, f.file = "t.tbl" → f.dirty = true →
            f.pageNo < BlockFile.pageCount 16 ⟨"t.tbl"⟩ (Sys.withFile 1 exampleTable)) →
          BlockFile.pageCount 16 ⟨"t.tbl"⟩ s1
            = BlockFile.pageCount 16 ⟨"t.tbl"⟩ (Sys.withFile 1 exampleTable)))) :=
  ⟨⟨by decide, by decide,
      (TableFile.loadAllRows_scan 16 .little ⟨⟨"t.tbl"⟩⟩ Sys.afterSpill [[]]
        ⟨⟨by decide, by decide, by decide⟩, by decide, by decide⟩ (by decide) (by decide)
        (by
          intro p h1 h2
          have hb : extentBound 16 ⟨⟨"t.tbl"⟩⟩ Sys.afterSpill = 3 := by decide
          rw [hb] at h2
          have hp : p = 1 ∨ p = 2 := by omega
          rcases hp with rfl | rfl
          · decide
          · decide)).1⟩,
    ⟨by decide, by decide, by decide,
      (TableFile.loadAllRows_scan 16 .little ⟨⟨"t.tbl"⟩⟩ Sys.afterAppend [[]]
        ⟨⟨by decide, by decide, by decide⟩, by decide, by decide⟩ (by decide) (by decide)
        (by
          intro p h1 h2
          have hb : extentBound 16 ⟨⟨"t.tbl"⟩⟩ Sys.afterAppend = 1 := by decide
          rw [hb] at h2
          omega)).1⟩,
    ⟨by decide, by decide,
      (TableFile.loadAllRows_scan 16 .little ⟨⟨"t.tbl"⟩⟩ (Sys.withFile 1 exampleTable) [[]]
        (Sys.withFile_ready 16 1 _ (by decide)) (by decide) (by decide)
        (by
          intro p h1 h2
          have hb : extentBound 16 ⟨⟨"t.tbl"⟩⟩ (Sys.withFile 1 exampleTable) = 3 := by decide
          rw [hb] at h2
          have hp : p = 1 ∨ p = 2 := by omega
          rcases hp with rfl | rfl
          · decide
          · decide)).1⟩⟩

/-! ## A fresh table, whatever the layout of a page -/

theorem TableFile.ctorWith_modelled (PS : Nat) (e : Endian) (s : Sys) (t : String)
    (create : Bool) (cols : List (List Byte)) :
    TableFile.ctorWith (PageOps.modelled PS e) PS s t create cols
      = TableFile.ctor PS e s t create cols := rfl

theorem TableFile.appendRowWith_modelled (PS : Nat) (e : Endian) (tf : TableFile) (s : Sys)
    (row : Row) :
    tf.appendRowWith (PageOps.modelled PS e) PS e s row = tf.appendRow PS e s row := rfl

theorem Sys.Cached.resident_or_room (PS : Nat) (s : Sys) (path : String) (n : Nat)
    (h : s.Cached PS path) (hn : n = 0 ∨ n = sizeMod - 1) :
    lookupFrame s.frames path n ≠ none ∨ s.frames.length < s.capacity := by
  by_cases hl : lookupFrame s.frames path n = none
  · right
    have hnone := lookupFrame_none _ _ _ hl
    have hmax : sizeMod - 1 ≠ 0 := by rw [sizeMod_eq]; decide
    have hsame : ∀ g ∈ s.frames, g.key = (path, if n = 0 then sizeMod - 1 else 0) := by
      intro g hg
      obtain ⟨hf, hp⟩ := h.keys g hg
      have hne : g.pageNo ≠ n := fun hc => hnone g hg ⟨hf, hc⟩
      simp only [Frame.key, hf, Prod.mk.injEq, true_and]
      rcases hn with rfl | rfl
      · rw [if_pos rfl]
        rcases hp with hp | hp
        · exact absurd hp hne
        · exact hp
      · rw [if_neg hmax]
        rcases hp with hp | hp
        · exact hp
        · exact absurd hp hne
    have := length_le_one_of_same_key s.frames _ h.ready.ok.nodup hsame
    have := h.room
    omega
  · exact Or.inl hl

theorem BlockFile.pageCount_cached (PS : Nat) (bf : BlockFile) (s : Sys)
    (h : s.Cached PS bf.path_) : bf.pageCount PS s = 0 := by
  simp [BlockFile.pageCount, h.empty]

/-- In such a state a `readPage` of page `0` or of page `2 ^ 64 - 1` returns the
current version of the page and leaves such a state. -/
theorem Sys.Cached.readPage_ok (PS : Nat) (bf : BlockFile) (s : Sys) (n : Nat)
    (h : s.Cached PS bf.path_) (hn : n = 0 ∨ n = sizeMod - 1) :
    ∃ s1, bf.readPage PS s n = (.ok (s.current PS bf.path_ n), s1) ∧
      s1.Cached PS bf.path_ ∧ (∀ file m, s1.current PS file m = s.current PS file m) ∧
      writesOf s1.trace = writesOf s.trace := by
  obtain ⟨s1, hread, hready, hcur, htrace, hcap, hkeys, hfiles⟩ :=
    BlockFile.readPage_spec PS bf s n h.ready
  have hf := hfiles (h.resident_or_room PS s bf.path_ n hn)
  refine ⟨s1, hread, ⟨hready, ?_, ?_, ?_⟩, hcur, ?_⟩
  · rw [hf.1]; exact h.empty
  · intro g hg
    rcases hkeys g hg with hk | hm
    · exact ⟨hk.1, by rw [hk.2]; exact hn⟩
    · exact h.keys g hm
  · rw [hcap]; exact h.room
  · rw [htrace, writesOf_append]
    simp [writesOf]

/-- In such a state a `writePage` of page `0` or of page `2 ^ 64 - 1` makes the page
the current version, changes no other page, and leaves such a state. -/
theorem Sys.Cached.writePage_ok (PS : Nat) (bf : BlockFile) (s : Sys) (n : Nat) (pg : Page)
    (h : s.Cached PS bf.path_) (hn : n = 0 ∨ n = sizeMod - 1) (hpg : pg.length = PS) :
    ∃ s1, bf.writePage PS s n pg = (.ok (), s1) ∧ s1.Cached PS bf.path_ ∧
      s1.current PS bf.path_ n = pg ∧
      (∀ file m, ¬ (file = bf.path_ ∧ m = n) → s1.current PS file m = s.current PS file m) ∧
      writesOf s1.trace = writesOf s.trace ++ [(bf.path_, n, pg)] := by
  obtain ⟨s1, hwrite, hready, hnew, hold, htrace, hcap, hkeys, hfiles, _⟩ :=
    BlockFile.writePage_spec PS bf s n pg h.ready hpg
  have hf := hfiles (h.resident_or_room PS s bf.path_ n hn)
  refine ⟨s1, hwrite, ⟨hready, ?_, ?_, ?_⟩, hnew, hold, ?_⟩
  · rw [hf.1]; exact h.empty
  · intro g hg
    rcases hkeys g hg with hk | hm
    · exact ⟨hk.1, by rw [hk.2]; exact hn⟩
    · exact h.keys g hm
  · rw [hcap]; exact h.room
  · rw [htrace, writesOf_append]
    simp [writesOf]

/-- In such a state `columnList` parses the current version of page `0` and leaves
such a state. -/
theorem Sys.Cached.columnList (PS : Nat) (tf : TableFile) (s : Sys)
    (h : s.Cached PS tf.bf_.path_) :
    ∃ s1, tf.columnList PS s = (.ok (headerCols (s.current PS tf.bf_.path_ 0)), s1) ∧
      s1.Cached PS tf.bf_.path_ ∧ (∀ file m, s1.current PS file m = s.current PS file m) ∧
      writesOf s1.trace = writesOf s.trace := by
  obtain ⟨s1, hread, hc, hcur, htr⟩ := h.readPage_ok PS tf.bf_ s 0 (Or.inl rfl)
  refine ⟨s1, ?_, hc, hcur, htr⟩
  simp only [TableFile.columnList, hread, headerCols]
  cases findSub colsTag (s.current PS tf.bf_.path_ 0) with
  | none => rfl
  | some pos => rfl
/-- The constructor of `TableFile` in create mode, at the start of a process with a
pool of at least two frames, whatever the default-constructed page is: it leaves
such a state, with the header page as the current version of page `0` and a
zero-filled page as that of page `2 ^ 64 - 1`. -/
theorem TableFile.ctorWith_cached (ops : PageOps) (PS cap : Nat) (t : String)
    (cols : List (List Byte)) (hcap : 2 ≤ cap) (hfresh : ops.fresh.length = PS)
    (hfit : (headerLoop cols colsTag).length ≤ PS) :
    ∃ s1, TableFile.ctorWith ops PS (Sys.boot cap) t true cols = (.ok ⟨⟨t ++ ".tbl"⟩⟩, s1) ∧
      s1.Cached PS (t ++ ".tbl") ∧
      s1.current PS (t ++ ".tbl") 0 = overwrite ops.fresh 0 (headerLoop cols colsTag) ∧
      s1.current PS (t ++ ".tbl") (sizeMod - 1) = Page.zero PS := by
  have hmax : sizeMod - 1 ≠ 0 := by rw [sizeMod_eq]; decide
  have h0 : Sys.Cached PS
      { Sys.boot cap with files := fun q => if q = t ++ ".tbl" then some [] else none }
      (t ++ ".tbl") := by
    refine ⟨Sys.Ready.truncate PS (Sys.boot cap) (t ++ ".tbl")
      (Sys.boot_ready PS cap (by omega)) rfl, by simp, ?_, hcap⟩
    intro g hg
    simp [Sys.boot] at hg
  obtain ⟨s1, hw1, hc1, _, ho1, _⟩ :=
    Sys.Cached.writePage_ok PS ⟨t ++ ".tbl"⟩ _ 0 ops.fresh h0 (Or.inl rfl) hfresh
  have hml : (overwrite ops.fresh 0 (headerLoop cols colsTag)).length = PS := by
    rw [overwrite_length _ _ _ (by rw [hfresh]; omega), hfresh]
  obtain ⟨s2, hw2, hc2, hn2, ho2, _⟩ :=
    Sys.Cached.writePage_ok PS ⟨t ++ ".tbl"⟩ s1 0 _ hc1 (Or.inl rfl) hml
  refine ⟨s2, ?_, hc2, hn2, ?_⟩
  · simp only [TableFile.ctorWith, BlockFile.ctorWith, if_true]
    have hw1' := hw1
    simp only [Sys.boot] at hw1' ⊢
    rw [hw1']
    simp only [if_neg (Nat.not_lt.2 hfit), hw2]
  · rw [ho2 _ _ (fun hc => hmax hc.2), ho1 _ _ (fun hc => hmax hc.2)]
    simp only [Sys.current, pageOf, Sys.boot, lookupFrame, List.find?_nil, if_true,
      Option.getD_some]
    exact diskPage_nil PS _

/-- In such a state `appendRow` of a row that fits in a fresh page reads page
`2 ^ 64 - 1`.  When `insertRecord` reports that page full, the fresh page that
holds the row is written to page `0`; otherwise the page with the row added is
written back to page `2 ^ 64 - 1`. -/
theorem Sys.Cached.appendRowWith (ops : PageOps) (PS : Nat) (e : Endian) (tf : TableFile)
    (s : Sys) (row : Row) (i : Nat) (fr : Page) (h : s.Cached PS tf.bf_.path_)
    (hfit : ops.insertRecord ops.fresh (serializeRow e row) = some (i, fr))
    (hfr : fr.length = PS) :
    (ops.insertRecord (s.current PS tf.bf_.path_ (sizeMod - 1)) (serializeRow e row) = none →
      ∃ s1, tf.appendRowWith ops PS e s row = (.ok (), s1) ∧ s1.Cached PS tf.bf_.path_ ∧
        s1.current PS tf.bf_.path_ 0 = fr ∧
        s1.current PS tf.bf_.path_ (sizeMod - 1) = s.current PS tf.bf_.path_ (sizeMod - 1) ∧
        writesOf s1.trace = writesOf s.trace ++ [(tf.bf_.path_, 0, fr)]) ∧
    (∀ j pg1, ops.insertRecord (s.current PS tf.bf_.path_ (sizeMod - 1)) (serializeRow e row)
        = some (j, pg1) → pg1.length = PS →
      ∃ s1, tf.appendRowWith ops PS e s row = (.ok (), s1) ∧ s1.Cached PS tf.bf_.path_ ∧
        s1.current PS tf.bf_.path_ (sizeMod - 1) = pg1 ∧
        s1.current PS tf.bf_.path_ 0 = s.current PS tf.bf_.path_ 0 ∧
        writesOf s1.trace = writesOf s.trace ++ [(tf.bf_.path_, sizeMod - 1, pg1)]) := by
  have hpc := BlockFile.pageCount_cached PS tf.bf_ s h
  have hlast : (tf.bf_.pageCount PS s + sizeMod - 1) % sizeMod = sizeMod - 1 := by
    rw [hpc, sizeMod_eq]
  have hmax : sizeMod - 1 ≠ 0 := by rw [sizeMod_eq]; decide
  have hnext : (sizeMod - 1 + 1) % sizeMod = 0 := by rw [sizeMod_eq]
  obtain ⟨s1, hread, hc1, hcur1, htr1⟩ := h.readPage_ok PS tf.bf_ s (sizeMod - 1) (Or.inr rfl)
  refine ⟨?_, ?_⟩
  · intro hfull
    obtain ⟨s2, hwrite, hc2, hnew, hold, htr2⟩ :=
      hc1.writePage_ok PS tf.bf_ s1 0 fr (Or.inl rfl) hfr
    refine ⟨s2, ?_, hc2, hnew, ?_, by rw [htr2, htr1]⟩
    · simp only [TableFile.appendRowWith, hlast, if_neg hmax, hread, hfull, hfit, hnext]
      exact hwrite
    · rw [hold _ _ (fun hc => hmax hc.2), hcur1]
  · intro j pg1 hins hlen
    obtain ⟨s2, hwrite, hc2, hnew, hold, htr2⟩ :=
      hc1.writePage_ok PS tf.bf_ s1 (sizeMod - 1) pg1 (Or.inr rfl) hlen
    refine ⟨s2, ?_, hc2, hnew, ?_, by rw [htr2, htr1]⟩
    · simp only [TableFile.appendRowWith, hlast, if_neg hmax, hread, hins]
      exact hwrite
    · rw [hold _ _ (fun hc => hmax hc.2.symm), hcur1]
/-- C8 fails on the code, whatever the layout of a page: take the constructor of the
table `t` at the start of a process with a pool of at least two frames, and a
row that fits in a fresh page but not twice in one page.  `columnList()` parses
the header page; then two calls `appendRow(row)` succeed, the second with one
call of `writePage`, for page `0`, with the fresh page that holds the row; the
header page is no longer the current version of page `0`, and `columnList()`
parses the data page instead. -/
theorem TableFile.appendRow_writes_header (ops : PageOps) (PS cap : Nat) (e : Endian)
    (t : String) (cols : List (List Byte)) (row : Row) (i : Nat) (fr : Page)
    (hcap : 2 ≤ cap) (hfresh : ops.fresh.length = PS)
    (hhdr : (headerLoop cols colsTag).length ≤ PS)
    (hfit : ops.insertRecord ops.fresh (serializeRow e row) = some (i, fr))
    (hfr : fr.length = PS)
    (hfull : ∀ j pg1, ops.insertRecord (Page.zero PS) (serializeRow e row) = some (j, pg1) →
      pg1.length = PS ∧ ops.insertRecord pg1 (serializeRow e row) = none) :
    ∃ s1 s2 s3 s4 s5,
      TableFile.ctorWith ops PS (Sys.boot cap) t true cols = (.ok ⟨⟨t ++ ".tbl"⟩⟩, s1) ∧
      TableFile.columnList PS ⟨⟨t ++ ".tbl"⟩⟩ s1
        = (.ok (headerCols (overwrite ops.fresh 0 (headerLoop cols colsTag))), s2) ∧
      TableFile.appendRowWith ops PS e ⟨⟨t ++ ".tbl"⟩⟩ s2 row = (.ok (), s3) ∧
      TableFile.appendRowWith ops PS e ⟨⟨t ++ ".tbl"⟩⟩ s3 row = (.ok (), s4) ∧
      writesOf s4.trace = writesOf s3.trace ++ [(t ++ ".tbl", 0, fr)] ∧
      s4.current PS (t ++ ".tbl") 0 = fr ∧
      TableFile.columnList PS ⟨⟨t ++ ".tbl"⟩⟩ s4 = (.ok (headerCols fr), s5) := by
  obtain ⟨s1, hctor, hc1, hpage1, htop1⟩ :=
    TableFile.ctorWith_cached ops PS cap t cols hcap hfresh hhdr
  obtain ⟨s2, hcl2, hc2, hcur2, _⟩ := Sys.Cached.columnList PS ⟨⟨t ++ ".tbl"⟩⟩ s1 hc1
  rw [show (⟨⟨t ++ ".tbl"⟩⟩ : TableFile).bf_.path_ = t ++ ".tbl" from rfl, hpage1] at hcl2
  have htop2 : s2.current PS (t ++ ".tbl") (sizeMod - 1) = Page.zero PS := by
    rw [hcur2, htop1]
  -- the two calls of appendRow
  have hstep : ∃ s3 s4, TableFile.appendRowWith ops PS e ⟨⟨t ++ ".tbl"⟩⟩ s2 row = (.ok (), s3) ∧
      TableFile.appendRowWith ops PS e ⟨⟨t ++ ".tbl"⟩⟩ s3 row = (.ok (), s4) ∧
      s4.Cached PS (t ++ ".tbl") ∧
      writesOf s4.trace = writesOf s3.trace ++ [(t ++ ".tbl", 0, fr)] ∧
      s4.current PS (t ++ ".tbl") 0 = fr := by
    obtain ⟨hA, hB⟩ := Sys.Cached.appendRowWith ops PS e ⟨⟨t ++ ".tbl"⟩⟩ s2 row i fr hc2 hfit hfr
    cases hz : ops.insertRecord (Page.zero PS) (serializeRow e row) with
    | none =>
      obtain ⟨s3, ha3, hc3, _, htop3, _⟩ := hA (by
        rw [show (⟨⟨t ++ ".tbl"⟩⟩ : TableFile).bf_.path_ = t ++ ".tbl" from rfl, htop2]
        exact hz)
      obtain ⟨hA3, _⟩ :=
        Sys.Cached.appendRowWith ops PS e ⟨⟨t ++ ".tbl"⟩⟩ s3 row i fr hc3 hfit hfr
      obtain ⟨s4, ha4, hc4, hnew4, _, htr4⟩ := hA3 (by
        rw [htop3, show (⟨⟨t ++ ".tbl"⟩⟩ : TableFile).bf_.path_ = t ++ ".tbl" from rfl, htop2]
        exact hz)
      exact ⟨s3, s4, ha3, ha4, hc4, htr4, hnew4⟩
    | some p =>
      obtain ⟨j, pg1⟩ := p
      obtain ⟨hlen1, hfull1⟩ := hfull j pg1 hz
      obtain ⟨s3, ha3, hc3, htop3, _, _⟩ := hB j pg1 (by
        rw [show (⟨⟨t ++ ".tbl"⟩⟩ : TableFile).bf_.path_ = t ++ ".tbl" from rfl, htop2]
        exact hz) hlen1
      obtain ⟨hA3, _⟩ :=
        Sys.Cached.appendRowWith ops PS e ⟨⟨t ++ ".tbl"⟩⟩ s3 row i fr hc3 hfit hfr
      obtain ⟨s4, ha4, hc4, hnew4, _, htr4⟩ := hA3 (by
        rw [htop3]
        exact hfull1)
      exact ⟨s3, s4, ha3, ha4, hc4, htr4, hnew4⟩
  obtain ⟨s3, s4, ha3, ha4, hc4, htr4, hnew4⟩ := hstep
  obtain ⟨s5, hcl5, _, _, _⟩ := Sys.Cached.columnList PS ⟨⟨t ++ ".tbl"⟩⟩ s4 hc4
  rw [show (⟨⟨t ++ ".tbl"⟩⟩ : TableFile).bf_.path_ = t ++ ".tbl" from rfl, hnew4] at hcl5
  exact ⟨s1, s2, s3, s4, s5, hctor, hcl2, ha3, ha4, htr4, hnew4, hcl5⟩
/-! ## The layout with a zero-filled fresh page -/

theorem u16Bytes_zero (e : Endian) : u16Bytes e 0 = [0, 0] := by
  cases e <;> rfl

theorem Page.zero_eq (PS : Nat) (e : Endian) (h : 4 ≤ PS) :
    Page.zero PS = u16Bytes e 0 ++ (u16Bytes e 0 ++ List.replicate (PS - 4) 0) := by
  have hPS : PS = 2 + (2 + (PS - 4)) := by omega
  rw [u16Bytes_zero, Page.zero]
  conv => lhs; rw [hPS, List.replicate_add, List.replicate_add]
  rfl

/-- The page that results from inserting a record in a zero-filled page, for the
layout with a zero-filled fresh page. -/
theorem Page.insertRecordZ_zero (PS : Nat) (e : Endian) (rec : List Byte)
    (hfit : 8 + rec.length ≤ PS) :
    Page.insertRecordZ PS e (Page.zero PS) rec
      = some (0, u16Bytes e 1 ++ (u16Bytes e rec.length ++
        (u16Bytes e (PS - rec.length) ++ (u16Bytes e rec.length ++
          (List.replicate (PS - 8 - rec.length) 0 ++ rec))))) := by
  have hcnt : Page.recordCount e (Page.zero PS) = 0 := by
    rw [Page.zero_eq PS e (by omega), Page.recordCount, loadU16_u16Bytes e 0 (by decide)]
    rfl
  have hused : (loadU16 e (Page.zero PS) 2).getD 0 = 0 := by
    have h := loadU16_append e (u16Bytes e 0) (List.replicate (PS - 4) 0) 0 (by decide)
    rw [u16Bytes_length] at h
    rw [Page.zero_eq PS e (by omega), h]
    rfl
  simp only [Page.insertRecordZ, hcnt, hused]
  rw [if_neg (by omega)]
  simp only [Option.some.injEq, Prod.mk.injEq, true_and, Nat.sub_zero, Nat.zero_add]
  rw [Page.zero_eq PS e (by omega)]
  have hz : List.replicate (PS - 4) (0 : Byte)
      = List.replicate 4 0 ++ (List.replicate (PS - 8 - rec.length) 0
        ++ List.replicate rec.length 0) := by
    rw [← List.replicate_add, ← List.replicate_add]
    congr 1
    omega
  rw [hz]
  have h1 : overwrite (u16Bytes e 0 ++ (u16Bytes e 0 ++ (List.replicate 4 0 ++
      (List.replicate (PS - 8 - rec.length) 0 ++ List.replicate rec.length 0))))
        (PS - rec.length) rec
      = u16Bytes e 0 ++ (u16Bytes e 0 ++ (List.replicate 4 0 ++
        (List.replicate (PS - 8 - rec.length) 0 ++ rec))) := by
    have := overwrite_mid (u16Bytes e 0 ++ (u16Bytes e 0 ++ (List.replicate 4 0 ++
      List.replicate (PS - 8 - rec.length) 0))) (List.replicate rec.length 0) [] rec
      (PS - rec.length) (by simp [u16Bytes_length]; omega) (by simp)
    simpa [List.append_assoc] using this
  have h2 : overwrite (u16Bytes e 0 ++ (u16Bytes e 0 ++ (List.replicate 4 0 ++
        (List.replicate (PS - 8 - rec.length) 0 ++ rec)))) (4 + 4 * 0)
        (u16Bytes e (PS - rec.length) ++ u16Bytes e rec.length)
      = u16Bytes e 0 ++ (u16Bytes e 0 ++ ((u16Bytes e (PS - rec.length)
        ++ u16Bytes e rec.length) ++ (List.replicate (PS - 8 - rec.length) 0 ++ rec))) := by
    have := overwrite_mid (u16Bytes e 0 ++ u16Bytes e 0) (List.replicate 4 0)
      (List.replicate (PS - 8 - rec.length) 0 ++ rec)
      (u16Bytes e (PS - rec.length) ++ u16Bytes e rec.length) (4 + 4 * 0)
      (by simp [u16Bytes_length]) (by simp [u16Bytes_length])
    simpa [List.append_assoc] using this
  have h3 : overwrite (u16Bytes e 0 ++ (u16Bytes e 0 ++ ((u16Bytes e (PS - rec.length)
        ++ u16Bytes e rec.length) ++ (List.replicate (PS - 8 - rec.length) 0 ++ rec)))) 0
        (u16Bytes e 1 ++ u16Bytes e rec.length)
      = (u16Bytes e 1 ++ u16Bytes e rec.length) ++ ((u16Bytes e (PS - rec.length)
        ++ u16Bytes e rec.length) ++ (List.replicate (PS - 8 - rec.length) 0 ++ rec)) := by
    have := overwrite_mid [] (u16Bytes e 0 ++ u16Bytes e 0)
      ((u16Bytes e (PS - rec.length) ++ u16Bytes e rec.length)
        ++ (List.replicate (PS - 8 - rec.length) 0 ++ rec))
      (u16Bytes e 1 ++ u16Bytes e rec.length) 0 rfl
      (by simp [u16Bytes_length])
    simpa [List.append_assoc] using this
  rw [h1, h2, h3]
  simp [List.append_assoc]

/-- A page that holds one record has no room for a record that does not fit next
to it, for the layout with a zero-filled fresh page. -/
theorem Page.insertRecordZ_full (PS : Nat) (e : Endian) (rec rec1 : List Byte)
    (hlen : rec.length < 65536) (hfull : PS < rec.length + 12 + rec1.length)
    (rest : List Byte) :
    Page.insertRecordZ PS e (u16Bytes e 1 ++ (u16Bytes e rec.length ++ rest)) rec1 = none := by
  have hcnt : Page.recordCount e (u16Bytes e 1 ++ (u16Bytes e rec.length ++ rest)) = 1 := by
    rw [Page.recordCount, loadU16_u16Bytes e 1 (by decide)]
    rfl
  have hused : (loadU16 e (u16Bytes e 1 ++ (u16Bytes e rec.length ++ rest)) 2).getD 0
      = rec.length := by
    have h := loadU16_append e (u16Bytes e 1) rest rec.length hlen
    rw [u16Bytes_length] at h
    rw [h]
    rfl
  simp only [Page.insertRecordZ, hcnt, hused]
  rw [if_pos (by omega)]

theorem PageOps.zeroFilled_fresh (PS : Nat) (e : Endian) :
    (PageOps.zeroFilled PS e).fresh = Page.zero PS := rfl

theorem PageOps.zeroFilled_insertRecord (PS : Nat) (e : Endian) (pg : Page)
    (rec : List Byte) :
    (PageOps.zeroFilled PS e).insertRecord pg rec = Page.insertRecordZ PS e pg rec := rfl

theorem Page.zero_length (PS : Nat) : (Page.zero PS).length = PS := by
  simp [Page.zero]

/-- The header page is the same whether the page it is written into is zero-filled
or fresh: the header covers the four bytes in which they differ. -/
theorem overwrite_zero_header (PS : Nat) (e : Endian) (src : List Byte)
    (h : 4 ≤ src.length) :
    overwrite (Page.zero PS) 0 src = overwrite (Page.fresh PS e) 0 src := by
  have hk : src.length = 4 + (src.length - 4) := by omega
  simp only [overwrite, List.take_zero, Nat.zero_add]
  congr 1
  rw [hk, Page.fresh_drop]
  simp only [Page.zero, List.drop_replicate]
  congr 1
  omega

/-! ## The header page of a fresh table is overwritten: two layouts -/

theorem PageOps.modelled_fresh (PS : Nat) (e : Endian) :
    (PageOps.modelled PS e).fresh = Page.fresh PS e := rfl

theorem PageOps.modelled_insertRecord (PS : Nat) (e : Endian) (pg : Page) (rec : List Byte) :
    (PageOps.modelled PS e).insertRecord pg rec = Page.insertRecord e pg rec := rfl

theorem serializeRow_replicate (e : Endian) (n : Nat) (b : Byte) (hn : n < 65536) :
    serializeRow e [List.replicate n b]
      = u16Bytes e 1 ++ (u16Bytes e n ++ List.replicate n b) := by
  rw [serializeRow_eq]
  simp [encodeCols, Nat.mod_eq_of_lt hn]

theorem serializeRow_bigRow (e : Endian) :
    (serializeRow e bigRow).length = 2104 ∧ (99 : Byte) ∉ serializeRow e bigRow := by
  have heq : serializeRow e bigRow
      = u16Bytes e 1 ++ (u16Bytes e 2100 ++ List.replicate 2100 120) :=
    serializeRow_replicate e 2100 120 (by decide)
  rw [heq]
  refine ⟨by simp only [List.length_append, u16Bytes_length, List.length_replicate], ?_⟩
  intro hm
  simp only [List.mem_append, List.mem_replicate] at hm
  rcases hm with hm | hm | hm
  · cases e
    · exact absurd hm (by decide)
    · exact absurd hm (by decide)
  · cases e
    · exact absurd hm (by decide)
    · exact absurd hm (by decide)
  · exact absurd hm.2 (by decide)

/-- Witness of C8, with pages of 4096 bytes, a pool of eight frames and a row of
one column of 2100 bytes, for two layouts of a page.  After
`TableFile("t", true, ["a", "b"])` `columnList()` returns `["a", "b"]`, two
calls `appendRow` succeed, the second writes page `0`, and `columnList()`
returns the empty list: with the layout modelled from the specification, and
with the layout whose fresh page is zero-filled. -/
theorem TableFile.appendRow_writes_header_witness :
    (∃ fr s1 s2 s3 s4 s5,
      TableFile.ctor 4096 .little (Sys.boot 8) "t" true [[97], [98]]
        = (.ok ⟨⟨"t" ++ ".tbl"⟩⟩, s1) ∧
      TableFile.columnList 4096 ⟨⟨"t" ++ ".tbl"⟩⟩ s1 = (.ok [[97], [98]], s2) ∧
      TableFile.appendRow 4096 .little ⟨⟨"t" ++ ".tbl"⟩⟩ s2 bigRow = (.ok (), s3) ∧
      TableFile.appendRow 4096 .little ⟨⟨"t" ++ ".tbl"⟩⟩ s3 bigRow = (.ok (), s4) ∧
      writesOf s4.trace = writesOf s3.trace ++ [("t" ++ ".tbl", 0, fr)] ∧
      s4.current 4096 ("t" ++ ".tbl") 0 = fr ∧
      TableFile.columnList 4096 ⟨⟨"t" ++ ".tbl"⟩⟩ s4 = (.ok [], s5)) ∧
    (∃ fr s1 s2 s3 s4 s5,
      TableFile.ctorWith (PageOps.zeroFilled 4096 .little) 4096 (Sys.boot 8) "t" true
        [[97], [98]] = (.ok ⟨⟨"t" ++ ".tbl"⟩⟩, s1) ∧
      TableFile.columnList 4096 ⟨⟨"t" ++ ".tbl"⟩⟩ s1 = (.ok [[97], [98]], s2) ∧
      TableFile.appendRowWith (PageOps.zeroFilled 4096 .little) 4096 .little
        ⟨⟨"t" ++ ".tbl"⟩⟩ s2 bigRow = (.ok (), s3) ∧
      TableFile.appendRowWith (PageOps.zeroFilled 4096 .little) 4096 .little
        ⟨⟨"t" ++ ".tbl"⟩⟩ s3 bigRow = (.ok (), s4) ∧
      writesOf s4.trace = writesOf s3.trace ++ [("t" ++ ".tbl", 0, fr)] ∧
      s4.current 4096 ("t" ++ ".tbl") 0 = fr ∧
      TableFile.columnList 4096 ⟨⟨"t" ++ ".tbl"⟩⟩ s4 = (.ok [], s5)) := by
  obtain ⟨hlen, h99⟩ := serializeRow_bigRow .little
  obtain ⟨hfind, hparse⟩ := parse_header_page 4096 .little [[97], [98]] (by decide)
  have hcols : headerCols (overwrite (Page.fresh 4096 .little) 0
      (headerLoop [[97], [98]] colsTag)) = [[97], [98]] := by
    simp only [headerCols, hfind, hparse]
  constructor
  · obtain ⟨fr, hfit⟩ := Page.insertRecord_fresh_isSome 4096 .little
      (serializeRow .little bigRow) (by decide) (by rw [hlen]; decide)
    obtain ⟨hfrlen, _, _⟩ :=
      Page.insertRecord_fresh_records 4096 .little _ 0 fr (by decide) hfit
    obtain ⟨_, _, hshape⟩ := Page.insertRecord_fresh 4096 .little _ 0 fr (by decide) hfit
    rw [← PageOps.modelled_fresh, ← PageOps.modelled_insertRecord 4096] at hfit
    obtain ⟨s1, s2, s3, s4, s5, hctor, hcl, ha3, ha4, htr, hcur, hcl5⟩ :=
      TableFile.appendRow_writes_header (PageOps.modelled 4096 .little) 4096 8 .little "t"
        [[97], [98]] bigRow 0 fr (by decide)
        (by rw [PageOps.modelled_fresh]; exact Page.fresh_length 4096 .little (by decide))
        (by decide) hfit hfrlen
        (fun j pg1 hz => by
          rw [PageOps.modelled_insertRecord, Page.insertRecord_zero] at hz
          cases hz)
    rw [TableFile.ctorWith_modelled] at hctor
    rw [TableFile.appendRowWith_modelled] at ha3 ha4
    rw [PageOps.modelled_fresh, hcols] at hcl
    have hnot : (99 : Byte) ∉ fr := by
      intro hm
      rw [hshape, hlen] at hm
      simp only [List.mem_append, List.mem_replicate] at hm
      rcases hm with hm | hm | hm | hm | hm | hm
      · exact absurd hm (by decide)
      · exact absurd hm (by decide)
      · exact absurd hm (by decide)
      · exact absurd hm (by decide)
      · exact absurd hm.2 (by decide)
      · exact h99 hm
    have hnone : headerCols fr = [] := by
      have hfs : findSub colsTag fr = none := findSub_none_of_not_mem 99 _ fr hnot
      simp only [headerCols, hfs]
    rw [hnone] at hcl5
    exact ⟨fr, s1, s2, s3, s4, s5, hctor, hcl, ha3, ha4, htr, hcur, hcl5⟩
  · have hfitZ := Page.insertRecordZ_zero 4096 .little (serializeRow .little bigRow)
      (by rw [hlen]; decide)
    obtain ⟨fr, hfrdef⟩ : ∃ fr : Page, fr = u16Bytes .little 1 ++
        (u16Bytes .little (serializeRow .little bigRow).length ++
          (u16Bytes .little (4096 - (serializeRow .little bigRow).length) ++
            (u16Bytes .little (serializeRow .little bigRow).length ++
              (List.replicate (4096 - 8 - (serializeRow .little bigRow).length) 0 ++
                serializeRow .little bigRow)))) := ⟨_, rfl⟩
    rw [← hfrdef] at hfitZ
    have hfrlen : fr.length = 4096 := by
      rw [hfrdef]
      simp only [List.length_append, u16Bytes_length, List.length_replicate, hlen]
    have hfullZ : Page.insertRecordZ 4096 .little fr (serializeRow .little bigRow) = none := by
      rw [hfrdef]
      exact Page.insertRecordZ_full 4096 .little _ _ (by rw [hlen]; decide)
        (by rw [hlen]; decide) _
    have hnot : (99 : Byte) ∉ fr := by
      intro hm
      rw [hfrdef, hlen] at hm
      simp only [List.mem_append, List.mem_replicate] at hm
      rcases hm with hm | hm | hm | hm | hm | hm
      · exact absurd hm (by decide)
      · exact absurd hm (by decide)
      · exact absurd hm (by decide)
      · exact absurd hm (by decide)
      · exact absurd hm.2 (by decide)
      · exact h99 hm
    have hnone : headerCols fr = [] := by
      have hfs : findSub colsTag fr = none := findSub_none_of_not_mem 99 _ fr hnot
      simp only [headerCols, hfs]
    obtain ⟨s1, s2, s3, s4, s5, hctor, hcl, ha3, ha4, htr, hcur, hcl5⟩ :=
      TableFile.appendRow_writes_header (PageOps.zeroFilled 4096 .little) 4096 8 .little "t"
        [[97], [98]] bigRow 0 fr (by decide)
        (by rw [PageOps.zeroFilled_fresh]; exact Page.zero_length 4096)
        (by decide)
        (by rw [PageOps.zeroFilled_insertRecord, PageOps.zeroFilled_fresh]; exact hfitZ)
        hfrlen
        (fun j pg1 hz => by
          rw [PageOps.zeroFilled_insertRecord, hfitZ] at hz
          simp only [Option.some.injEq, Prod.mk.injEq] at hz
          rw [← hz.2]
          exact ⟨hfrlen, by rw [PageOps.zeroFilled_insertRecord]; exact hfullZ⟩)
    rw [PageOps.zeroFilled_fresh, overwrite_zero_header 4096 .little _ (by decide), hcols]
      at hcl
    rw [hnone] at hcl5
    exact ⟨fr, s1, s2, s3, s4, s5, hctor, hcl, ha3, ha4, htr, hcur, hcl5⟩

end ElVoidDB
